import Mathlib

/-!
# Verification of the health-policy-watcher content pipeline

Shallow embedding of the pure core of the repository:

* `src/github_content_generator.py` — the Markdown → Notion-block converter
  (`markdown_to_notion_blocks`, `_parse_inline`, `_make_rich_text`), the
  paginated writer (`NotionAPI.create_child_page`), the child-page link URL
  (`NotionAPI.set_child_page_link`) and the blog-page block assembly
  (`save_to_notion`).
* `src/notion_wordpress_uploader.py` — the Notion-block → Markdown converter
  (`NotionBlockConverter.convert` / `_rich_text_to_md`) and the page-id
  extractor (`NotionWordPressUploader._extract_notion_page_id`).
* `src/notion_status_automation.py` — the status workflow computations
  (`process_content_complete_status`, `process_date_recording`).

Strings are embedded as `List Char`.  Python's `str.rstrip`/`str.strip`
and `str.splitlines` are modelled explicitly.  Rich-text objects are
embedded as a structure holding the `text.content` payload, the bold
annotation and an optional link; when the Block → Markdown converter reads
a run (the source reads `plain_text`, the echo of `text.content` returned
by the record store) we identify `plain_text` with the stored content.
-/

/-- Python whitespace for `str.rstrip()` / `str.strip()`: the characters
with `str.isspace()` true (ASCII whitespace, the C0 separators FS/GS/RS/US,
NEL, NBSP, and the Unicode space separators, as in CPython's
`Py_UNICODE_ISSPACE`). -/
def pyWs (c : Char) : Bool :=
  (0x09 ≤ c.toNat && c.toNat ≤ 0x0D) || c.toNat = 0x20 ||
  (0x1C ≤ c.toNat && c.toNat ≤ 0x1F) || c.toNat = 0x85 || c.toNat = 0xA0 ||
  c.toNat = 0x1680 || (0x2000 ≤ c.toNat && c.toNat ≤ 0x200A) ||
  c.toNat = 0x2028 || c.toNat = 0x2029 || c.toNat = 0x202F ||
  c.toNat = 0x205F || c.toNat = 0x3000

/-- The line-boundary characters of Python `str.splitlines()`:
LF, VT, FF, CR, FS, GS, RS, NEL, LINE SEPARATOR and PARAGRAPH SEPARATOR. -/
def isLineBreak (c : Char) : Bool :=
  (0x0A ≤ c.toNat && c.toNat ≤ 0x0D) || (0x1C ≤ c.toNat && c.toNat ≤ 0x1E) ||
  c.toNat = 0x85 || c.toNat = 0x2028 || c.toNat = 0x2029

/-- Consume the line boundary at the head of the remainder; the pair
`\r\n` counts as a single boundary, as in `str.splitlines()`. -/
def eatBreak : List Char → List Char
  | [] => []
  | [_] => []
  | c :: d :: r => if c = '\r' ∧ d = '\n' then r else d :: r

/-- Python `s.rstrip()`. -/
def rstripC (s : List Char) : List Char :=
  (s.reverse.dropWhile pyWs).reverse

/-- Python `s.strip()`. -/
def pyStripC (s : List Char) : List Char :=
  rstripC (s.dropWhile pyWs)

/-- Fuel-driven worker for `splitLinesC` (structural recursion so that the
kernel can evaluate it; the fuel is always sufficient, see
`splitLinesC_eq`). -/
def splitLinesF : Nat → List Char → List (List Char)
  | _, [] => []
  | 0, _ :: _ => []
  | f + 1, a :: t =>
      ((a :: t).takeWhile (fun c => !isLineBreak c)) ::
        splitLinesF f (eatBreak ((a :: t).dropWhile (fun c => !isLineBreak c)))

/-- Python `s.splitlines()`: split on the line-boundary characters (with
`\r\n` as a single boundary); a trailing boundary does not produce a
final empty line, and `"".splitlines() == []`. -/
def splitLinesC (s : List Char) : List (List Char) :=
  splitLinesF s.length s

theorem eatBreak_length_le (l : List Char) : (eatBreak l).length ≤ l.length - 1 := by
  cases l with
  | nil => simp [eatBreak]
  | cons c t =>
      cases t with
      | nil => simp [eatBreak]
      | cons d r =>
          show (if c = '\r' ∧ d = '\n' then r else d :: r).length ≤ (c :: d :: r).length - 1
          by_cases h : c = '\r' ∧ d = '\n'
          · rw [if_pos h]
            simp only [List.length_cons]
            omega
          · rw [if_neg h]
            simp only [List.length_cons]
            omega

theorem splitLinesF_congr :
    ∀ {f g : Nat} {s : List Char}, s.length ≤ f → s.length ≤ g →
      splitLinesF f s = splitLinesF g s := by
  intro f
  induction f with
  | zero =>
      intro g s hf _
      have : s = [] := List.length_eq_zero.mp (Nat.le_zero.mp hf)
      subst this
      cases g <;> rfl
  | succ f ih =>
      intro g s hf hg
      cases s with
      | nil => cases g <;> rfl
      | cons a t =>
          cases g with
          | zero => simp at hg
          | succ g =>
              simp only [splitLinesF]
              congr 1
              have hd : (eatBreak ((a :: t).dropWhile (fun c => !isLineBreak c))).length ≤
                  t.length := by
                have h1 : ((a :: t).dropWhile (fun c => !isLineBreak c)).length ≤
                    (a :: t).length := (List.dropWhile_suffix _).length_le
                have h2 := eatBreak_length_le ((a :: t).dropWhile (fun c => !isLineBreak c))
                simp only [List.length_cons] at h1 ⊢
                omega
              simp only [List.length_cons] at hf hg
              exact ih (Nat.le_trans hd (Nat.le_of_succ_le_succ hf))
                (Nat.le_trans hd (Nat.le_of_succ_le_succ hg))

/-- The defining recursion of `splitLinesC`. -/
theorem splitLinesC_eq (s : List Char) :
    splitLinesC s =
      match s with
      | [] => []
      | a :: t =>
          ((a :: t).takeWhile (fun c => !isLineBreak c)) ::
            splitLinesC (eatBreak ((a :: t).dropWhile (fun c => !isLineBreak c))) := by
  cases s with
  | nil => rfl
  | cons a t =>
      show splitLinesF (a :: t).length (a :: t) = _
      simp only [List.length_cons, splitLinesF]
      congr 1
      apply splitLinesF_congr
      · have h1 : ((a :: t).dropWhile (fun c => !isLineBreak c)).length ≤
            (a :: t).length := (List.dropWhile_suffix _).length_le
        have h2 := eatBreak_length_le ((a :: t).dropWhile (fun c => !isLineBreak c))
        simp only [List.length_cons] at h1 ⊢
        omega
      · exact Nat.le_refl _

/-- A Notion rich-text object as built by `_make_rich_text` in
`github_content_generator.py`: `{"type": "text", "text": {"content": …}}`
plus an optional `annotations.bold` flag and an optional `text.link.url`. -/
structure RichText where
  text : List Char
  bold : Bool
  link : Option (List Char)
deriving DecidableEq, Repr

/-- `_make_rich_text(text, bold)`: content truncated to 2000 characters. -/
def mkRichText (text : List Char) (bold : Bool) : RichText :=
  { text := text.take 2000, bold := bold, link := none }

/-- Fuel-driven worker for `chunkRun` (see `chunkRun_eq`). -/
def chunkRunF : Nat → List Char → List (List Char)
  | _, [] => []
  | 0, _ :: _ => []
  | f + 1, a :: t => (a :: t).take 2000 :: chunkRunF f ((a :: t).drop 2000)

/-- The 2000-character chunking loop of `_parse_inline`
(`while content: parts.append(…content[:2000]…); content = content[2000:]`). -/
def chunkRun (s : List Char) : List (List Char) :=
  chunkRunF s.length s

theorem chunkRunF_congr :
    ∀ {f g : Nat} {s : List Char}, s.length ≤ f → s.length ≤ g →
      chunkRunF f s = chunkRunF g s := by
  intro f
  induction f with
  | zero =>
      intro g s hf _
      have : s = [] := List.length_eq_zero.mp (Nat.le_zero.mp hf)
      subst this
      cases g <;> rfl
  | succ f ih =>
      intro g s hf hg
      cases s with
      | nil => cases g <;> rfl
      | cons a t =>
          cases g with
          | zero => simp at hg
          | succ g =>
              simp only [chunkRunF]
              congr 1
              have hd : ((a :: t).drop 2000).length ≤ t.length := by
                simp only [List.length_drop, List.length_cons]
                omega
              simp only [List.length_cons] at hf hg
              exact ih (Nat.le_trans hd (Nat.le_of_succ_le_succ hf))
                (Nat.le_trans hd (Nat.le_of_succ_le_succ hg))

/-- The defining recursion of `chunkRun`. -/
theorem chunkRun_eq (s : List Char) :
    chunkRun s = if s = [] then [] else s.take 2000 :: chunkRun (s.drop 2000) := by
  cases s with
  | nil => rfl
  | cons a t =>
      show chunkRunF (a :: t).length (a :: t) = _
      simp only [List.length_cons, chunkRunF, if_neg (List.cons_ne_nil a t)]
      congr 1
      apply chunkRunF_congr
      · simp only [List.length_drop, List.length_cons]; omega
      · exact Nat.le_refl _

/-- Try to match the regex `\*\*[^*]+\*\*` at the start of `s`; on success
return the captured content (the `[^*]+` part, which the engine takes
maximally) and the remainder of the string after the match. -/
def matchAt : List Char → Option (List Char × List Char)
  | a :: b :: t =>
      if a = '*' ∧ b = '*' then
        let run := t.takeWhile (fun c => c != '*')
        let rest := t.dropWhile (fun c => c != '*')
        if run ≠ [] ∧ rest.take 2 = ['*', '*'] then some (run, rest.drop 2)
        else none
      else none
  | _ => none

/-- Leftmost match of `\*\*[^*]+\*\*` in `s`, as Python's `re` scanner finds
it: try each start position from the left.  Returns the text before the
match, the captured content, and the text after the match. -/
def findMatch : List Char → Option (List Char × List Char × List Char)
  | [] => none
  | a :: t =>
      match matchAt (a :: t) with
      | some (c, r) => some ([], c, r)
      | none => (findMatch t).map fun pcr => (a :: pcr.1, pcr.2.1, pcr.2.2)

theorem matchAt_eq_some {s c r : List Char} (h : matchAt s = some (c, r)) :
    s = '*' :: '*' :: (c ++ '*' :: '*' :: r) ∧ c ≠ [] ∧ ∀ x ∈ c, x ≠ '*' := by
  match s with
  | [] => simp [matchAt] at h
  | [a] => simp [matchAt] at h
  | a :: b :: t =>
      simp only [matchAt] at h
      split at h
      · next hab =>
          obtain ⟨ha, hb⟩ := hab
          split at h
          · next hcond =>
              obtain ⟨hne, htake⟩ := hcond
              simp only [Option.some.injEq, Prod.mk.injEq] at h
              obtain ⟨hc, hr⟩ := h
              subst ha hb hc hr
              have h3 : t = t.takeWhile (fun c => c != '*') ++
                  (['*', '*'] ++ (t.dropWhile (fun c => c != '*')).drop 2) := by
                rw [← htake, List.take_append_drop, List.takeWhile_append_dropWhile]
              refine ⟨?_, hne, fun x hx => ?_⟩
              · conv_lhs => rw [h3]
                simp
              · have := List.mem_takeWhile_imp hx
                simpa using this
          · exact absurd h (by simp)
      · exact absurd h (by simp)

theorem findMatch_eq_some {s p c r : List Char}
    (h : findMatch s = some (p, c, r)) :
    s = p ++ '*' :: '*' :: (c ++ '*' :: '*' :: r) ∧ c ≠ [] ∧ ∀ x ∈ c, x ≠ '*' := by
  induction s generalizing p with
  | nil => simp [findMatch] at h
  | cons a t ih =>
      rw [findMatch] at h
      cases hm : matchAt (a :: t) with
      | some cr =>
          obtain ⟨c0, r0⟩ := cr
          rw [hm] at h
          simp only [Option.some.injEq, Prod.mk.injEq] at h
          obtain ⟨hp, hc, hr⟩ := h
          obtain ⟨hs, hne, hstar⟩ := matchAt_eq_some hm
          subst hp hc hr
          exact ⟨by rw [List.nil_append]; exact hs, hne, hstar⟩
      | none =>
          rw [hm] at h
          cases hf : findMatch t with
          | none => rw [hf] at h; simp at h
          | some pcr =>
              obtain ⟨p0, c0, r0⟩ := pcr
              rw [hf] at h
              simp only [Option.map_some', Option.some.injEq, Prod.mk.injEq] at h
              obtain ⟨hp, hc, hr⟩ := h
              subst hc hr
              obtain ⟨hs, hne, hstar⟩ := ih hf
              subst hp
              refine ⟨?_, hne, hstar⟩
              rw [List.cons_append, ← hs]

theorem findMatch_length_lt {s p c r : List Char}
    (h : findMatch s = some (p, c, r)) : r.length < s.length := by
  obtain ⟨hs, _, _⟩ := findMatch_eq_some h
  subst hs
  simp only [List.length_append, List.length_cons]
  omega

/-- Fuel-driven worker for `reSplit` (see `reSplit_eq`). -/
def reSplitF : Nat → List Char → List (List Char)
  | 0, s => [s]
  | f + 1, s =>
      match findMatch s with
      | none => [s]
      | some (p, c, r) => p :: ('*' :: '*' :: (c ++ ['*', '*'])) :: reSplitF f r

/-- Python `re.split(r"(\*\*[^*]+\*\*)", s)`: the list of alternating
non-matching pieces and captured matches (the non-matching pieces may be
empty, exactly as in Python). -/
def reSplit (s : List Char) : List (List Char) :=
  reSplitF (s.length + 1) s

theorem reSplitF_congr :
    ∀ {f g : Nat} {s : List Char}, s.length < f → s.length < g →
      reSplitF f s = reSplitF g s := by
  intro f
  induction f with
  | zero => intro g s hf _; omega
  | succ f ih =>
      intro g s hf hg
      cases g with
      | zero => omega
      | succ g =>
          simp only [reSplitF]
          cases hm : findMatch s with
          | none => rfl
          | some pcr =>
              obtain ⟨p, c, r⟩ := pcr
              have hlt := findMatch_length_lt hm
              exact congrArg (fun x => p :: ('*' :: '*' :: (c ++ ['*', '*'])) :: x)
                (ih (by omega) (by omega))

/-- The defining recursion of `reSplit`. -/
theorem reSplit_eq (s : List Char) :
    reSplit s =
      match findMatch s with
      | none => [s]
      | some (p, c, r) => p :: ('*' :: '*' :: (c ++ ['*', '*'])) :: reSplit r := by
  show reSplitF (s.length + 1) s = _
  rw [reSplitF]
  cases hm : findMatch s with
  | none => rfl
  | some pcr =>
      obtain ⟨p, c, r⟩ := pcr
      have hlt := findMatch_length_lt hm
      exact congrArg (fun x => p :: ('*' :: '*' :: (c ++ ['*', '*'])) :: x)
        (reSplitF_congr (by omega) (by omega))

/-- Shape test `seg.startswith("**") and seg.endswith("**") and len(seg) > 4`
from `_parse_inline`. -/
def isBoldShaped (seg : List Char) : Bool :=
  seg.take 2 = ['*', '*'] && seg.reverse.take 2 = ['*', '*'] && seg.length > 4

/-- The rich-text runs `_parse_inline` emits for one segment of the regex
split: empty segments are skipped, bold-shaped segments emit bold chunks of
`seg[2:-2]`, anything else emits plain chunks. -/
def segRuns (seg : List Char) : List RichText :=
  if seg = [] then []
  else if isBoldShaped seg then
    (chunkRun ((seg.drop 2).take (seg.length - 4))).map (fun c => mkRichText c true)
  else
    (chunkRun seg).map (fun c => mkRichText c false)

/-- `_parse_inline(text)`: split on the bold regex, process each segment,
and fall back to a single empty run when nothing was emitted. -/
def parseInline (text : List Char) : List RichText :=
  let parts := ((reSplit text).map segRuns).flatten
  if parts = [] then [mkRichText [] false] else parts

/-- A Notion block as built by `github_content_generator.py` and consumed by
`NotionBlockConverter` in `notion_wordpress_uploader.py`.  The kinds are the
block `type` strings of the source; `numbered`, `toDo` and `callout` are
never constructed by the generator but are rendered by the converter.  The
converter's `code`, `image` and container branches concern block kinds that
neither side of the claims constructs and are omitted from the embedding. -/
inductive NBlock where
  | paragraph (runs : List RichText)
  | heading1 (runs : List RichText)
  | heading2 (runs : List RichText)
  | heading3 (runs : List RichText)
  | quote (runs : List RichText)
  | bullet (runs : List RichText)
  | numbered (runs : List RichText)
  | toDo (checked : Bool) (runs : List RichText)
  | callout (runs : List RichText)
  | divider
deriving DecidableEq, Repr

/-- The empty paragraph `_block("paragraph", [_make_rich_text("")])`. -/
def emptyPara : NBlock := .paragraph [mkRichText [] false]

/-- The emptiness test of `markdown_to_notion_blocks`' blank-line branch:
the block is a paragraph and no text run carries any content. -/
def isTextEmptyPara (b : NBlock) : Bool :=
  match b with
  | .paragraph runs => runs.all (fun rt => rt.text = [])
  | _ => false

/-- Regex `^[-*] ` of the bullet branch. -/
def bulletMatch (s : List Char) : Bool :=
  match s with
  | c1 :: c2 :: _ => (c1 = '-' || c1 = '*') && c2 = ' '
  | _ => false

/-- Regex `^[-*_]{3,}$` of the divider branch. -/
def dividerMatch (s : List Char) : Bool :=
  3 ≤ s.length && s.all (fun c => c = '-' || c = '*' || c = '_')

/-- The branch cascade of `markdown_to_notion_blocks` for one non-empty
(already right-stripped) line. -/
def blockOfLine (stripped : List Char) : NBlock :=
  if ['#', '#', '#', ' '].isPrefixOf stripped then
    .heading3 (parseInline (stripped.drop 4))
  else if ['#', '#', ' '].isPrefixOf stripped then
    .heading2 (parseInline (stripped.drop 3))
  else if ['#', ' '].isPrefixOf stripped then
    .heading1 (parseInline (stripped.drop 2))
  else if ['>', ' '].isPrefixOf stripped then
    .quote (parseInline (stripped.drop 2))
  else if stripped = ['>'] then
    .quote [mkRichText [] false]
  else if bulletMatch stripped then
    .bullet (parseInline (stripped.drop 2))
  else if dividerMatch stripped then
    .divider
  else
    .paragraph (parseInline stripped)

/-- One iteration of the `for line in markdown_text.splitlines()` loop of
`markdown_to_notion_blocks`: blank lines append an empty paragraph only when
the block list is non-empty and its last block is not already an empty
paragraph; other lines append the block of the stripped line. -/
def mdStep (blocks : List NBlock) (line : List Char) : List NBlock :=
  let stripped := rstripC line
  if stripped = [] then
    match blocks.getLast? with
    | none => blocks
    | some b => if isTextEmptyPara b then blocks else blocks ++ [emptyPara]
  else
    blocks ++ [blockOfLine stripped]

/-- The final `while` loop of `markdown_to_notion_blocks`: remove trailing
empty paragraphs. -/
def stripTrailingEmpty (blocks : List NBlock) : List NBlock :=
  (blocks.reverse.dropWhile isTextEmptyPara).reverse

/-- `markdown_to_notion_blocks` from `github_content_generator.py`. -/
def markdown_to_notion_blocks (markdownText : List Char) : List NBlock :=
  stripTrailingEmpty ((splitLinesC markdownText).foldl mdStep [])

/-- `NotionBlockConverter._rich_text_to_md` from
`notion_wordpress_uploader.py`, for the runs the generator produces (text
runs, `bold` the only possible annotation, optional link): skip empty runs,
wrap bold runs in `**…**`, then wrap linked non-code runs as `[…](…)`, and
concatenate. -/
def richTextToMd (runs : List RichText) : List Char :=
  (runs.map (fun rt =>
    if rt.text = [] then []
    else
      let styled := if rt.bold then '*' :: '*' :: (rt.text ++ ['*', '*']) else rt.text
      match rt.link with
      | some u => '[' :: (styled ++ ']' :: '(' :: (u ++ [')']))
      | none => styled)).flatten

/-- `NotionBlockConverter._rich_text_to_plain`. -/
def richTextToPlain (runs : List RichText) : List Char :=
  (runs.map (fun rt => rt.text)).flatten

/-- `NotionBlockConverter._convert_block`: `none` is a suppressed block. -/
def convertBlock (b : NBlock) : Option (List Char) :=
  match b with
  | .paragraph runs => some (richTextToMd runs)
  | .heading1 runs =>
      let t := richTextToMd runs
      if pyStripC t = [] then none else some ('#' :: ' ' :: t)
  | .heading2 runs =>
      let t := richTextToMd runs
      if pyStripC t = [] then none else some ('#' :: '#' :: ' ' :: t)
  | .heading3 runs =>
      let t := richTextToMd runs
      if pyStripC t = [] then none else some ('#' :: '#' :: '#' :: ' ' :: t)
  | .bullet runs =>
      let t := richTextToMd runs
      if pyStripC t = [] then none else some ('-' :: ' ' :: t)
  | .numbered runs =>
      let t := richTextToMd runs
      if pyStripC t = [] then none else some ('1' :: '.' :: ' ' :: t)
  | .toDo checked runs =>
      let t := richTextToMd runs
      if pyStripC t = [] then none
      else some ('-' :: ' ' :: '[' :: (if checked then 'x' else ' ') :: ']' :: ' ' :: t)
  | .quote runs =>
      let t := richTextToMd runs
      if pyStripC t = [] then none else some ('>' :: ' ' :: t)
  | .callout runs =>
      let t := richTextToMd runs
      if pyStripC t = [] then none else some ('>' :: ' ' :: t)
  | .divider => some ['-', '-', '-']

/-- `NotionBlockConverter.convert`: convert each block, drop suppressed
ones, and join with a blank line separator (`'\n\n'.join(segments)`). -/
def NotionBlockConverter_convert (blocks : List NBlock) : List Char :=
  List.intercalate ['\n', '\n'] (blocks.filterMap convertBlock)

/-- The quote/divider/template-tag framing `save_to_notion` puts around the
converted blog body (`blog_blocks` in `github_content_generator.py`). -/
def blogBlocks (sourceUrl : List Char) (blogBody : List Char) : List NBlock :=
  (.quote [mkRichText "引用元: ".toList false,
           { text := sourceUrl, bold := false, link := some sourceUrl }]) ::
  .divider ::
  (.paragraph [mkRichText "[temp id=3]".toList false]) ::
  (markdown_to_notion_blocks blogBody ++
    [.paragraph [mkRichText "[temp id=2]".toList false]])

/-- Python falsiness of an optional string property value (`not value` is
true for `None` and for the empty string). -/
def pyFalsy (v : Option (List Char)) : Bool :=
  match v with
  | none => true
  | some s => s = []

/-- The updates computed by one iteration of
`NotionAutomation.process_content_complete_status` for a page whose
`Status(コンテンツ作成)` matched the query filter `"完了"`: each field of the
result is the new status name put into `properties_to_update`, or `none`
when the dimension is left untouched. -/
structure AdvanceUpdates where
  web : Option (List Char)
  podcast : Option (List Char)
deriving DecidableEq, Repr

/-- `process_content_complete_status`, per record:
`Status(Web)` is set to `"投稿待ち"` iff `not status_web or status_web ==
"デフォルト"`, and `Status(Podcast)` to `"音声化待ち"` under the same
condition on its own value. -/
def computeAdvanceOnComplete (web podcast : Option (List Char)) : AdvanceUpdates :=
  { web :=
      if pyFalsy web || web = some "デフォルト".toList then
        some "投稿待ち".toList
      else none,
    podcast :=
      if pyFalsy podcast || podcast = some "デフォルト".toList then
        some "音声化待ち".toList
      else none }

/-- Applying one computed property update to the stored value: an emitted
update overwrites the property, `none` leaves it unchanged. -/
def applyUpdate (cur upd : Option (List Char)) : Option (List Char) :=
  match upd with
  | some v => some v
  | none => cur

/-- The updates computed by one iteration of
`NotionAutomation.process_date_recording`: for each date property, the value
written into `properties_to_update`, or `none` when no update is emitted. -/
structure DateUpdates where
  dateSelect : Option (List Char)
  dateWComplete : Option (List Char)
  datePComplete : Option (List Char)
deriving DecidableEq, Repr

/-- `process_date_recording`, per record: each date is stamped with `now`
iff the milestone status holds and the current date value is falsy. -/
def computeDateStamps (now : List Char)
    (statusContent statusWeb statusPodcast : Option (List Char))
    (dateSelect dateWComplete datePComplete : Option (List Char)) : DateUpdates :=
  { dateSelect :=
      if (statusContent = some "執筆待ち(URL)".toList ||
          statusContent = some "執筆待ち(PDF)".toList) && pyFalsy dateSelect then
        some now
      else none,
    dateWComplete :=
      if statusWeb = some "スケジュール待ち".toList && pyFalsy dateWComplete then
        some now
      else none,
    datePComplete :=
      if statusPodcast = some "完了".toList && pyFalsy datePComplete then
        some now
      else none }

/-- One write call issued by `NotionAPI.create_child_page`: the initial
`POST /pages` create (with the first batch as `children`) or one
`PATCH /blocks/{id}/children` append. -/
inductive WriteCall where
  | create (batch : List NBlock)
  | append (batch : List NBlock)
deriving DecidableEq, Repr

/-- Fuel-driven worker for `batches100` (see `batches100_eq`). -/
def batches100F : Nat → List NBlock → List (List NBlock)
  | _, [] => []
  | 0, _ :: _ => []
  | f + 1, a :: t => (a :: t).take 100 :: batches100F f ((a :: t).drop 100)

/-- The batching loop `for i in range(0, len(remaining), BLOCK_LIMIT)` with
`BLOCK_LIMIT = 100`. -/
def batches100 (l : List NBlock) : List (List NBlock) :=
  batches100F l.length l

theorem batches100F_congr :
    ∀ {f g : Nat} {l : List NBlock}, l.length ≤ f → l.length ≤ g →
      batches100F f l = batches100F g l := by
  intro f
  induction f with
  | zero =>
      intro g l hf _
      have : l = [] := List.length_eq_zero.mp (Nat.le_zero.mp hf)
      subst this
      cases g <;> rfl
  | succ f ih =>
      intro g l hf hg
      cases l with
      | nil => cases g <;> rfl
      | cons a t =>
          cases g with
          | zero => simp at hg
          | succ g =>
              simp only [batches100F]
              congr 1
              have hd : ((a :: t).drop 100).length ≤ t.length := by
                simp only [List.length_drop, List.length_cons]
                omega
              simp only [List.length_cons] at hf hg
              exact ih (Nat.le_trans hd (Nat.le_of_succ_le_succ hf))
                (Nat.le_trans hd (Nat.le_of_succ_le_succ hg))

/-- The defining recursion of `batches100`. -/
theorem batches100_eq (l : List NBlock) :
    batches100 l = if l = [] then [] else l.take 100 :: batches100 (l.drop 100) := by
  cases l with
  | nil => rfl
  | cons a t =>
      show batches100F (a :: t).length (a :: t) = _
      simp only [List.length_cons, batches100F, if_neg (List.cons_ne_nil a t)]
      congr 1
      apply batches100F_congr
      · simp only [List.length_drop, List.length_cons]; omega
      · exact Nat.le_refl _

/-- Fuel-driven worker for `appendLoop` (see `appendLoop_eq`). -/
def appendLoopF : Nat → (Nat → Bool) → Nat → List NBlock → List WriteCall × List NBlock
  | _, _, _, [] => ([], [])
  | 0, _, _, _ :: _ => ([], [])
  | f + 1, ok, idx, a :: t =>
      let batch := (a :: t).take 100
      let rest := appendLoopF f ok (idx + 1) ((a :: t).drop 100)
      (.append batch :: rest.1, (if ok idx then batch else []) ++ rest.2)

/-- The append loop of `create_child_page`
(`for i in range(0, len(remaining), self.BLOCK_LIMIT): try: self._patch(…)
except: …` — a failed append is logged, its batch dropped, and the loop
continues with the next batch).  `ok i` tells whether the `i`-th append call
succeeds; the result is the list of append calls issued and the blocks that
end up appended. -/
def appendLoop (ok : Nat → Bool) (idx : Nat) (remaining : List NBlock) :
    List WriteCall × List NBlock :=
  appendLoopF remaining.length ok idx remaining

theorem appendLoopF_congr :
    ∀ {f g : Nat} {ok : Nat → Bool} {idx : Nat} {l : List NBlock},
      l.length ≤ f → l.length ≤ g → appendLoopF f ok idx l = appendLoopF g ok idx l := by
  intro f
  induction f with
  | zero =>
      intro g ok idx l hf _
      have : l = [] := List.length_eq_zero.mp (Nat.le_zero.mp hf)
      subst this
      cases g <;> rfl
  | succ f ih =>
      intro g ok idx l hf hg
      cases l with
      | nil => cases g <;> rfl
      | cons a t =>
          cases g with
          | zero => simp at hg
          | succ g =>
              simp only [appendLoopF]
              have hd : ((a :: t).drop 100).length ≤ t.length := by
                simp only [List.length_drop, List.length_cons]
                omega
              simp only [List.length_cons] at hf hg
              rw [ih (Nat.le_trans hd (Nat.le_of_succ_le_succ hf))
                (Nat.le_trans hd (Nat.le_of_succ_le_succ hg))]

/-- The defining recursion of `appendLoop`. -/
theorem appendLoop_eq (ok : Nat → Bool) (idx : Nat) (l : List NBlock) :
    appendLoop ok idx l =
      if l = [] then ([], [])
      else
        (.append (l.take 100) :: (appendLoop ok (idx + 1) (l.drop 100)).1,
         (if ok idx then l.take 100 else []) ++ (appendLoop ok (idx + 1) (l.drop 100)).2) := by
  cases l with
  | nil => rfl
  | cons a t =>
      show appendLoopF (a :: t).length ok idx (a :: t) = _
      simp only [List.length_cons, appendLoopF, if_neg (List.cons_ne_nil a t)]
      rw [appendLoopF_congr ?_ (Nat.le_refl _)]
      · rfl
      · simp only [List.length_drop, List.length_cons]; omega

/-- `NotionAPI.create_child_page`, with the network effects abstracted into
oracles: `createOk` tells whether the initial `POST /pages` create call
succeeds and `appendOk i` whether the `i`-th append call succeeds.  Returns
the value the method returns, the write calls it issues in order, and the
child blocks that end up persisted.  A failed create returns `None` at once
with no append call made; after a successful create every batch is
attempted. -/
def createChildPage (createOk : Bool) (appendOk : Nat → Bool)
    (pageId : List Char) (blocks : List NBlock) :
    Option (List Char) × List WriteCall × List NBlock :=
  let firstBatch := blocks.take 100
  if createOk then
    let rest := appendLoop appendOk 0 (blocks.drop 100)
    (some pageId, .create firstBatch :: rest.1, firstBatch ++ rest.2)
  else
    (none, [.create firstBatch], [])

/-- The URL `NotionAPI.set_child_page_link` writes into the cross-reference
property: `f"https://www.notion.so/{child_page_id.replace('-', '')}"`. -/
def notionUrlOf (childPageId : List Char) : List Char :=
  "https://www.notion.so/".toList ++ childPageId.filter (fun c => c ≠ '-')

/-- The case-insensitive hex character class `[0-9a-f]` under `re.IGNORECASE`
used by `_RE_UUID` and `_RE_HEX32`. -/
def hexCI (c : Char) : Bool :=
  c ∈ "0123456789abcdefABCDEF".toList

/-- A lowercase hex digit. -/
def lhex (c : Char) : Bool :=
  c ∈ "0123456789abcdef".toList

/-- Match `[0-9a-f]{n}` (case-insensitive) at the start of `s`; on success
return the matched `n` characters. -/
def hexRun (n : Nat) (s : List Char) : Option (List Char) :=
  if (s.take n).length = n && (s.take n).all hexCI then some (s.take n) else none

/-- Does the 36-character UUID pattern
`[0-9a-f]{8}-[0-9a-f]{4}-[0-9a-f]{4}-[0-9a-f]{4}-[0-9a-f]{12}` (with
`re.IGNORECASE`) match at the start of `s`?  On success return the matched
36 characters. -/
def uuidShapeAt (s : List Char) : Option (List Char) :=
  match hexRun 8 s with
  | none => none
  | some g1 =>
      match s.drop 8 with
      | '-' :: r1 =>
          match hexRun 4 r1 with
          | none => none
          | some g2 =>
              match r1.drop 4 with
              | '-' :: r2 =>
                  match hexRun 4 r2 with
                  | none => none
                  | some g3 =>
                      match r2.drop 4 with
                      | '-' :: r3 =>
                          match hexRun 4 r3 with
                          | none => none
                          | some g4 =>
                              match r3.drop 4 with
                              | '-' :: r4 =>
                                  match hexRun 12 r4 with
                                  | none => none
                                  | some g5 =>
                                      some (g1 ++ '-' :: (g2 ++ '-' :: (g3 ++ '-' ::
                                        (g4 ++ '-' :: g5))))
                              | _ => none
                      | _ => none
              | _ => none
      | _ => none

/-- `_RE_UUID.search`: leftmost match of the UUID pattern. -/
def searchUuid : List Char → Option (List Char)
  | [] => none
  | a :: t =>
      match uuidShapeAt (a :: t) with
      | some m => some m
      | none => searchUuid t

/-- Does `[0-9a-f]{32}` (case-insensitive) match at the start of `s`? -/
def hex32At (s : List Char) : Option (List Char) :=
  hexRun 32 s

/-- `_RE_HEX32.search`: leftmost run of 32 case-insensitive hex digits. -/
def searchHex32 : List Char → Option (List Char)
  | [] => none
  | a :: t =>
      match hex32At (a :: t) with
      | some m => some m
      | none => searchHex32 t

/-- Python `str.lower()` (ASCII part, which is all the matched patterns can
contain). -/
def pyLower (s : List Char) : List Char :=
  s.map Char.toLower

/-- `NotionWordPressUploader._extract_notion_page_id`: UUID search first,
then 32-hex search reformatted as `8-4-4-4-12`, else `None`. -/
def extractNotionPageId (url : List Char) : Option (List Char) :=
  if url = [] then none
  else
    match searchUuid url with
    | some m => some (pyLower m)
    | none =>
        match searchHex32 url with
        | some h0 =>
            let h := pyLower h0
            some (h.take 8 ++ '-' :: ((h.drop 8).take 4 ++ '-' ::
              ((h.drop 12).take 4 ++ '-' :: ((h.drop 16).take 4 ++ '-' ::
                h.drop 20))))
        | none => none

/-- The canonical page-id form claimed for `_extract_notion_page_id`'s
output: 32 lowercase hex digits grouped `8-4-4-4-12`. -/
def canonicalUuid (s : List Char) : Prop :=
  ∃ a b c d e : List Char,
    s = a ++ '-' :: (b ++ '-' :: (c ++ '-' :: (d ++ '-' :: e))) ∧
    a.length = 8 ∧ b.length = 4 ∧ c.length = 4 ∧ d.length = 4 ∧ e.length = 12 ∧
    ∀ x ∈ a ++ b ++ c ++ d ++ e, lhex x = true

/-! ## Generic helpers -/

theorem list_length_induction {α : Type _} (P : List α → Prop)
    (ih : ∀ l, (∀ m : List α, m.length < l.length → P m) → P l) : ∀ l, P l := by
  have H : ∀ n : Nat, ∀ l : List α, l.length ≤ n → P l := by
    intro n
    induction n with
    | zero =>
        intro l hl
        exact ih l (fun m hm => absurd (Nat.lt_of_lt_of_le hm hl) (Nat.not_lt_zero _))
    | succ n ihn =>
        intro l hl
        exact ih l (fun m hm => ihn m (by omega))
  exact fun l => H l.length l (Nat.le_refl _)

/-! ## Pagination lemmas (claims C6 and C7) -/

theorem batches100_flatten : ∀ l : List NBlock, (batches100 l).flatten = l := by
  apply list_length_induction
  intro l ih
  rw [batches100_eq]
  by_cases h : l = []
  · subst h; rfl
  · simp only [if_neg h, List.flatten_cons]
    rw [ih (l.drop 100) ?_, List.take_append_drop]
    cases l with
    | nil => exact absurd rfl h
    | cons a t => simp only [List.length_drop, List.length_cons]; omega

theorem batches100_length :
    ∀ l : List NBlock, (batches100 l).length = (l.length + 99) / 100 := by
  apply list_length_induction
  intro l ih
  rw [batches100_eq]
  by_cases h : l = []
  · subst h
    simp only [List.length_nil, List.length_nil, Nat.zero_add]
    norm_num
  · simp only [if_neg h, List.length_cons]
    rw [ih (l.drop 100) ?_]
    · simp only [List.length_drop]
      have h1 : l.length ≠ 0 := fun hc => h (List.length_eq_zero.mp hc)
      rcases Nat.lt_or_ge l.length 101 with hlen | hlen
      · have e1 : l.length - 100 = 0 := by omega
        have e3 : (l.length + 99) / 100 = 1 :=
          Nat.div_eq_of_lt_le (by omega) (by omega)
        rw [e1, e3]
      · have e1 : l.length - 100 + 99 = l.length - 1 := by omega
        have e2 : l.length + 99 = l.length - 1 + 100 := by omega
        rw [e1, e2, Nat.add_div_right _ (by norm_num)]
    · cases l with
      | nil => exact absurd rfl h
      | cons a t => simp only [List.length_drop, List.length_cons]; omega

theorem batches100_all_le :
    ∀ l : List NBlock, (batches100 l).all (fun b => b.length ≤ 100) = true := by
  apply list_length_induction
  intro l ih
  rw [batches100_eq]
  by_cases h : l = []
  · subst h; rfl
  · simp only [if_neg h, List.all_cons, Bool.and_eq_true]
    constructor
    · simp only [decide_eq_true_eq, List.length_take]
      omega
    · apply ih
      cases l with
      | nil => exact absurd rfl h
      | cons a t => simp only [List.length_drop, List.length_cons]; omega

theorem appendLoop_calls (ok : Nat → Bool) :
    ∀ l : List NBlock, ∀ idx : Nat,
      (appendLoop ok idx l).1 = (batches100 l).map .append := by
  apply list_length_induction
    (fun l => ∀ idx : Nat, (appendLoop ok idx l).1 = (batches100 l).map .append)
  intro l ih idx
  rw [appendLoop_eq, batches100_eq]
  by_cases h : l = []
  · subst h; rfl
  · simp only [if_neg h, List.map_cons]
    rw [ih (l.drop 100) ?_]
    cases l with
    | nil => exact absurd rfl h
    | cons a t => simp only [List.length_drop, List.length_cons]; omega

theorem appendLoop_written (ok : Nat → Bool) :
    ∀ l : List NBlock, ∀ idx : Nat,
      (appendLoop ok idx l).2 =
        (((List.enumFrom idx (batches100 l)).filter (fun p => ok p.1)).map
          (fun p => p.2)).flatten := by
  apply list_length_induction
    (fun l => ∀ idx : Nat,
      (appendLoop ok idx l).2 =
        (((List.enumFrom idx (batches100 l)).filter (fun p => ok p.1)).map
          (fun p => p.2)).flatten)
  intro l ih idx
  rw [appendLoop_eq, batches100_eq]
  by_cases h : l = []
  · subst h; rfl
  · simp only [if_neg h, List.enumFrom_cons, List.filter_cons]
    rw [ih (l.drop 100) ?_]
    · by_cases hok : ok idx
      · simp [hok]
      · simp [hok]
    · cases l with
      | nil => exact absurd rfl h
      | cons a t => simp only [List.length_drop, List.length_cons]; omega

/-- **C6** — Pagination math of `NotionAPI.create_child_page`: for a
document of `B` blocks and the fixed per-call limit `BLOCK_LIMIT = 100`,
the method issues exactly `1 + max(0, ⌈(B-100)/100⌉)` write calls (in `ℕ`
the truncated subtraction `B - 100` is exactly `max(0, B-100)`, so
`(B - 100 + 99) / 100 = max(0, ⌈(B-100)/100⌉)`): one create call carrying
the first `min(B, 100)` blocks followed by append calls of at most 100
blocks each, in order, and the concatenation of all batches in call order
equals the original block sequence. -/
theorem C6_pagination (blocks : List NBlock) (pageId : List Char) (appendOk : Nat → Bool) :
    ((createChildPage true appendOk pageId blocks).2.1.length =
      1 + (blocks.length - 100 + 99) / 100) ∧
    ((createChildPage true appendOk pageId blocks).2.1 =
      .create (blocks.take 100) :: (batches100 (blocks.drop 100)).map .append) ∧
    ((blocks.take 100).length = min blocks.length 100) ∧
    ((batches100 (blocks.drop 100)).all (fun b => b.length ≤ 100) = true) ∧
    (blocks.take 100 ++ (batches100 (blocks.drop 100)).flatten = blocks) := by
  refine ⟨?_, ?_, ?_, batches100_all_le _, ?_⟩
  · show (WriteCall.create (blocks.take 100) ::
        (appendLoop appendOk 0 (blocks.drop 100)).1).length = _
    rw [appendLoop_calls]
    simp only [List.length_cons, List.length_map, batches100_length, List.length_drop]
    omega
  · show WriteCall.create (blocks.take 100) ::
        (appendLoop appendOk 0 (blocks.drop 100)).1 = _
    rw [appendLoop_calls]
  · simp only [List.length_take]
    omega
  · rw [batches100_flatten, List.take_append_drop]

/-- **C7** — Failure asymmetry of `NotionAPI.create_child_page`: if the
initial create call fails the whole operation fails (`None` is returned and
no append call is issued, so no cross-reference can be set); if the create
call succeeds, every remaining batch is attempted in order regardless of
append failures, a failed append's batch is dropped from the persisted
children, and the method still returns the child page id. -/
theorem C7_failure_asymmetry (blocks : List NBlock) (pageId : List Char)
    (appendOk : Nat → Bool) :
    (createChildPage false appendOk pageId blocks =
      (none, [.create (blocks.take 100)], [])) ∧
    ((createChildPage true appendOk pageId blocks).1 = some pageId) ∧
    ((createChildPage true appendOk pageId blocks).2.1 =
      .create (blocks.take 100) :: (batches100 (blocks.drop 100)).map .append) ∧
    ((createChildPage true appendOk pageId blocks).2.2 =
      blocks.take 100 ++
        (((List.enumFrom 0 (batches100 (blocks.drop 100))).filter
          (fun p => appendOk p.1)).map (fun p => p.2)).flatten) := by
  refine ⟨rfl, rfl, ?_, ?_⟩
  · show WriteCall.create (blocks.take 100) ::
        (appendLoop appendOk 0 (blocks.drop 100)).1 = _
    rw [appendLoop_calls]
  · show blocks.take 100 ++ (appendLoop appendOk 0 (blocks.drop 100)).2 = _
    rw [appendLoop_written]

/-! ## Inline parser content lemmas -/

theorem chunkRun_nil : chunkRun [] = [] := rfl

theorem chunkRun_cons_of_ne {s : List Char} (h : s ≠ []) :
    chunkRun s = s.take 2000 :: chunkRun (s.drop 2000) := by
  rw [chunkRun_eq, if_neg h]

theorem take2000_ne_nil {s : List Char} (h : s ≠ []) : s.take 2000 ≠ [] := by
  cases s with
  | nil => exact absurd rfl h
  | cons a t => simp

theorem segRuns_ex_nonempty {seg : List Char} (h : seg ≠ []) :
    ∃ rt ∈ segRuns seg, rt.text ≠ [] := by
  rw [segRuns, if_neg h]
  by_cases hb : isBoldShaped seg
  · rw [if_pos hb]
    have hlen : 4 < seg.length := by
      have := hb
      unfold isBoldShaped at this
      simp only [Bool.and_eq_true, decide_eq_true_eq] at this
      exact this.2
    have hcontent : (seg.drop 2).take (seg.length - 4) ≠ [] := by
      intro hc
      have := congrArg List.length hc
      simp only [List.length_take, List.length_drop, List.length_nil] at this
      omega
    refine ⟨mkRichText (((seg.drop 2).take (seg.length - 4)).take 2000) true, ?_, ?_⟩
    · rw [chunkRun_cons_of_ne hcontent, List.map_cons]
      exact List.mem_cons_self _ _
    · show (((seg.drop 2).take (seg.length - 4)).take 2000).take 2000 ≠ []
      exact take2000_ne_nil (take2000_ne_nil hcontent)
  · rw [if_neg hb]
    refine ⟨mkRichText (seg.take 2000) false, ?_, ?_⟩
    · rw [chunkRun_cons_of_ne h, List.map_cons]
      exact List.mem_cons_self _ _
    · show ((seg.take 2000).take 2000) ≠ []
      exact take2000_ne_nil (take2000_ne_nil h)

theorem reSplit_ex_nonempty {s : List Char} (h : s ≠ []) :
    ∃ seg ∈ reSplit s, seg ≠ [] := by
  rw [reSplit_eq]
  cases hm : findMatch s with
  | none => exact ⟨s, List.mem_singleton.mpr rfl, h⟩
  | some pcr =>
      obtain ⟨p, c, r⟩ := pcr
      refine ⟨'*' :: '*' :: (c ++ ['*', '*']), ?_, by simp⟩
      exact List.mem_cons_of_mem _ (List.mem_cons_self _ _)

theorem parseInline_ex_nonempty {s : List Char} (h : s ≠ []) :
    ∃ rt ∈ parseInline s, rt.text ≠ [] := by
  obtain ⟨seg, hseg, hne⟩ := reSplit_ex_nonempty h
  obtain ⟨rt, hrt, hrtne⟩ := segRuns_ex_nonempty hne
  have hmem : rt ∈ ((reSplit s).map segRuns).flatten := by
    rw [List.mem_flatten]
    exact ⟨segRuns seg, List.mem_map_of_mem _ hseg, hrt⟩
  have hne' : ((reSplit s).map segRuns).flatten ≠ [] := by
    intro hc
    rw [hc] at hmem
    exact absurd hmem (List.not_mem_nil rt)
  rw [parseInline]
  simp only [if_neg hne']
  exact ⟨rt, hmem, hrtne⟩

theorem isTextEmptyParaParseInline {t : List Char} (ht : t ≠ []) :
    isTextEmptyPara (.paragraph (parseInline t)) = false := by
  obtain ⟨rt, hrt, hne⟩ := parseInline_ex_nonempty ht
  show (parseInline t).all (fun rt => rt.text = []) = false
  rw [Bool.eq_false_iff]
  intro hc
  rw [List.all_eq_true] at hc
  exact hne (by simpa using hc rt hrt)

theorem isTextEmptyPara_blockOfLine {s : List Char} (h : s ≠ []) :
    isTextEmptyPara (blockOfLine s) = false := by
  rw [blockOfLine]
  split_ifs with h1 h2 h3 h4 h5 h6 h7
  · rfl
  · rfl
  · rfl
  · rfl
  · rfl
  · rfl
  · rfl
  · exact isTextEmptyParaParseInline h

/-! ## Claim C2 — template-tag stripping -/

/-- **C2** counterexample: `markdown_to_notion_blocks` does *not* drop a
line matching the machine-internal placeholder pattern — feeding the
placeholder line `"[temp id=3]"` (and likewise `"[temp id=2]"`) yields a
paragraph block carrying the placeholder text verbatim, so the placeholder
does appear in the output Document, contradicting the claim that such a
line is dropped entirely and never reaches the output. -/
theorem C2_counterexample :
    markdown_to_notion_blocks "[temp id=3]".toList =
      [.paragraph [mkRichText "[temp id=3]".toList false]] ∧
    markdown_to_notion_blocks "[temp id=2]".toList =
      [.paragraph [mkRichText "[temp id=2]".toList false]] := by
  constructor <;> decide

/-- **C2** (amended) — `markdown_to_notion_blocks` gives placeholder lines
no special treatment: a line matching the placeholder pattern is emitted as
an ordinary paragraph block carrying the placeholder text verbatim.  Far
from stripping them, `save_to_notion` deliberately inserts the paragraph
blocks `[temp id=3]` and `[temp id=2]` around the converted blog body. -/
theorem C2_placeholder_amended :
    (∀ url body : List Char,
      NBlock.paragraph [mkRichText "[temp id=3]".toList false] ∈ blogBlocks url body ∧
      NBlock.paragraph [mkRichText "[temp id=2]".toList false] ∈ blogBlocks url body) ∧
    markdown_to_notion_blocks "[temp id=3]".toList =
      [.paragraph [mkRichText "[temp id=3]".toList false]] := by
  constructor
  · intro url body
    constructor
    · rw [blogBlocks]
      exact List.mem_cons_of_mem _ (List.mem_cons_of_mem _ (List.mem_cons_self _ _))
    · rw [blogBlocks]
      refine List.mem_cons_of_mem _ (List.mem_cons_of_mem _ (List.mem_cons_of_mem _ ?_))
      exact List.mem_append_right _ (List.mem_singleton.mpr rfl)
  · decide

/-! ## Claim C5 — empty-remainder heading lines -/

/-- Every heading block carries at least one run with non-empty text. -/
def headingNonempty (b : NBlock) : Bool :=
  match b with
  | .heading1 rs => rs.any (fun rt => !rt.text.isEmpty)
  | .heading2 rs => rs.any (fun rt => !rt.text.isEmpty)
  | .heading3 rs => rs.any (fun rt => !rt.text.isEmpty)
  | _ => true

theorem dropWhile_head?_not {α : Type _} {p : α → Bool} :
    ∀ (l : List α) (x : α), (l.dropWhile p).head? = some x → p x = false := by
  intro l
  induction l with
  | nil => intro x hx; simp [List.dropWhile] at hx
  | cons a t ih =>
      intro x hx
      rw [List.dropWhile_cons] at hx
      by_cases ha : p a = true
      · rw [if_pos ha] at hx
        exact ih x hx
      · rw [if_neg ha] at hx
        simp only [List.head?_cons, Option.some.injEq] at hx
        subst hx
        exact Bool.eq_false_iff.mpr ha

/-- The last character of a right-stripped string is never whitespace. -/
theorem rstripC_last_not_ws {s : List Char} {x : Char}
    (h : (rstripC s).getLast? = some x) : pyWs x = false := by
  rw [rstripC, List.getLast?_reverse] at h
  exact dropWhile_head?_not _ _ h

theorem headingNonempty_parseInline {t : List Char} (ht : t ≠ []) :
    (parseInline t).any (fun rt => !rt.text.isEmpty) = true := by
  obtain ⟨rt, hrt, hne⟩ := parseInline_ex_nonempty ht
  rw [List.any_eq_true]
  exact ⟨rt, hrt, by simpa [List.isEmpty_iff] using hne⟩

/-- If a right-stripped string starts with a prefix ending in whitespace,
something non-empty must follow the prefix. -/
theorem drop_ne_after_ws_marker {s : List Char} (pre : List Char) {c : Char}
    (hlast : ∀ x : Char, s.getLast? = some x → pyWs x = false)
    (hp : pre.isPrefixOf s = true) (hc : pre.getLast? = some c)
    (hws : pyWs c = true) : s.drop pre.length ≠ [] := by
  obtain ⟨rest, hrest⟩ := List.isPrefixOf_iff_prefix.mp hp
  subst hrest
  rw [List.drop_left]
  intro hrestnil
  subst hrestnil
  rw [List.append_nil] at hlast
  rw [hlast c hc] at hws
  exact Bool.false_ne_true hws

/-- A heading-prefixed right-stripped line always has a non-empty remainder
(the trailing whitespace is already gone), so `blockOfLine` never builds an
empty heading. -/
theorem headingNonempty_blockOfLine (line : List Char) :
    headingNonempty (blockOfLine (rstripC line)) = true := by
  have hlast : ∀ x : Char, (rstripC line).getLast? = some x → pyWs x = false :=
    fun x hx => rstripC_last_not_ws hx
  rw [blockOfLine]
  split_ifs with h1 h2 h3 h4 h5 h6 h7
  · show (parseInline ((rstripC line).drop 4)).any (fun rt => !rt.text.isEmpty) = true
    exact headingNonempty_parseInline
      (drop_ne_after_ws_marker ['#', '#', '#', ' '] hlast h1 rfl (by decide))
  · show (parseInline ((rstripC line).drop 3)).any (fun rt => !rt.text.isEmpty) = true
    exact headingNonempty_parseInline
      (drop_ne_after_ws_marker ['#', '#', ' '] hlast h2 rfl (by decide))
  · show (parseInline ((rstripC line).drop 2)).any (fun rt => !rt.text.isEmpty) = true
    exact headingNonempty_parseInline
      (drop_ne_after_ws_marker ['#', ' '] hlast h3 rfl (by decide))
  · rfl
  · rfl
  · rfl
  · rfl
  · rfl

theorem mdStep_all_headingNonempty {blocks : List NBlock} {line : List Char}
    (h : blocks.all headingNonempty = true) :
    (mdStep blocks line).all headingNonempty = true := by
  rw [mdStep]
  by_cases hb : rstripC line = []
  · rw [if_pos hb]
    cases blocks.getLast? with
    | none => exact h
    | some b =>
        show (if isTextEmptyPara b = true then blocks
          else blocks ++ [emptyPara]).all headingNonempty = true
        by_cases he : isTextEmptyPara b
        · rw [if_pos he]; exact h
        · rw [if_neg he]
          rw [List.all_append, h]
          rfl
  · rw [if_neg hb]
    rw [List.all_append, h]
    simp only [Bool.true_and, List.all_cons, List.all_nil, Bool.and_true]
    exact headingNonempty_blockOfLine line

theorem foldl_mdStep_all_headingNonempty {init : List NBlock}
    (hinit : init.all headingNonempty = true) :
    ∀ lines : List (List Char), (lines.foldl mdStep init).all headingNonempty = true := by
  intro lines
  induction lines generalizing init with
  | nil => exact hinit
  | cons l ls ih => exact ih (mdStep_all_headingNonempty hinit)

theorem stripTrailingEmpty_all {p : NBlock → Bool} {blocks : List NBlock}
    (h : blocks.all p = true) : (stripTrailingEmpty blocks).all p = true := by
  rw [List.all_eq_true] at h ⊢
  intro x hx
  rw [stripTrailingEmpty, List.mem_reverse] at hx
  exact h x (List.mem_reverse.mp ((List.dropWhile_sublist _).subset hx))

/-- **C5** counterexample: a line consisting of a heading prefix with an
empty remainder (here the markup `"# "`, and likewise `"## "`/`"### "`) is
*not* discarded by `markdown_to_notion_blocks`: after right-stripping it no
longer matches the heading prefix and is emitted as a paragraph block whose
text is the residual `#` marker characters, contradicting "no block at all
(in particular … no paragraph) is emitted for that line". -/
theorem C5_counterexample :
    markdown_to_notion_blocks "# ".toList ≠ [] ∧
    markdown_to_notion_blocks "# ".toList = [.paragraph [mkRichText "#".toList false]] ∧
    markdown_to_notion_blocks "## ".toList = [.paragraph [mkRichText "##".toList false]] ∧
    markdown_to_notion_blocks "### ".toList = [.paragraph [mkRichText "###".toList false]] := by
  refine ⟨?_, ?_, ?_, ?_⟩ <;> decide

/-- **C5** (amended) — no empty heading block is ever emitted: every
heading block in the output of `markdown_to_notion_blocks` carries a run
with non-empty text (for any input).  A heading-prefix line whose remainder
is empty after stripping, however, is not discarded entirely: trailing
whitespace is removed first, the line then fails the heading-prefix match,
and it is emitted as a paragraph holding the residual `#` characters. -/
theorem C5_empty_heading_amended :
    (∀ m : List Char, (markdown_to_notion_blocks m).all headingNonempty = true) ∧
    markdown_to_notion_blocks "# ".toList = [.paragraph [mkRichText "#".toList false]] ∧
    markdown_to_notion_blocks "## ".toList = [.paragraph [mkRichText "##".toList false]] ∧
    markdown_to_notion_blocks "### ".toList = [.paragraph [mkRichText "###".toList false]] := by
  refine ⟨?_, by decide, by decide, by decide⟩
  intro m
  exact stripTrailingEmpty_all
    (foldl_mdStep_all_headingNonempty
      (show (([] : List NBlock).all headingNonempty) = true from rfl) (splitLinesC m))

/-! ## Claim C8 — advance-on-complete monotonicity and idempotence -/

/-- **C8** — For a record selected by the `Status(コンテンツ作成) = "完了"`
query filter, `process_content_complete_status` emits `Status(Web) =
"投稿待ち"` exactly when `Status(Web)` currently holds its default value
(unset, empty, or the explicit name `"デフォルト"` — the condition
`not status_web or status_web == "デフォルト"` of the source), and likewise
`Status(Podcast) = "音声化待ち"`; a dimension not at its default is left
untouched (`none`), and recomputing on the state obtained by applying the
computed updates yields the empty update set. -/
theorem C8_advance_on_complete (web podcast : Option (List Char)) :
    ((computeAdvanceOnComplete web podcast).web = some "投稿待ち".toList ↔
      (pyFalsy web || web = some "デフォルト".toList) = true) ∧
    ((computeAdvanceOnComplete web podcast).web = none ↔
      (pyFalsy web || web = some "デフォルト".toList) = false) ∧
    ((computeAdvanceOnComplete web podcast).podcast = some "音声化待ち".toList ↔
      (pyFalsy podcast || podcast = some "デフォルト".toList) = true) ∧
    ((computeAdvanceOnComplete web podcast).podcast = none ↔
      (pyFalsy podcast || podcast = some "デフォルト".toList) = false) ∧
    computeAdvanceOnComplete
      (applyUpdate web (computeAdvanceOnComplete web podcast).web)
      (applyUpdate podcast (computeAdvanceOnComplete web podcast).podcast) =
      { web := none, podcast := none } := by
  cases hw : (pyFalsy web || web = some "デフォルト".toList) <;>
    cases hp : (pyFalsy podcast || podcast = some "デフォルト".toList) <;>
      simp only [computeAdvanceOnComplete, applyUpdate, hw, hp, Bool.false_eq_true,
        Bool.true_eq_false, if_false, if_true] <;>
      decide

/-! ## Claim C9 — once-only date stamping -/

/-- **C9** counterexample: `process_date_recording` tests the date field
with Python falsiness (`not date_w_complete`), so a record whose
`Date(W-complete)` holds the *non-null* existing value `""` (the empty
string) still receives an update when `Status(Web) = "スケジュール待ち"`,
contradicting "for any non-null existing value of the field, no update for
that field is ever emitted". -/
theorem C9_counterexample :
    (computeDateStamps "2025-01-01".toList none (some "スケジュール待ち".toList) none
      none (some []) none).dateWComplete = some "2025-01-01".toList := by
  decide

/-- **C9** (amended) — each date field is stamped with the current date
exactly when its milestone status holds and the current value is falsy
(null *or* the empty string); for any non-empty existing value no update is
ever emitted, so a date once set to a real value is never overwritten. -/
theorem C9_date_stamps (now : List Char)
    (sc sw sp dSel dW dP : Option (List Char)) :
    ((computeDateStamps now sc sw sp dSel dW dP).dateSelect = some now ↔
      ((sc = some "執筆待ち(URL)".toList || sc = some "執筆待ち(PDF)".toList) &&
        pyFalsy dSel) = true) ∧
    ((computeDateStamps now sc sw sp dSel dW dP).dateSelect = none ↔
      ((sc = some "執筆待ち(URL)".toList || sc = some "執筆待ち(PDF)".toList) &&
        pyFalsy dSel) = false) ∧
    ((computeDateStamps now sc sw sp dSel dW dP).dateWComplete = some now ↔
      (sw = some "スケジュール待ち".toList && pyFalsy dW) = true) ∧
    ((computeDateStamps now sc sw sp dSel dW dP).dateWComplete = none ↔
      (sw = some "スケジュール待ち".toList && pyFalsy dW) = false) ∧
    ((computeDateStamps now sc sw sp dSel dW dP).datePComplete = some now ↔
      (sp = some "完了".toList && pyFalsy dP) = true) ∧
    ((computeDateStamps now sc sw sp dSel dW dP).datePComplete = none ↔
      (sp = some "完了".toList && pyFalsy dP) = false) ∧
    (∀ v : List Char, v ≠ [] → dSel = some v →
      (computeDateStamps now sc sw sp dSel dW dP).dateSelect = none) ∧
    (∀ v : List Char, v ≠ [] → dW = some v →
      (computeDateStamps now sc sw sp dSel dW dP).dateWComplete = none) ∧
    (∀ v : List Char, v ≠ [] → dP = some v →
      (computeDateStamps now sc sw sp dSel dW dP).datePComplete = none) := by
  have hfalsy : ∀ (d : Option (List Char)) (v : List Char), v ≠ [] → d = some v →
      pyFalsy d = false := by
    intro d v hv hd
    subst hd
    show decide (v = []) = false
    simpa using hv
  refine ⟨?_, ?_, ?_, ?_, ?_, ?_, ?_, ?_, ?_⟩
  case refine_7 =>
    intro v hv hd
    simp only [computeDateStamps]
    rw [hfalsy dSel v hv hd]
    simp
  case refine_8 =>
    intro v hv hd
    simp only [computeDateStamps]
    rw [hfalsy dW v hv hd]
    simp
  case refine_9 =>
    intro v hv hd
    simp only [computeDateStamps]
    rw [hfalsy dP v hv hd]
    simp
  all_goals
    cases hc : ((sc = some "執筆待ち(URL)".toList || sc = some "執筆待ち(PDF)".toList) &&
        pyFalsy dSel) <;>
    cases hw : (sw = some "スケジュール待ち".toList && pyFalsy dW) <;>
    cases hp : (sp = some "完了".toList && pyFalsy dP) <;>
      simp only [computeDateStamps, hc, hw, hp, Bool.false_eq_true, Bool.true_eq_false,
        if_false, if_true] <;>
      simp

/-- Witness for `C9_date_stamps` at a concrete record: `Date(Select)` gets
stamped (milestone holds, field unset) while `Date(W-complete)` with the
existing value `"2024-12-31"` is left untouched. -/
theorem C9_date_stamps_witness :
    (computeDateStamps "2025-01-01".toList (some "執筆待ち(URL)".toList)
      (some "スケジュール待ち".toList) (some "完了".toList)
      none (some "2024-12-31".toList) none).dateSelect = some "2025-01-01".toList ∧
    (computeDateStamps "2025-01-01".toList (some "執筆待ち(URL)".toList)
      (some "スケジュール待ち".toList) (some "完了".toList)
      none (some "2024-12-31".toList) none).dateWComplete = none := by
  have h := C9_date_stamps "2025-01-01".toList (some "執筆待ち(URL)".toList)
    (some "スケジュール待ち".toList) (some "完了".toList)
    none (some "2024-12-31".toList) none
  exact ⟨h.1.mpr (by decide), h.2.2.2.2.2.2.2.1 "2024-12-31".toList (by decide) rfl⟩

/-! ## Claim C3 — run chunking -/

theorem chunkRun_length :
    ∀ s : List Char, (chunkRun s).length = (s.length + 1999) / 2000 := by
  apply list_length_induction
  intro s ih
  rw [chunkRun_eq]
  by_cases h : s = []
  · subst h; rfl
  · simp only [if_neg h, List.length_cons]
    rw [ih (s.drop 2000) ?_]
    · simp only [List.length_drop]
      have h1 : s.length ≠ 0 := fun hc => h (List.length_eq_zero.mp hc)
      rcases Nat.lt_or_ge s.length 2001 with hlen | hlen
      · have e1 : s.length - 2000 = 0 := by omega
        have e3 : (s.length + 1999) / 2000 = 1 :=
          Nat.div_eq_of_lt_le (by omega) (by omega)
        rw [e1, e3]
      · have e1 : s.length - 2000 + 1999 = s.length - 1 := by omega
        have e2 : s.length + 1999 = s.length - 1 + 2000 := by omega
        rw [e1, e2, Nat.add_div_right _ (by norm_num)]
    · cases s with
      | nil => exact absurd rfl h
      | cons a t => simp only [List.length_drop, List.length_cons]; omega

theorem chunkRun_all_le :
    ∀ s : List Char, (chunkRun s).all (fun c => c.length ≤ 2000) = true := by
  apply list_length_induction
  intro s ih
  rw [chunkRun_eq]
  by_cases h : s = []
  · subst h; rfl
  · simp only [if_neg h, List.all_cons, Bool.and_eq_true]
    constructor
    · simp only [decide_eq_true_eq, List.length_take]
      omega
    · apply ih
      cases s with
      | nil => exact absurd rfl h
      | cons a t => simp only [List.length_drop, List.length_cons]; omega

theorem chunkRun_flatten : ∀ s : List Char, (chunkRun s).flatten = s := by
  apply list_length_induction
  intro s ih
  rw [chunkRun_eq]
  by_cases h : s = []
  · subst h; rfl
  · simp only [if_neg h, List.flatten_cons]
    rw [ih (s.drop 2000) ?_, List.take_append_drop]
    cases s with
    | nil => exact absurd rfl h
    | cons a t => simp only [List.length_drop, List.length_cons]; omega

theorem takeWhile_append_all {α : Type _} {p : α → Bool} :
    ∀ {l1 l2 : List α}, (∀ x ∈ l1, p x = true) →
      (l1 ++ l2).takeWhile p = l1 ++ l2.takeWhile p := by
  intro l1
  induction l1 with
  | nil => intro l2 _; rfl
  | cons a t ih =>
      intro l2 h
      rw [List.cons_append, List.takeWhile_cons, if_pos (h a (List.mem_cons_self a t)),
        List.cons_append, ih (fun x hx => h x (List.mem_cons_of_mem a hx))]

theorem dropWhile_append_all {α : Type _} {p : α → Bool} :
    ∀ {l1 l2 : List α}, (∀ x ∈ l1, p x = true) →
      (l1 ++ l2).dropWhile p = l2.dropWhile p := by
  intro l1
  induction l1 with
  | nil => intro l2 _; rfl
  | cons a t ih =>
      intro l2 h
      rw [List.cons_append, List.dropWhile_cons, if_pos (h a (List.mem_cons_self a t)),
        ih (fun x hx => h x (List.mem_cons_of_mem a hx))]

theorem matchAt_bold {c r : List Char} (hc : c ≠ []) (hstar : ∀ x ∈ c, x ≠ '*') :
    matchAt ('*' :: '*' :: (c ++ '*' :: '*' :: r)) = some (c, r) := by
  have hall : ∀ x ∈ c, (fun ch => ch != '*') x = true := by
    intro x hx
    simpa using hstar x hx
  have htake : (c ++ '*' :: '*' :: r).takeWhile (fun ch => ch != '*') = c := by
    rw [takeWhile_append_all hall, List.takeWhile_cons]
    simp
  have hdrop : (c ++ '*' :: '*' :: r).dropWhile (fun ch => ch != '*') = '*' :: '*' :: r := by
    rw [dropWhile_append_all hall, List.dropWhile_cons]
    simp
  simp [matchAt, htake, hdrop, hc]

theorem matchAt_cons_nonstar {a : Char} {t : List Char} (ha : a ≠ '*') :
    matchAt (a :: t) = none := by
  cases t with
  | nil => rfl
  | cons b t' =>
      show (if a = '*' ∧ b = '*' then _ else _) = _
      rw [if_neg (fun hab => ha hab.1)]

theorem findMatch_none_of_no_star {s : List Char} (h : ∀ x ∈ s, x ≠ '*') :
    findMatch s = none := by
  induction s with
  | nil => rfl
  | cons a t ih =>
      rw [findMatch, matchAt_cons_nonstar (h a (List.mem_cons_self a t)),
        ih (fun x hx => h x (List.mem_cons_of_mem a hx))]
      rfl

theorem isBoldShaped_boldForm {c : List Char} (hc : c ≠ []) :
    isBoldShaped ('*' :: '*' :: (c ++ ['*', '*'])) = true := by
  unfold isBoldShaped
  simp only [Bool.and_eq_true, decide_eq_true_eq]
  refine ⟨⟨rfl, ?_⟩, ?_⟩
  · rw [List.reverse_cons, List.reverse_cons, List.reverse_append]
    rfl
  · simp only [List.length_cons, List.length_append, List.length_cons, List.length_nil]
    have : c.length ≠ 0 := fun h => hc (List.length_eq_zero.mp h)
    omega

theorem segRuns_boldForm {c : List Char} (hc : c ≠ []) :
    segRuns ('*' :: '*' :: (c ++ ['*', '*'])) =
      (chunkRun c).map (fun ch => mkRichText ch true) := by
  rw [segRuns, if_neg (List.cons_ne_nil _ _), if_pos (isBoldShaped_boldForm hc)]
  have hdrop : (('*' :: '*' :: (c ++ ['*', '*'])).drop 2) = c ++ ['*', '*'] := rfl
  have hlen : ('*' :: '*' :: (c ++ ['*', '*'])).length - 4 = c.length := by
    simp only [List.length_cons, List.length_append, List.length_cons, List.length_nil]
    omega
  rw [hdrop, hlen, List.take_left]

theorem parseInline_boldForm {c : List Char} (hc : c ≠ []) (hstar : ∀ x ∈ c, x ≠ '*') :
    parseInline ('*' :: '*' :: (c ++ ['*', '*'])) =
      (chunkRun c).map (fun ch => mkRichText ch true) := by
  have hfm : findMatch ('*' :: '*' :: (c ++ ['*', '*'])) = some ([], c, []) := by
    rw [findMatch]
    have hma : matchAt ('*' :: '*' :: (c ++ ['*', '*'])) = some (c, []) := by
      have := @matchAt_bold c [] hc hstar
      simpa using this
    rw [hma]
  have hsplit : reSplit ('*' :: '*' :: (c ++ ['*', '*'])) =
      [[], '*' :: '*' :: (c ++ ['*', '*']), []] := by
    rw [reSplit_eq, hfm]
    show [] :: ('*' :: '*' :: (c ++ ['*', '*'])) :: reSplit [] = _
    rw [show reSplit [] = [[]] from by rw [reSplit_eq]; rfl]
  have hne : (chunkRun c).map (fun ch => mkRichText ch true) ≠ [] := by
    rw [chunkRun_cons_of_ne hc]
    simp
  have hparts : ((reSplit ('*' :: '*' :: (c ++ ['*', '*']))).map segRuns).flatten =
      (chunkRun c).map (fun ch => mkRichText ch true) := by
    rw [hsplit]
    show segRuns [] ++ (segRuns ('*' :: '*' :: (c ++ ['*', '*'])) ++ (segRuns [] ++ [])) = _
    rw [segRuns_boldForm hc, show segRuns [] = [] from rfl]
    simp
  simp only [parseInline]
  rw [hparts, if_neg hne]

theorem parseInline_noStar {s : List Char} (hs : s ≠ []) (hstar : ∀ x ∈ s, x ≠ '*') :
    parseInline s = (chunkRun s).map (fun ch => mkRichText ch false) := by
  have hsplit : reSplit s = [s] := by
    rw [reSplit_eq, findMatch_none_of_no_star hstar]
  have htake : s.take 2 ≠ ['*', '*'] := by
    intro hc2
    have : '*' ∈ s := (List.take_subset 2 s) (hc2 ▸ List.mem_cons_self '*' ['*'])
    exact hstar '*' this rfl
  have hbold : isBoldShaped s = false := by
    unfold isBoldShaped
    rw [Bool.eq_false_iff]
    simp only [ne_eq, Bool.and_eq_true, decide_eq_true_eq]
    intro hcontra
    exact htake hcontra.1.1
  have hseg : segRuns s = (chunkRun s).map (fun ch => mkRichText ch false) := by
    rw [segRuns, if_neg hs,
      if_neg (show ¬isBoldShaped s = true from fun h => Bool.false_ne_true (hbold ▸ h))]
  have hne : (chunkRun s).map (fun ch => mkRichText ch false) ≠ [] := by
    rw [chunkRun_cons_of_ne hs]
    simp
  have hparts : ((reSplit s).map segRuns).flatten =
      (chunkRun s).map (fun ch => mkRichText ch false) := by
    rw [hsplit]
    show segRuns s ++ [] = _
    rw [hseg, List.append_nil]
  simp only [parseInline]
  rw [hparts, if_neg hne]

/-- **C3** — Run chunking: the chunk loop of `_parse_inline` splits a run
text of length `L` into exactly `⌈L / 2000⌉` fragments, each of length at
most 2000, whose concatenation in order is the original text; and
`_parse_inline` emits exactly those fragments for the content of a
`**bold**` span and for a `*`-free non-bold segment. -/
theorem C3_chunking :
    (∀ s : List Char,
      (chunkRun s).length = (s.length + 1999) / 2000 ∧
      (chunkRun s).all (fun c => c.length ≤ 2000) = true ∧
      (chunkRun s).flatten = s) ∧
    (∀ c : List Char, c ≠ [] → (∀ x ∈ c, x ≠ '*') →
      parseInline ('*' :: '*' :: (c ++ ['*', '*'])) =
        (chunkRun c).map (fun ch => mkRichText ch true)) ∧
    (∀ s : List Char, s ≠ [] → (∀ x ∈ s, x ≠ '*') →
      parseInline s = (chunkRun s).map (fun ch => mkRichText ch false)) :=
  ⟨fun s => ⟨chunkRun_length s, chunkRun_all_le s, chunkRun_flatten s⟩,
   fun _ hc hstar => parseInline_boldForm hc hstar,
   fun _ hs hstar => parseInline_noStar hs hstar⟩

/-- Witness for `C3_chunking` at concrete runs. -/
theorem C3_chunking_witness :
    ((chunkRun "abc".toList).length = ("abc".toList.length + 1999) / 2000 ∧
      (chunkRun "abc".toList).all (fun c => c.length ≤ 2000) = true ∧
      (chunkRun "abc".toList).flatten = "abc".toList) ∧
    parseInline ('*' :: '*' :: ("bold".toList ++ ['*', '*'])) =
      (chunkRun "bold".toList).map (fun ch => mkRichText ch true) ∧
    parseInline "plain".toList =
      (chunkRun "plain".toList).map (fun ch => mkRichText ch false) :=
  ⟨C3_chunking.1 "abc".toList,
   C3_chunking.2.1 "bold".toList (by decide) (by decide),
   C3_chunking.2.2 "plain".toList (by decide) (by decide)⟩

/-! ## Claim C4 — blank-line coalescing -/


/-! ## Claim C4 — blank-line coalescing -/

theorem getLast?_append_singleton {α : Type _} (l : List α) (a : α) :
    (l ++ [a]).getLast? = some a := by
  rw [List.getLast?_append_cons]
  rfl

theorem mdStep_nonblank {blocks : List NBlock} {line : List Char}
    (h : rstripC line ≠ []) :
    mdStep blocks line = blocks ++ [blockOfLine (rstripC line)] := by
  rw [mdStep, if_neg h]

theorem mdStep_blank_emptyLast {blocks : List NBlock} {b : NBlock}
    (hb : blocks.getLast? = some b) (he : isTextEmptyPara b = true) :
    mdStep blocks [] = blocks := by
  rw [mdStep, if_pos (show rstripC [] = ([] : List Char) from rfl), hb]
  show (if isTextEmptyPara b = true then blocks else blocks ++ [emptyPara]) = blocks
  rw [if_pos he]

theorem mdStep_blank_solidLast {blocks : List NBlock} {b : NBlock}
    (hb : blocks.getLast? = some b) (he : isTextEmptyPara b = false) :
    mdStep blocks [] = blocks ++ [emptyPara] := by
  rw [mdStep, if_pos (show rstripC [] = ([] : List Char) from rfl), hb]
  show (if isTextEmptyPara b = true then blocks else blocks ++ [emptyPara]) = _
  rw [if_neg (fun hc => Bool.false_ne_true (he ▸ hc))]

theorem foldl_blanks_emptyLast :
    ∀ (k : Nat) (S : List NBlock) (b : NBlock), S.getLast? = some b →
      isTextEmptyPara b = true →
      (List.replicate k ([] : List Char)).foldl mdStep S = S := by
  intro k
  induction k with
  | zero => intro S b _ _; rfl
  | succ k ih =>
      intro S b hb he
      rw [List.replicate_succ, List.foldl_cons, mdStep_blank_emptyLast hb he]
      exact ih S b hb he

theorem isTextEmptyPara_emptyPara : isTextEmptyPara emptyPara = true := by decide

theorem foldl_blanks_solidLast {k : Nat} {S : List NBlock} {b : NBlock}
    (hb : S.getLast? = some b) (he : isTextEmptyPara b = false) (hk : 1 ≤ k) :
    (List.replicate k ([] : List Char)).foldl mdStep S = S ++ [emptyPara] := by
  cases k with
  | zero => omega
  | succ k =>
      rw [List.replicate_succ, List.foldl_cons, mdStep_blank_solidLast hb he]
      exact foldl_blanks_emptyLast k _ emptyPara (getLast?_append_singleton S emptyPara)
        isTextEmptyPara_emptyPara

/-- **C4** — Blank-line coalescing: a gap of `N ≥ 1` consecutive blank
lines following a non-blank line behaves exactly like a single blank line
(so any `N ≥ 2` gap, regardless of `N`, contributes the same single empty
paragraph as a one-blank-line gap); processing the gap appends exactly one
empty Paragraph block; and a blank line appends an empty Paragraph only if
the immediately preceding emitted block exists and is not already an empty
Paragraph. -/
theorem C4_blank_coalescing (m : List Char) (pre post : List (List Char))
    (n1 : List Char) (N : Nat)
    (hsplit : splitLinesC m = pre ++ n1 :: (List.replicate N [] ++ post))
    (h1 : rstripC n1 ≠ []) (hN : 1 ≤ N) :
    (markdown_to_notion_blocks m =
      stripTrailingEmpty ((pre ++ n1 :: ([] :: post)).foldl mdStep [])) ∧
    ((pre ++ n1 :: List.replicate N []).foldl mdStep [] =
      (pre ++ [n1]).foldl mdStep [] ++ [emptyPara]) ∧
    (∀ (blocks : List NBlock) (line : List Char), rstripC line = [] →
      mdStep blocks line ≠ blocks →
      ∃ b, blocks.getLast? = some b ∧ isTextEmptyPara b = false) := by
  have hb1 : ∀ S : List NBlock, (mdStep S n1).getLast? = some (blockOfLine (rstripC n1)) := by
    intro S
    rw [mdStep_nonblank h1]
    exact getLast?_append_singleton _ _
  have hbne : isTextEmptyPara (blockOfLine (rstripC n1)) = false :=
    isTextEmptyPara_blockOfLine h1
  have hlast : ((pre ++ [n1]).foldl mdStep ([] : List NBlock)).getLast? =
      some (blockOfLine (rstripC n1)) := by
    rw [List.foldl_append mdStep [] pre [n1], List.foldl_cons, List.foldl_nil]
    exact hb1 _
  refine ⟨?_, ?_, ?_⟩
  · rw [markdown_to_notion_blocks, hsplit]
    congr 1
    have e1 : pre ++ n1 :: (List.replicate N ([] : List Char) ++ post) =
        (pre ++ [n1]) ++ (List.replicate N [] ++ post) := by simp
    have e2 : pre ++ n1 :: (([] : List Char) :: post) = (pre ++ [n1]) ++ ([] :: post) := by
      simp
    have LHSeq : List.foldl mdStep []
        ((pre ++ [n1]) ++ (List.replicate N ([] : List Char) ++ post)) =
        List.foldl mdStep ((List.foldl mdStep [] (pre ++ [n1])) ++ [emptyPara]) post := by
      rw [List.foldl_append mdStep [] (pre ++ [n1]) (List.replicate N [] ++ post),
        List.foldl_append mdStep _ (List.replicate N []) post,
        foldl_blanks_solidLast hlast hbne hN]
    have RHSeq : List.foldl mdStep [] ((pre ++ [n1]) ++ (([] : List Char) :: post)) =
        List.foldl mdStep ((List.foldl mdStep [] (pre ++ [n1])) ++ [emptyPara]) post := by
      rw [List.foldl_append mdStep [] (pre ++ [n1]) ([] :: post), List.foldl_cons,
        mdStep_blank_solidLast hlast hbne]
    rw [e1, e2]
    exact LHSeq.trans RHSeq.symm
  · have e1 : pre ++ n1 :: List.replicate N ([] : List Char) =
        (pre ++ [n1]) ++ List.replicate N [] := by simp
    rw [e1, List.foldl_append mdStep [] (pre ++ [n1]) (List.replicate N [])]
    exact foldl_blanks_solidLast hlast hbne hN
  · intro blocks line hline hne
    rw [mdStep, if_pos hline] at hne
    cases hg : blocks.getLast? with
    | none => rw [hg] at hne; exact absurd rfl hne
    | some b =>
        rw [hg] at hne
        by_cases he : isTextEmptyPara b = true
        · exfalso
          apply hne
          show (if isTextEmptyPara b = true then blocks else blocks ++ [emptyPara]) = blocks
          rw [if_pos he]
        · exact ⟨b, rfl, Bool.eq_false_iff.mpr he⟩

/-- Witness for `C4_blank_coalescing`: the markup `"a\n\n\nb"` has a gap
of two blank lines after the non-blank line `"a"`, and its parse equals the
parse of the same document with a single blank line; a blank line after a
divider (not an empty paragraph) does append an empty paragraph. -/
theorem C4_blank_coalescing_witness :
    (markdown_to_notion_blocks "a\n\n\nb".toList =
      stripTrailingEmpty
        ((([] : List (List Char)) ++ "a".toList :: ([] :: ["b".toList])).foldl mdStep [])) ∧
    (∃ b, ([NBlock.divider] : List NBlock).getLast? = some b ∧
      isTextEmptyPara b = false) := by
  have h := C4_blank_coalescing "a\n\n\nb".toList [] ["b".toList] "a".toList 2
    (by decide) (by decide) (by decide)
  refine ⟨h.1, h.2.2 [NBlock.divider] [] rfl ?_⟩
  decide

/-! ## Claim C10 — page-id link round trip -/

theorem hexRun_eq_some {n : Nat} {s m : List Char} (h : hexRun n s = some m) :
    m = s.take n ∧ m.length = n ∧ (∀ x ∈ m, hexCI x = true) := by
  unfold hexRun at h
  split at h
  · next hc =>
      simp only [Option.some.injEq] at h
      subst h
      simp only [Bool.and_eq_true, decide_eq_true_eq, List.all_eq_true] at hc
      exact ⟨rfl, hc.1, hc.2⟩
  · exact absurd h (by simp)

theorem hexRun_exact {s : List Char} (hlen : s.length = 32)
    (hhex : ∀ x ∈ s, hexCI x = true) : hexRun 32 s = some s := by
  unfold hexRun
  rw [List.take_of_length_le (by omega)]
  rw [if_pos ?_]
  simp only [Bool.and_eq_true, decide_eq_true_eq, List.all_eq_true]
  exact ⟨hlen, hhex⟩

theorem uuidShapeAt_eq_some {s m : List Char} (h : uuidShapeAt s = some m) :
    (∃ g1 g2 g3 g4 g5 : List Char,
      m = g1 ++ '-' :: (g2 ++ '-' :: (g3 ++ '-' :: (g4 ++ '-' :: g5))) ∧
      g1.length = 8 ∧ g2.length = 4 ∧ g3.length = 4 ∧ g4.length = 4 ∧ g5.length = 12 ∧
      (∀ x ∈ g1, hexCI x = true) ∧ (∀ x ∈ g2, hexCI x = true) ∧
      (∀ x ∈ g3, hexCI x = true) ∧ (∀ x ∈ g4, hexCI x = true) ∧
      (∀ x ∈ g5, hexCI x = true)) ∧ '-' ∈ s := by
  unfold uuidShapeAt at h
  split at h
  · exact absurd h (by simp)
  · next g1 hg1 =>
      split at h
      case _ r1 hr1 =>
        split at h
        · exact absurd h (by simp)
        · next g2 hg2 =>
            split at h
            case _ r2 hr2 =>
              split at h
              · exact absurd h (by simp)
              · next g3 hg3 =>
                  split at h
                  case _ r3 hr3 =>
                    split at h
                    · exact absurd h (by simp)
                    · next g4 hg4 =>
                        split at h
                        case _ r4 hr4 =>
                          split at h
                          · exact absurd h (by simp)
                          · next g5 hg5 =>
                              simp only [Option.some.injEq] at h
                              obtain ⟨e1, l1, a1⟩ := hexRun_eq_some hg1
                              obtain ⟨e2, l2, a2⟩ := hexRun_eq_some hg2
                              obtain ⟨e3, l3, a3⟩ := hexRun_eq_some hg3
                              obtain ⟨e4, l4, a4⟩ := hexRun_eq_some hg4
                              obtain ⟨e5, l5, a5⟩ := hexRun_eq_some hg5
                              refine ⟨⟨g1, g2, g3, g4, g5, h.symm, l1, l2, l3, l4, l5,
                                a1, a2, a3, a4, a5⟩, ?_⟩
                              have : '-' ∈ s.drop 8 := by
                                rw [hr1]
                                exact List.mem_cons_self _ _
                              exact List.drop_subset 8 s this
                        case _ hne => exact absurd h (by simp)
                  case _ hne => exact absurd h (by simp)
            case _ hne => exact absurd h (by simp)
      case _ hne => exact absurd h (by simp)

theorem searchUuid_none_of_no_dash :
    ∀ {s : List Char}, (∀ x ∈ s, x ≠ '-') → searchUuid s = none := by
  intro s
  induction s with
  | nil => intro _; rfl
  | cons a t ih =>
      intro h
      rw [searchUuid]
      cases hu : uuidShapeAt (a :: t) with
      | some m =>
          obtain ⟨_, hdash⟩ := uuidShapeAt_eq_some hu
          exact absurd rfl (h '-' hdash)
      | none =>
          show searchUuid t = none
          exact ih (fun x hx => h x (List.mem_cons_of_mem a hx))

theorem searchHex32_cons_nonhex {a : Char} {t : List Char} (ha : hexCI a = false) :
    searchHex32 (a :: t) = searchHex32 t := by
  rw [searchHex32]
  have hnone : hex32At (a :: t) = none := by
    unfold hex32At hexRun
    rw [if_neg ?_]
    simp only [Bool.and_eq_true, decide_eq_true_eq, List.all_eq_true]
    intro hcontra
    have hmem : a ∈ (a :: t).take 32 := by
      rw [show (a :: t).take 32 = a :: t.take 31 from rfl]
      exact List.mem_cons_self _ _
    have ha' := hcontra.2 a hmem
    rw [ha] at ha'
    exact Bool.false_ne_true ha'
  rw [hnone]

theorem searchHex32_append {p : List Char} (hp : ∀ x ∈ p, hexCI x = false) :
    ∀ s : List Char, searchHex32 (p ++ s) = searchHex32 s := by
  induction p with
  | nil => intro s; rfl
  | cons a t ih =>
      intro s
      rw [List.cons_append, searchHex32_cons_nonhex (hp a (List.mem_cons_self a t))]
      exact ih (fun x hx => hp x (List.mem_cons_of_mem a hx)) s

theorem searchUuid_eq_some :
    ∀ {s m : List Char}, searchUuid s = some m →
      ∃ g1 g2 g3 g4 g5 : List Char,
        m = g1 ++ '-' :: (g2 ++ '-' :: (g3 ++ '-' :: (g4 ++ '-' :: g5))) ∧
        g1.length = 8 ∧ g2.length = 4 ∧ g3.length = 4 ∧ g4.length = 4 ∧ g5.length = 12 ∧
        (∀ x ∈ g1, hexCI x = true) ∧ (∀ x ∈ g2, hexCI x = true) ∧
        (∀ x ∈ g3, hexCI x = true) ∧ (∀ x ∈ g4, hexCI x = true) ∧
        (∀ x ∈ g5, hexCI x = true) := by
  intro s
  induction s with
  | nil => intro m h; exact absurd h (by simp [searchUuid])
  | cons a t ih =>
      intro m h
      rw [searchUuid] at h
      cases hu : uuidShapeAt (a :: t) with
      | some m' =>
          rw [hu] at h
          simp only [Option.some.injEq] at h
          subst h
          exact (uuidShapeAt_eq_some hu).1
      | none =>
          rw [hu] at h
          exact ih h

theorem searchHex32_eq_some :
    ∀ {s m : List Char}, searchHex32 s = some m →
      m.length = 32 ∧ ∀ x ∈ m, hexCI x = true := by
  intro s
  induction s with
  | nil => intro m h; exact absurd h (by simp [searchHex32])
  | cons a t ih =>
      intro m h
      rw [searchHex32] at h
      cases hu : hex32At (a :: t) with
      | some m' =>
          rw [hu] at h
          simp only [Option.some.injEq] at h
          subst h
          exact (hexRun_eq_some hu).2
      | none =>
          rw [hu] at h
          exact ih h

theorem lhex_mem {x : Char} (h : lhex x = true) : x ∈ "0123456789abcdef".toList := by
  simpa [lhex] using h

theorem lhex_ne_dash {x : Char} (h : lhex x = true) : x ≠ '-' := by
  have hall : ∀ y ∈ "0123456789abcdef".toList, y ≠ '-' := by decide
  exact hall x (lhex_mem h)

theorem lhex_hexCI {x : Char} (h : lhex x = true) : hexCI x = true := by
  have hall : ∀ y ∈ "0123456789abcdef".toList, hexCI y = true := by decide
  exact hall x (lhex_mem h)

theorem lhex_toLower {x : Char} (h : lhex x = true) : Char.toLower x = x := by
  have hall : ∀ y ∈ "0123456789abcdef".toList, Char.toLower y = y := by decide
  exact hall x (lhex_mem h)

theorem hexCI_toLower_lhex {x : Char} (h : hexCI x = true) :
    lhex (Char.toLower x) = true := by
  have hall : ∀ y ∈ "0123456789abcdefABCDEF".toList, lhex (Char.toLower y) = true := by
    decide
  exact hall x (by simpa [hexCI] using h)

theorem filter_ne_dash_id {l : List Char} (h : ∀ x ∈ l, x ≠ '-') :
    l.filter (fun c => c ≠ '-') = l := by
  rw [List.filter_eq_self]
  intro a ha
  simpa using h a ha

theorem pyLower_lhex_fixed {l : List Char} (h : ∀ x ∈ l, lhex x = true) :
    pyLower l = l := by
  rw [pyLower]
  conv_rhs => rw [← List.map_id l]
  exact List.map_congr_left (fun x hx => lhex_toLower (h x hx))

/-- **C10** — Cross-reference links round-trip: for a page id in canonical
UUID form (32 lowercase hex digits grouped 8-4-4-4-12, given here by its
five groups), `_extract_notion_page_id` applied to the URL
`https://www.notion.so/` + id-without-hyphens — exactly the URL
`set_child_page_link` writes into the cross-reference property — returns
the original id; and for any input string, `_extract_notion_page_id`
returns either `none` or a string in canonical UUID form. -/
theorem C10_link_roundtrip :
    (∀ a b c d e : List Char,
      a.length = 8 → b.length = 4 → c.length = 4 → d.length = 4 → e.length = 12 →
      (∀ x ∈ a ++ b ++ c ++ d ++ e, lhex x = true) →
      extractNotionPageId
        (notionUrlOf (a ++ '-' :: (b ++ '-' :: (c ++ '-' :: (d ++ '-' :: e))))) =
        some (a ++ '-' :: (b ++ '-' :: (c ++ '-' :: (d ++ '-' :: e))))) ∧
    (∀ s r : List Char, extractNotionPageId s = some r → canonicalUuid r) := by
  constructor
  · intro a b c d e la lb lc ld le hl
    have hla : ∀ x ∈ a, lhex x = true := fun x hx => hl x (by simp [hx])
    have hlb : ∀ x ∈ b, lhex x = true := fun x hx => hl x (by simp [hx])
    have hlc : ∀ x ∈ c, lhex x = true := fun x hx => hl x (by simp [hx])
    have hld : ∀ x ∈ d, lhex x = true := fun x hx => hl x (by simp [hx])
    have hle : ∀ x ∈ e, lhex x = true := fun x hx => hl x (by simp [hx])
    have hfil : (a ++ '-' :: (b ++ '-' :: (c ++ '-' :: (d ++ '-' :: e)))).filter
        (fun ch => ch ≠ '-') = a ++ (b ++ (c ++ (d ++ e))) := by
      have hd : (fun ch => decide (ch ≠ '-')) '-' = false := by decide
      rw [List.filter_append, filter_ne_dash_id (fun x hx => lhex_ne_dash (hla x hx)),
        List.filter_cons, if_neg (by simp),
        List.filter_append, filter_ne_dash_id (fun x hx => lhex_ne_dash (hlb x hx)),
        List.filter_cons, if_neg (by simp),
        List.filter_append, filter_ne_dash_id (fun x hx => lhex_ne_dash (hlc x hx)),
        List.filter_cons, if_neg (by simp),
        List.filter_append, filter_ne_dash_id (fun x hx => lhex_ne_dash (hld x hx)),
        List.filter_cons, if_neg (by simp),
        filter_ne_dash_id (fun x hx => lhex_ne_dash (hle x hx))]
    have hurl : notionUrlOf (a ++ '-' :: (b ++ '-' :: (c ++ '-' :: (d ++ '-' :: e)))) =
        "https://www.notion.so/".toList ++ (a ++ (b ++ (c ++ (d ++ e)))) := by
      rw [notionUrlOf, hfil]
    set h32 := a ++ (b ++ (c ++ (d ++ e))) with h32def
    have h32hex : ∀ x ∈ h32, lhex x = true := by
      intro x hx
      rw [h32def] at hx
      simp only [List.mem_append] at hx
      rcases hx with hx | hx | hx | hx | hx
      exacts [hla x hx, hlb x hx, hlc x hx, hld x hx, hle x hx]
    have h32len : h32.length = 32 := by
      rw [h32def]
      simp only [List.length_append, la, lb, lc, ld, le]
    have hnodash : ∀ x ∈ "https://www.notion.so/".toList ++ h32, x ≠ '-' := by
      intro x hx
      rcases List.mem_append.mp hx with hx | hx
      · have : ∀ y ∈ "https://www.notion.so/".toList, y ≠ '-' := by decide
        exact this x hx
      · exact lhex_ne_dash (h32hex x hx)
    have hdomainhex : ∀ x ∈ "https://www.notion.so/".toList, hexCI x = false := by decide
    have hsearchU : searchUuid ("https://www.notion.so/".toList ++ h32) = none :=
      searchUuid_none_of_no_dash hnodash
    have hsearchH : searchHex32 ("https://www.notion.so/".toList ++ h32) = some h32 := by
      rw [searchHex32_append hdomainhex]
      cases hh : h32 with
      | nil => rw [hh] at h32len; simp at h32len
      | cons x t =>
          rw [searchHex32]
          have : hex32At (x :: t) = some (x :: t) := by
            rw [hex32At]
            exact hexRun_exact (hh ▸ h32len)
              (fun y hy => lhex_hexCI (h32hex y (hh ▸ hy)))
          rw [this]
    rw [extractNotionPageId, hurl]
    rw [if_neg (by simp), hsearchU, hsearchH]
    have hlow : pyLower h32 = h32 := pyLower_lhex_fixed h32hex
    show some ((pyLower h32).take 8 ++ '-' :: (((pyLower h32).drop 8).take 4 ++ '-' ::
      (((pyLower h32).drop 12).take 4 ++ '-' :: (((pyLower h32).drop 16).take 4 ++ '-' ::
        (pyLower h32).drop 20)))) =
      some (a ++ '-' :: (b ++ '-' :: (c ++ '-' :: (d ++ '-' :: e))))
    rw [hlow]
    have ht8 : h32.take 8 = a := by
      rw [h32def, List.take_left' la]
    have hd8 : h32.drop 8 = b ++ (c ++ (d ++ e)) := by
      rw [h32def, List.drop_left' la]
    have hd12 : h32.drop 12 = c ++ (d ++ e) := by
      have : h32.drop 12 = (h32.drop 8).drop 4 := by
        rw [List.drop_drop]
      rw [this, hd8, List.drop_left' lb]
    have hd16 : h32.drop 16 = d ++ e := by
      have : h32.drop 16 = (h32.drop 12).drop 4 := by
        rw [List.drop_drop]
      rw [this, hd12, List.drop_left' lc]
    have hd20 : h32.drop 20 = e := by
      have : h32.drop 20 = (h32.drop 16).drop 4 := by
        rw [List.drop_drop]
      rw [this, hd16, List.drop_left' ld]
    rw [ht8, hd8, hd12, hd16, hd20, List.take_left' lb, List.take_left' lc,
      List.take_left' ld]
  · intro s r h
    rw [extractNotionPageId] at h
    split at h
    · exact absurd h (by simp)
    · cases hu : searchUuid s with
      | some m =>
          rw [hu] at h
          simp only [Option.some.injEq] at h
          subst h
          obtain ⟨g1, g2, g3, g4, g5, hm, l1, l2, l3, l4, l5, a1, a2, a3, a4, a5⟩ :=
            searchUuid_eq_some hu
          subst hm
          refine ⟨pyLower g1, pyLower g2, pyLower g3, pyLower g4, pyLower g5, ?_,
            ?_, ?_, ?_, ?_, ?_, ?_⟩
          · rw [pyLower]
            simp only [List.map_append, List.map_cons]
            rw [show Char.toLower '-' = '-' from by decide]
            rfl
          · rw [pyLower, List.length_map, l1]
          · rw [pyLower, List.length_map, l2]
          · rw [pyLower, List.length_map, l3]
          · rw [pyLower, List.length_map, l4]
          · rw [pyLower, List.length_map, l5]
          · intro x hx
            simp only [List.mem_append, pyLower, List.mem_map] at hx
            rcases hx with ((((⟨y, hy, hxy⟩ | ⟨y, hy, hxy⟩) | ⟨y, hy, hxy⟩) |
              ⟨y, hy, hxy⟩) | ⟨y, hy, hxy⟩)
            exacts [hxy ▸ hexCI_toLower_lhex (a1 y hy),
              hxy ▸ hexCI_toLower_lhex (a2 y hy),
              hxy ▸ hexCI_toLower_lhex (a3 y hy),
              hxy ▸ hexCI_toLower_lhex (a4 y hy),
              hxy ▸ hexCI_toLower_lhex (a5 y hy)]
      | none =>
          rw [hu] at h
          cases hh : searchHex32 s with
          | some h0 =>
              rw [hh] at h
              simp only [Option.some.injEq] at h
              obtain ⟨hlen, hhex⟩ := searchHex32_eq_some hh
              have hlowlen : (pyLower h0).length = 32 := by
                rw [pyLower, List.length_map, hlen]
              have hlowhex : ∀ x ∈ pyLower h0, lhex x = true := by
                intro x hx
                rw [pyLower, List.mem_map] at hx
                obtain ⟨y, hy, hxy⟩ := hx
                exact hxy ▸ hexCI_toLower_lhex (hhex y hy)
              refine ⟨(pyLower h0).take 8, ((pyLower h0).drop 8).take 4,
                ((pyLower h0).drop 12).take 4, ((pyLower h0).drop 16).take 4,
                (pyLower h0).drop 20, h.symm, ?_, ?_, ?_, ?_, ?_, ?_⟩
              · rw [List.length_take, hlowlen]; omega
              · rw [List.length_take, List.length_drop, hlowlen]; omega
              · rw [List.length_take, List.length_drop, hlowlen]; omega
              · rw [List.length_take, List.length_drop, hlowlen]; omega
              · rw [List.length_drop, hlowlen]
              · intro x hx
                simp only [List.mem_append] at hx
                rcases hx with (((hx | hx) | hx) | hx) | hx
                · exact hlowhex x (List.take_subset _ _ hx)
                · exact hlowhex x (List.drop_subset _ _ (List.take_subset _ _ hx))
                · exact hlowhex x (List.drop_subset _ _ (List.take_subset _ _ hx))
                · exact hlowhex x (List.drop_subset _ _ (List.take_subset _ _ hx))
                · exact hlowhex x (List.drop_subset _ _ hx)
          | none =>
              rw [hh] at h
              exact absurd h (by simp)

/-- Witness for `C10_link_roundtrip` at the concrete page id
`01234567-89ab-cdef-0123-456789abcdef`. -/
theorem C10_link_roundtrip_witness :
    extractNotionPageId
      (notionUrlOf ("01234567".toList ++ '-' :: ("89ab".toList ++ '-' ::
        ("cdef".toList ++ '-' :: ("0123".toList ++ '-' :: "456789abcdef".toList))))) =
      some ("01234567".toList ++ '-' :: ("89ab".toList ++ '-' ::
        ("cdef".toList ++ '-' :: ("0123".toList ++ '-' :: "456789abcdef".toList)))) ∧
    canonicalUuid ("01234567-89ab-cdef-0123-456789abcdef".toList) := by
  constructor
  · exact C10_link_roundtrip.1 "01234567".toList "89ab".toList "cdef".toList
      "0123".toList "456789abcdef".toList (by decide) (by decide) (by decide)
      (by decide) (by decide) (by decide)
  · exact C10_link_roundtrip.2
      "https://www.notion.so/0123456789abcdef0123456789abcdef".toList
      "01234567-89ab-cdef-0123-456789abcdef".toList (by decide)

/-! ## Claim C1 — round trip of the supported dialect

The supported dialect subset of the claim is formalised generatively: an
inline run is a sequence of segments (star-free plain text or `**bold**`
spans with star-free content), and a markup document is a sequence of
lines (headings, quotes, bullets, dividers, paragraphs, blank lines and the
bare `'>'` quote line), joined with newlines. -/

/-- One inline segment of the supported dialect. -/
inductive Seg where
  | plain (p : List Char)
  | bold (c : List Char)
deriving DecidableEq, Repr

def renderSeg : Seg → List Char
  | .plain p => p
  | .bold c => '*' :: '*' :: (c ++ ['*', '*'])

def renderSegs (L : List Seg) : List Char :=
  (L.map renderSeg).flatten

/-- Segment content is usable inline text: non-empty and free of `*` (which
would interfere with the bold delimiters) and of the `str.splitlines()`
line-boundary characters (which would break the line structure). -/
def wfSeg : Seg → Bool
  | .plain p => !p.isEmpty && p.all (fun c => c != '*' && !isLineBreak c)
  | .bold c => !c.isEmpty && c.all (fun c => c != '*' && !isLineBreak c)

/-- No two adjacent plain segments (adjacent plain text merges into one
segment anyway). -/
def noAdjPlain : List Seg → Bool
  | .plain _ :: .plain _ :: _ => false
  | _ :: t => noAdjPlain t
  | [] => true

def wfSegs (L : List Seg) : Bool :=
  L.all wfSeg && noAdjPlain L

/-- The rich-text runs `_parse_inline` produces for one segment. -/
def runsOfSeg : Seg → List RichText
  | .plain p => (chunkRun p).map (fun ch => mkRichText ch false)
  | .bold c => (chunkRun c).map (fun ch => mkRichText ch true)

def runsOfSegs (L : List Seg) : List RichText :=
  (L.map runsOfSeg).flatten

/-- Bold spans longer than 2000 are re-rendered as several consecutive
bold spans by the converter; `expandSegs` is the corresponding segment
transformation. -/
def expandSeg : Seg → List Seg
  | .plain p => [.plain p]
  | .bold c => (chunkRun c).map .bold

def expandSegs (L : List Seg) : List Seg :=
  (L.map expandSeg).flatten

theorem findMatch_cons_nonstar {a : Char} {t : List Char} (ha : a ≠ '*') :
    findMatch (a :: t) =
      (findMatch t).map (fun pcr => (a :: pcr.1, pcr.2.1, pcr.2.2)) := by
  rw [findMatch, matchAt_cons_nonstar ha]

theorem findMatch_append_noStar :
    ∀ {p : List Char}, (∀ x ∈ p, x ≠ '*') → ∀ s : List Char,
      findMatch (p ++ s) =
        (findMatch s).map (fun pcr => (p ++ pcr.1, pcr.2.1, pcr.2.2)) := by
  intro p
  induction p with
  | nil =>
      intro _ s
      rw [List.nil_append]
      cases hf : findMatch s with
      | none => rfl
      | some pcr => rfl
  | cons a t ih =>
      intro h s
      rw [List.cons_append, findMatch_cons_nonstar (h a (List.mem_cons_self a t)),
        ih (fun x hx => h x (List.mem_cons_of_mem a hx)) s]
      cases hf : findMatch s with
      | none => rfl
      | some pcr => rfl

theorem segRuns_noStar {s : List Char} (hs : s ≠ []) (hstar : ∀ x ∈ s, x ≠ '*') :
    segRuns s = (chunkRun s).map (fun ch => mkRichText ch false) := by
  have htake : s.take 2 ≠ ['*', '*'] := by
    intro hc2
    have : '*' ∈ s := (List.take_subset 2 s) (hc2 ▸ List.mem_cons_self '*' ['*'])
    exact hstar '*' this rfl
  have hbold : isBoldShaped s = false := by
    unfold isBoldShaped
    rw [Bool.eq_false_iff]
    simp only [ne_eq, Bool.and_eq_true, decide_eq_true_eq]
    intro hcontra
    exact htake hcontra.1.1
  rw [segRuns, if_neg hs,
    if_neg (show ¬isBoldShaped s = true from fun h => Bool.false_ne_true (hbold ▸ h))]

theorem renderSegs_cons (s : Seg) (t : List Seg) :
    renderSegs (s :: t) = renderSeg s ++ renderSegs t := by
  rw [renderSegs, List.map_cons, List.flatten_cons]
  rfl

theorem runsOfSegs_cons (s : Seg) (t : List Seg) :
    runsOfSegs (s :: t) = runsOfSeg s ++ runsOfSegs t := by
  rw [runsOfSegs, List.map_cons, List.flatten_cons]
  rfl

theorem expandSegs_cons (s : Seg) (t : List Seg) :
    expandSegs (s :: t) = expandSeg s ++ expandSegs t := by
  rw [expandSegs, List.map_cons, List.flatten_cons]
  rfl

theorem noAdjPlain_tail {s : Seg} {t : List Seg} (h : noAdjPlain (s :: t) = true) :
    noAdjPlain t = true := by
  cases s with
  | bold c => exact h
  | plain p =>
      cases t with
      | nil => rfl
      | cons s' t' =>
          cases s' with
          | plain q => exact absurd h (by simp [noAdjPlain])
          | bold c => exact h

theorem wfSegs_cons {s : Seg} {t : List Seg} (h : wfSegs (s :: t) = true) :
    wfSeg s = true ∧ wfSegs t = true := by
  rw [wfSegs, Bool.and_eq_true, List.all_cons, Bool.and_eq_true] at h
  exact ⟨h.1.1, by rw [wfSegs, Bool.and_eq_true]; exact ⟨h.1.2, noAdjPlain_tail h.2⟩⟩

theorem wfSeg_elim {s : List Char}
    (h : (!s.isEmpty && s.all (fun c => c != '*' && !isLineBreak c)) = true) :
    s ≠ [] ∧ (∀ x ∈ s, x ≠ '*') ∧ (∀ x ∈ s, isLineBreak x = false) := by
  rw [Bool.and_eq_true, Bool.not_eq_true'] at h
  refine ⟨?_, ?_, ?_⟩
  · intro hnil
    rw [hnil] at h
    exact absurd h.1 (by decide)
  · intro x hx
    have hax := List.all_eq_true.mp h.2 x hx
    rw [Bool.and_eq_true, bne_iff_ne, Bool.not_eq_true'] at hax
    exact hax.1
  · intro x hx
    have hax := List.all_eq_true.mp h.2 x hx
    rw [Bool.and_eq_true, bne_iff_ne, Bool.not_eq_true'] at hax
    exact hax.2

theorem wfSeg_plain {p : List Char} (h : wfSeg (.plain p) = true) :
    p ≠ [] ∧ (∀ x ∈ p, x ≠ '*') ∧ (∀ x ∈ p, isLineBreak x = false) :=
  wfSeg_elim h

theorem wfSeg_bold {c : List Char} (h : wfSeg (.bold c) = true) :
    c ≠ [] ∧ (∀ x ∈ c, x ≠ '*') ∧ (∀ x ∈ c, isLineBreak x = false) :=
  wfSeg_elim h

/-- The regex-split core of `_parse_inline` on a rendered well-formed
segment list yields exactly the chunk runs of the segments. -/
theorem core_render :
    ∀ L : List Seg, wfSegs L = true →
      ((reSplit (renderSegs L)).map segRuns).flatten = runsOfSegs L := by
  refine list_length_induction _ ?_
  intro L ih hwf
  cases L with
  | nil =>
      rw [show renderSegs [] = [] from rfl,
        show reSplit [] = [[]] from by rw [reSplit_eq]; rfl]
      rfl
  | cons s t =>
      cases s with
      | bold c =>
          obtain ⟨hs, ht⟩ := wfSegs_cons hwf
          obtain ⟨hc, hcstar, _⟩ := wfSeg_bold hs
          have hrend : renderSegs (.bold c :: t) =
              '*' :: '*' :: (c ++ '*' :: '*' :: renderSegs t) := by
            rw [renderSegs_cons]
            show '*' :: '*' :: (c ++ ['*', '*']) ++ renderSegs t = _
            simp [List.append_assoc]
          have hfm : findMatch (renderSegs (.bold c :: t)) =
              some ([], c, renderSegs t) := by
            rw [hrend, findMatch, matchAt_bold hc hcstar]
          have hsplit : reSplit (renderSegs (.bold c :: t)) =
              [] :: ('*' :: '*' :: (c ++ ['*', '*'])) :: reSplit (renderSegs t) := by
            rw [reSplit_eq, hfm]
          rw [hsplit, List.map_cons, List.map_cons, List.flatten_cons, List.flatten_cons,
            show segRuns [] = [] from rfl, List.nil_append, segRuns_boldForm hc,
            ih t (by simp only [List.length_cons]; omega) ht, runsOfSegs_cons]
          rfl
      | plain p =>
          obtain ⟨hs, ht⟩ := wfSegs_cons hwf
          obtain ⟨hp, hpstar, _⟩ := wfSeg_plain hs
          cases t with
          | nil =>
              have hrend : renderSegs [Seg.plain p] = p := by
                rw [renderSegs_cons]
                show p ++ renderSegs [] = p
                rw [show renderSegs ([] : List Seg) = [] from rfl, List.append_nil]
              rw [hrend, reSplit_eq, findMatch_none_of_no_star hpstar]
              show segRuns p ++ [] = _
              rw [List.append_nil, segRuns_noStar hp hpstar]
              simp [runsOfSegs, runsOfSeg]
          | cons s' t' =>
              cases s' with
              | plain q =>
                  exfalso
                  simp [wfSegs, noAdjPlain] at hwf
              | bold c =>
                  obtain ⟨hs2, ht2⟩ := wfSegs_cons ht
                  obtain ⟨hc, hcstar, _⟩ := wfSeg_bold hs2
                  have hrend : renderSegs (.plain p :: .bold c :: t') =
                      p ++ ('*' :: '*' :: (c ++ '*' :: '*' :: renderSegs t')) := by
                    rw [renderSegs_cons, renderSegs_cons]
                    show p ++ ('*' :: '*' :: (c ++ ['*', '*']) ++ renderSegs t') = _
                    simp [List.append_assoc]
                  have hin : findMatch ('*' :: '*' :: (c ++ '*' :: '*' :: renderSegs t')) =
                      some ([], c, renderSegs t') := by
                    rw [findMatch, matchAt_bold hc hcstar]
                  have hfm : findMatch (renderSegs (.plain p :: .bold c :: t')) =
                      some (p, c, renderSegs t') := by
                    rw [hrend, findMatch_append_noStar hpstar, hin]
                    simp
                  have hsplit : reSplit (renderSegs (.plain p :: .bold c :: t')) =
                      p :: ('*' :: '*' :: (c ++ ['*', '*'])) :: reSplit (renderSegs t') := by
                    rw [reSplit_eq, hfm]
                  rw [hsplit, List.map_cons, List.map_cons, List.flatten_cons,
                    List.flatten_cons, segRuns_noStar hp hpstar, segRuns_boldForm hc,
                    ih t' (by simp only [List.length_cons]; omega) ht2,
                    runsOfSegs_cons, runsOfSegs_cons]
                  rfl

theorem chunkRun_mem_ne_nil :
    ∀ s : List Char, ∀ ch ∈ chunkRun s, ch ≠ [] := by
  apply list_length_induction
  intro s ih ch hch
  rw [chunkRun_eq] at hch
  by_cases h : s = []
  · rw [if_pos h] at hch
    exact absurd hch (List.not_mem_nil ch)
  · rw [if_neg h] at hch
    rcases List.mem_cons.mp hch with hc | hc
    · subst hc
      exact take2000_ne_nil h
    · refine ih (s.drop 2000) ?_ ch hc
      cases s with
      | nil => exact absurd rfl h
      | cons a t => simp only [List.length_drop, List.length_cons]; omega

theorem chunkRun_mem_le :
    ∀ s : List Char, ∀ ch ∈ chunkRun s, ch.length ≤ 2000 := by
  intro s ch hch
  simpa using List.all_eq_true.mp (chunkRun_all_le s) ch hch

theorem chunkRun_singleton {ch : List Char} (h : ch ≠ []) (hle : ch.length ≤ 2000) :
    chunkRun ch = [ch] := by
  rw [chunkRun_eq, if_neg h, List.take_of_length_le hle, List.drop_eq_nil_of_le hle,
    chunkRun_nil]

theorem runsOfSeg_ne_nil {s : Seg} (h : wfSeg s = true) : runsOfSeg s ≠ [] := by
  cases s with
  | plain p =>
      obtain ⟨hp, _, _⟩ := wfSeg_plain h
      rw [runsOfSeg, chunkRun_cons_of_ne hp]
      simp
  | bold c =>
      obtain ⟨hc, _, _⟩ := wfSeg_bold h
      rw [runsOfSeg, chunkRun_cons_of_ne hc]
      simp

/-- `_parse_inline` on a rendered non-empty well-formed segment list gives
exactly the chunk runs of the segments. -/
theorem parseInline_render {L : List Seg} (hwf : wfSegs L = true) (hL : L ≠ []) :
    parseInline (renderSegs L) = runsOfSegs L := by
  simp only [parseInline]
  rw [core_render L hwf]
  cases L with
  | nil => exact absurd rfl hL
  | cons s t =>
      have hne : runsOfSegs (s :: t) ≠ [] := by
        rw [runsOfSegs_cons]
        intro hc
        exact runsOfSeg_ne_nil (wfSegs_cons hwf).1 (List.append_eq_nil.mp hc).1
      rw [if_neg hne]

theorem runsOfSegs_append (A B : List Seg) :
    runsOfSegs (A ++ B) = runsOfSegs A ++ runsOfSegs B := by
  rw [runsOfSegs, List.map_append, List.flatten_append]
  rfl

theorem renderSegs_append (A B : List Seg) :
    renderSegs (A ++ B) = renderSegs A ++ renderSegs B := by
  rw [renderSegs, List.map_append, List.flatten_append]
  rfl

theorem expandSegs_append (A B : List Seg) :
    expandSegs (A ++ B) = expandSegs A ++ expandSegs B := by
  rw [expandSegs, List.map_append, List.flatten_append]
  rfl

theorem runsOfSegs_map_bold :
    ∀ chs : List (List Char), (∀ ch ∈ chs, ch ≠ [] ∧ ch.length ≤ 2000) →
      runsOfSegs (chs.map Seg.bold) = chs.map (fun ch => mkRichText ch true) := by
  intro chs
  induction chs with
  | nil => intro _; rfl
  | cons ch t ih =>
      intro h
      rw [List.map_cons, runsOfSegs_cons, List.map_cons,
        ih (fun x hx => h x (List.mem_cons_of_mem ch hx))]
      obtain ⟨hne, hle⟩ := h ch (List.mem_cons_self ch t)
      rw [runsOfSeg, chunkRun_singleton hne hle, List.map_cons, List.map_nil]
      rfl

/-- Re-chunking the expanded segments changes nothing: the runs of
`expandSegs L` are the runs of `L`. -/
theorem runsOfSegs_expand :
    ∀ L : List Seg, wfSegs L = true → runsOfSegs (expandSegs L) = runsOfSegs L := by
  intro L
  induction L with
  | nil => intro _; rfl
  | cons s t ih =>
      intro hwf
      obtain ⟨hs, ht⟩ := wfSegs_cons hwf
      rw [expandSegs_cons, runsOfSegs_append, runsOfSegs_cons, ih ht]
      congr 1
      cases s with
      | plain p =>
          rw [expandSeg, runsOfSegs_cons]
          simp [runsOfSegs]
      | bold c =>
          have hcc : ∀ ch ∈ chunkRun c, ch ≠ [] ∧ ch.length ≤ 2000 :=
            fun ch hch => ⟨chunkRun_mem_ne_nil c ch hch, chunkRun_mem_le c ch hch⟩
          rw [expandSeg, runsOfSegs_map_bold (chunkRun c) hcc, runsOfSeg]

theorem richTextToMd_append (A B : List RichText) :
    richTextToMd (A ++ B) = richTextToMd A ++ richTextToMd B := by
  rw [richTextToMd, List.map_append, List.flatten_append]
  rfl

theorem richTextToMd_cons_plain (ch : List Char) (rest : List RichText) :
    richTextToMd (mkRichText ch false :: rest) = ch.take 2000 ++ richTextToMd rest := by
  show (if ch.take 2000 = [] then [] else ch.take 2000) ++ richTextToMd rest =
    ch.take 2000 ++ richTextToMd rest
  by_cases hne : ch.take 2000 = []
  · rw [if_pos hne, hne]
  · rw [if_neg hne]

theorem richTextToMd_cons_bold (ch : List Char) (rest : List RichText) (hne : ch ≠ [])
    (hle : ch.length ≤ 2000) :
    richTextToMd (mkRichText ch true :: rest) =
      ('*' :: '*' :: (ch ++ ['*', '*'])) ++ richTextToMd rest := by
  show (if ch.take 2000 = [] then []
      else '*' :: '*' :: (ch.take 2000 ++ ['*', '*'])) ++ richTextToMd rest = _
  rw [List.take_of_length_le hle, if_neg hne]

theorem richTextToMd_plain_chunks :
    ∀ chs : List (List Char), (∀ ch ∈ chs, ch.length ≤ 2000) →
      richTextToMd (chs.map (fun ch => mkRichText ch false)) = chs.flatten := by
  intro chs
  induction chs with
  | nil => intro _; rfl
  | cons ch t ih =>
      intro h
      rw [List.map_cons, richTextToMd_cons_plain, List.flatten_cons,
        List.take_of_length_le (h ch (List.mem_cons_self ch t)),
        ih (fun x hx => h x (List.mem_cons_of_mem ch hx))]

theorem richTextToMd_bold_chunks :
    ∀ chs : List (List Char), (∀ ch ∈ chs, ch ≠ [] ∧ ch.length ≤ 2000) →
      richTextToMd (chs.map (fun ch => mkRichText ch true)) =
        renderSegs (chs.map Seg.bold) := by
  intro chs
  induction chs with
  | nil => intro _; rfl
  | cons ch t ih =>
      intro h
      obtain ⟨hne, hle⟩ := h ch (List.mem_cons_self ch t)
      rw [List.map_cons, richTextToMd_cons_bold ch _ hne hle, List.map_cons, renderSegs_cons,
        ih (fun x hx => h x (List.mem_cons_of_mem ch hx))]
      rfl

/-- `_rich_text_to_md` applied to the runs of a well-formed segment list
renders the expanded segment list. -/
theorem richTextToMd_runsOfSegs :
    ∀ L : List Seg, wfSegs L = true →
      richTextToMd (runsOfSegs L) = renderSegs (expandSegs L) := by
  intro L
  induction L with
  | nil => intro _; rfl
  | cons s t ih =>
      intro hwf
      obtain ⟨hs, ht⟩ := wfSegs_cons hwf
      rw [runsOfSegs_cons, richTextToMd_append, expandSegs_cons, renderSegs_append, ih ht]
      congr 1
      cases s with
      | plain p =>
          have hle : ∀ ch ∈ chunkRun p, ch.length ≤ 2000 := chunkRun_mem_le p
          rw [runsOfSeg, expandSeg, richTextToMd_plain_chunks (chunkRun p) hle,
            chunkRun_flatten, renderSegs_cons,
            show renderSegs ([] : List Seg) = [] from rfl, List.append_nil]
          rfl
      | bold c =>
          have hcc : ∀ ch ∈ chunkRun c, ch ≠ [] ∧ ch.length ≤ 2000 :=
            fun ch hch => ⟨chunkRun_mem_ne_nil c ch hch, chunkRun_mem_le c ch hch⟩
          rw [runsOfSeg, expandSeg, richTextToMd_bold_chunks (chunkRun c) hcc]

theorem getLast?_cons_ne_nil {α : Type _} (a : α) {l : List α} (h : l ≠ []) :
    (a :: l).getLast? = l.getLast? := by
  show ([a] ++ l).getLast? = l.getLast?
  rw [List.getLast?_append]
  cases hl : l.getLast? with
  | none => exact absurd (List.getLast?_eq_none_iff.mp hl) h
  | some c => rfl

theorem getLast?_append_ne_nil {α : Type _} (l₁ : List α) {l₂ : List α} (h : l₂ ≠ []) :
    (l₁ ++ l₂).getLast? = l₂.getLast? := by
  rw [List.getLast?_append]
  cases hl : l₂.getLast? with
  | none => exact absurd (List.getLast?_eq_none_iff.mp hl) h
  | some c => rfl

/-- A right-stripped non-blank line: its last character exists and is not
Python whitespace. -/
def lastNonWs (s : List Char) : Bool :=
  match s.getLast? with
  | none => false
  | some c => !pyWs c

theorem lastNonWs_ne_nil {s : List Char} (h : lastNonWs s = true) : s ≠ [] := by
  intro hc
  subst hc
  exact absurd h (by decide)

theorem lastNonWs_elim {s : List Char} (h : lastNonWs s = true) :
    ∃ c, s.getLast? = some c ∧ pyWs c = false := by
  rw [lastNonWs] at h
  cases hl : s.getLast? with
  | none => rw [hl] at h; exact absurd h (by decide)
  | some c =>
      rw [hl, Bool.not_eq_true'] at h
      exact ⟨c, rfl, h⟩

theorem lastNonWs_intro {s : List Char} {c : Char} (hl : s.getLast? = some c)
    (hw : pyWs c = false) : lastNonWs s = true := by
  rw [lastNonWs, hl]
  show (!pyWs c) = true
  rw [hw]
  rfl

theorem rstripC_eq_self_of_lastNonWs {s : List Char} (h : lastNonWs s = true) :
    rstripC s = s := by
  obtain ⟨c, hl, hw⟩ := lastNonWs_elim h
  rw [rstripC]
  have hh : s.reverse.head? = some c := by rw [List.head?_reverse, hl]
  cases hr : s.reverse with
  | nil => rw [hr] at hh; exact absurd hh (by simp)
  | cons x r =>
      rw [hr] at hh
      have hx : x = c := by simpa using hh
      subst hx
      rw [List.dropWhile_cons, hw, if_neg Bool.false_ne_true]
      rw [← hr, List.reverse_reverse]

theorem rstripC_eq_nil_all_ws {s : List Char} (h : rstripC s = []) :
    ∀ x ∈ s, pyWs x = true := by
  rw [rstripC] at h
  have h2 : s.reverse.dropWhile pyWs = [] := by
    rwa [List.reverse_eq_nil_iff] at h
  intro x hx
  exact List.dropWhile_eq_nil_iff.mp h2 x (List.mem_reverse.mpr hx)

theorem pyStripC_ne_nil_of_lastNonWs {s : List Char} (h : lastNonWs s = true) :
    pyStripC s ≠ [] := by
  obtain ⟨c, hl, hw⟩ := lastNonWs_elim h
  intro hc
  rw [pyStripC] at hc
  have hallX : ∀ x ∈ s.dropWhile pyWs, pyWs x = true := rstripC_eq_nil_all_ws hc
  cases hd : s.dropWhile pyWs with
  | nil =>
      have hallS : ∀ x ∈ s, pyWs x = true := List.dropWhile_eq_nil_iff.mp hd
      have := hallS c (List.mem_of_mem_getLast? hl)
      rw [hw] at this
      exact Bool.false_ne_true this
  | cons a t =>
      obtain ⟨pre, hpre⟩ : s.dropWhile pyWs <:+ s := List.dropWhile_suffix pyWs
      have hne : s.dropWhile pyWs ≠ [] := by rw [hd]; exact List.cons_ne_nil a t
      have h3 := getLast?_append_ne_nil pre hne
      rw [hpre] at h3
      have hlastX : (s.dropWhile pyWs).getLast? = some c := by rw [← h3]; exact hl
      have hcX : c ∈ s.dropWhile pyWs := List.mem_of_mem_getLast? hlastX
      have := hallX c hcX
      rw [hw] at this
      exact Bool.false_ne_true this

theorem noAdjPlain_cons_bold (c : List Char) (t : List Seg) :
    noAdjPlain (Seg.bold c :: t) = noAdjPlain t := rfl

theorem noAdjPlain_plain_bold (p c : List Char) (t : List Seg) :
    noAdjPlain (Seg.plain p :: Seg.bold c :: t) = noAdjPlain (Seg.bold c :: t) := rfl

theorem noAdjPlain_bolds_append :
    ∀ chs : List (List Char), ∀ L : List Seg,
      noAdjPlain (chs.map Seg.bold ++ L) = noAdjPlain L := by
  intro chs
  induction chs with
  | nil => intro L; rfl
  | cons ch t ih =>
      intro L
      rw [List.map_cons, List.cons_append, noAdjPlain_cons_bold]
      exact ih L

theorem noAdjPlain_expand :
    ∀ L : List Seg, wfSegs L = true → noAdjPlain (expandSegs L) = true := by
  refine list_length_induction _ ?_
  intro L ih hwf
  cases L with
  | nil => rfl
  | cons s t =>
      obtain ⟨hs, ht⟩ := wfSegs_cons hwf
      cases s with
      | bold c =>
          rw [expandSegs_cons, expandSeg, noAdjPlain_bolds_append]
          exact ih t (by simp only [List.length_cons]; omega) ht
      | plain p =>
          cases t with
          | nil => rfl
          | cons s' t' =>
              cases s' with
              | plain q =>
                  exfalso
                  simp [wfSegs, noAdjPlain] at hwf
              | bold c =>
                  obtain ⟨hs2, ht2⟩ := wfSegs_cons ht
                  obtain ⟨hc, _, _⟩ := wfSeg_bold hs2
                  rw [expandSegs_cons, expandSeg, expandSegs_cons, expandSeg,
                    chunkRun_cons_of_ne hc, List.map_cons]
                  rw [List.singleton_append, List.cons_append, noAdjPlain_plain_bold,
                    noAdjPlain_cons_bold, noAdjPlain_bolds_append]
                  exact ih t' (by simp only [List.length_cons]; omega) ht2

theorem wfSegs_all {L : List Seg} (hwf : wfSegs L = true) :
    ∀ s ∈ L, wfSeg s = true := by
  rw [wfSegs, Bool.and_eq_true, List.all_eq_true] at hwf
  exact hwf.1

theorem wfSegs_expand {L : List Seg} (hwf : wfSegs L = true) :
    wfSegs (expandSegs L) = true := by
  rw [wfSegs, Bool.and_eq_true]
  refine ⟨?_, noAdjPlain_expand L hwf⟩
  rw [List.all_eq_true]
  intro x hx
  rw [expandSegs] at hx
  obtain ⟨xs, hxs, hxmem⟩ := List.mem_flatten.mp hx
  obtain ⟨s, hsL, rfl⟩ := List.mem_map.mp hxs
  have hs : wfSeg s = true := wfSegs_all hwf s hsL
  cases s with
  | plain p =>
      rw [expandSeg] at hxmem
      rcases List.mem_cons.mp hxmem with h1 | h1
      · subst h1; exact hs
      · exact absurd h1 (List.not_mem_nil x)
  | bold c =>
      rw [expandSeg] at hxmem
      obtain ⟨ch, hch, rfl⟩ := List.mem_map.mp hxmem
      obtain ⟨hcne, hcstar, hcnl⟩ := wfSeg_bold hs
      show (!ch.isEmpty && ch.all (fun c => c != '*' && !isLineBreak c)) = true
      rw [Bool.and_eq_true, Bool.not_eq_true']
      constructor
      · have hne := chunkRun_mem_ne_nil c ch hch
        cases ch with
        | nil => exact absurd rfl hne
        | cons a t => rfl
      · rw [List.all_eq_true]
        intro y hy
        have hyc : y ∈ c := by
          have hmem : y ∈ (chunkRun c).flatten := List.mem_flatten.mpr ⟨ch, hch, hy⟩
          rwa [chunkRun_flatten] at hmem
        rw [Bool.and_eq_true, bne_iff_ne, Bool.not_eq_true']
        exact ⟨hcstar y hyc, hcnl y hyc⟩

theorem mem_renderSegs {M : List Seg} {x : Char} :
    x ∈ renderSegs M ↔ ∃ s ∈ M, x ∈ renderSeg s := by
  rw [renderSegs, List.mem_flatten]
  constructor
  · rintro ⟨xs, hxs, hx⟩
    obtain ⟨s, hsM, rfl⟩ := List.mem_map.mp hxs
    exact ⟨s, hsM, hx⟩
  · rintro ⟨s, hsM, hx⟩
    exact ⟨renderSeg s, List.mem_map_of_mem _ hsM, hx⟩

theorem mem_renderSeg_bold {c : List Char} {x : Char} :
    x ∈ renderSeg (Seg.bold c) ↔ (x = '*' ∨ x ∈ c) := by
  rw [renderSeg]
  simp only [List.mem_cons, List.mem_append, List.not_mem_nil, or_false]
  tauto

theorem mem_expandSegs {L : List Seg} {s : Seg} {y : Seg}
    (hsL : s ∈ L) (hy : y ∈ expandSeg s) : y ∈ expandSegs L := by
  rw [expandSegs]
  exact List.mem_flatten.mpr ⟨expandSeg s, List.mem_map_of_mem _ hsL, hy⟩

/-- Every character of the rendered original appears in the rendered
expansion. -/
theorem mem_render_expand {L : List Seg} (hwf : wfSegs L = true) {x : Char}
    (hx : x ∈ renderSegs L) : x ∈ renderSegs (expandSegs L) := by
  obtain ⟨s, hsL, hxs⟩ := mem_renderSegs.mp hx
  rw [mem_renderSegs]
  cases s with
  | plain p =>
      exact ⟨Seg.plain p, mem_expandSegs hsL (by rw [expandSeg]; exact List.mem_cons_self _ _),
        hxs⟩
  | bold c =>
      obtain ⟨hc, _, _⟩ := wfSeg_bold (wfSegs_all hwf _ hsL)
      rcases mem_renderSeg_bold.mp hxs with hstar | hmemc
      · refine ⟨Seg.bold (c.take 2000), mem_expandSegs hsL ?_, ?_⟩
        · rw [expandSeg, chunkRun_cons_of_ne hc, List.map_cons]
          exact List.mem_cons_self _ _
        · exact mem_renderSeg_bold.mpr (Or.inl hstar)
      · have : x ∈ (chunkRun c).flatten := by rw [chunkRun_flatten]; exact hmemc
        obtain ⟨ch, hch, hxch⟩ := List.mem_flatten.mp this
        refine ⟨Seg.bold ch, mem_expandSegs hsL ?_, mem_renderSeg_bold.mpr (Or.inr hxch)⟩
        rw [expandSeg]
        exact List.mem_map_of_mem _ hch

theorem expandSegs_all_plain :
    ∀ L : List Seg, (∀ s ∈ L, ∀ c, s ≠ Seg.bold c) → expandSegs L = L := by
  intro L
  induction L with
  | nil => intro _; rfl
  | cons s t ih =>
      intro h
      rw [expandSegs_cons, ih (fun x hx c => h x (List.mem_cons_of_mem s hx) c)]
      cases s with
      | plain p => rfl
      | bold c => exact absurd rfl (h _ (List.mem_cons_self _ t) c)

theorem renderSeg_length_le_of_mem {L : List Seg} {s : Seg} (h : s ∈ L) :
    (renderSeg s).length ≤ (renderSegs L).length := by
  induction L with
  | nil => exact absurd h (List.not_mem_nil s)
  | cons a t ih =>
      rw [renderSegs_cons, List.length_append]
      rcases List.mem_cons.mp h with h1 | h1
      · subst h1; omega
      · have := ih h1; omega

/-- The rendered expansion agrees with the rendered original on the first
four characters (enough for all line-classification prefixes). -/
theorem take4_render_expand :
    ∀ L : List Seg, wfSegs L = true → ∀ n, n ≤ 4 →
      (renderSegs (expandSegs L)).take n = (renderSegs L).take n := by
  refine list_length_induction _ ?_
  intro L ih hwf n hn
  cases L with
  | nil => rfl
  | cons s t =>
      obtain ⟨hs, ht⟩ := wfSegs_cons hwf
      rw [expandSegs_cons, renderSegs_append, renderSegs_cons]
      cases s with
      | plain p =>
          have hr : renderSegs [Seg.plain p] = p := by
            rw [renderSegs_cons, show renderSegs ([] : List Seg) = [] from rfl,
              List.append_nil]
            rfl
          rw [show expandSeg (Seg.plain p) = [Seg.plain p] from rfl, hr,
            show renderSeg (Seg.plain p) = p from rfl,
            List.take_append_eq_append_take, List.take_append_eq_append_take]
          congr 1
          exact ih t (by simp only [List.length_cons]; omega) ht (n - p.length) (by omega)
      | bold c =>
          obtain ⟨hc, _, _⟩ := wfSeg_bold hs
          rw [expandSeg]
          by_cases hlen : c.length ≤ 2000
          · rw [chunkRun_singleton hc hlen, List.map_cons, List.map_nil, renderSegs_cons,
              show renderSegs ([] : List Seg) = [] from rfl, List.append_nil,
              List.take_append_eq_append_take, List.take_append_eq_append_take]
            have hlen5 : 5 ≤ (renderSeg (Seg.bold c)).length := by
              rw [renderSeg]
              simp only [List.length_cons, List.length_append, List.length_nil]
              have : c.length ≠ 0 := fun h0 => hc (List.length_eq_zero.mp h0)
              omega
            rw [show n - (renderSeg (Seg.bold c)).length = 0 from by omega,
              List.take_zero, List.take_zero]
          · rw [chunkRun_cons_of_ne hc, List.map_cons, renderSegs_cons, List.append_assoc]
            have htklen : (c.take 2000).length = 2000 := by
              simp only [List.length_take]
              omega
            have h1 : n ≤ (renderSeg (Seg.bold (c.take 2000))).length := by
              rw [renderSeg]
              simp only [List.length_cons, List.length_append, List.length_nil]
              omega
            have h2 : n ≤ (renderSeg (Seg.bold c)).length := by
              rw [renderSeg]
              simp only [List.length_cons, List.length_append, List.length_nil]
              omega
            rw [List.take_append_of_le_length h1, List.take_append_of_le_length h2,
              renderSeg, renderSeg]
            cases n with
            | zero => rfl
            | succ n1 =>
                cases n1 with
                | zero => rfl
                | succ n2 =>
                    rw [List.take_succ_cons, List.take_succ_cons, List.take_succ_cons,
                      List.take_succ_cons]
                    have h3 : n2 ≤ (c.take 2000).length := by omega
                    have h4 : n2 ≤ c.length := by omega
                    rw [List.take_append_of_le_length h3, List.take_append_of_le_length h4,
                      List.take_take, show n2 ⊓ 2000 = n2 from by omega]

theorem isPrefixOf_congr_take {α : Type _} [DecidableEq α] :
    ∀ (p : List α) (n : Nat) (l l' : List α), p.length ≤ n → l.take n = l'.take n →
      p.isPrefixOf l = p.isPrefixOf l' := by
  intro p
  induction p with
  | nil => intro n l l' _ _; cases l <;> cases l' <;> rfl
  | cons a q ih =>
      intro n l l' hlen htake
      cases n with
      | zero => simp at hlen
      | succ m =>
          cases l with
          | nil =>
              cases l' with
              | nil => rfl
              | cons b' t' =>
                  rw [List.take_nil, List.take_succ_cons] at htake
                  exact absurd htake.symm (List.cons_ne_nil _ _)
          | cons b t =>
              cases l' with
              | nil =>
                  rw [List.take_nil, List.take_succ_cons] at htake
                  exact absurd htake (List.cons_ne_nil _ _)
              | cons b' t' =>
                  rw [List.take_succ_cons, List.take_succ_cons] at htake
                  injection htake with hb ht2
                  subst hb
                  show (a == b && q.isPrefixOf t) = (a == b && q.isPrefixOf t')
                  rw [ih m t t' (by simp only [List.length_cons] at hlen; omega) ht2]

theorem bulletMatch_congr_take {s t : List Char} (h : s.take 2 = t.take 2) :
    bulletMatch s = bulletMatch t := by
  cases s with
  | nil =>
      cases t with
      | nil => rfl
      | cons b1 t1 =>
          rw [List.take_nil, List.take_succ_cons] at h
          exact absurd h.symm (List.cons_ne_nil _ _)
  | cons a1 s1 =>
      cases t with
      | nil =>
          rw [List.take_nil, List.take_succ_cons] at h
          exact absurd h (List.cons_ne_nil _ _)
      | cons b1 t1 =>
          rw [List.take_succ_cons, List.take_succ_cons] at h
          injection h with h1 h2
          subst h1
          cases s1 with
          | nil =>
              cases t1 with
              | nil => rfl
              | cons b2 t2 =>
                  rw [List.take_nil, List.take_succ_cons] at h2
                  exact absurd h2.symm (List.cons_ne_nil _ _)
          | cons a2 s2 =>
              cases t1 with
              | nil =>
                  rw [List.take_nil, List.take_succ_cons] at h2
                  exact absurd h2 (List.cons_ne_nil _ _)
              | cons b2 t2 =>
                  rw [List.take_succ_cons, List.take_succ_cons] at h2
                  injection h2 with h3 _
                  subst h3
                  rfl

theorem eq_singleton_of_take {s t : List Char} {c : Char} (h : s.take 4 = t.take 4)
    (hs : s = [c]) : t = [c] := by
  subst hs
  rw [show ([c] : List Char).take 4 = [c] from rfl] at h
  cases t with
  | nil =>
      rw [List.take_nil] at h
      exact absurd h (List.cons_ne_nil _ _)
  | cons b r =>
      rw [List.take_succ_cons] at h
      injection h with h1 h2
      subst h1
      cases r with
      | nil => rfl
      | cons b2 r2 =>
          rw [List.take_succ_cons] at h2
          exact absurd h2.symm (List.cons_ne_nil _ _)

theorem dividerMatch_false_of_mem {s : List Char} {x : Char} (hx : x ∈ s)
    (hbad : ¬(x = '-' ∨ x = '*' ∨ x = '_')) : dividerMatch s = false := by
  rw [Bool.eq_false_iff]
  intro h
  rw [dividerMatch, Bool.and_eq_true, List.all_eq_true] at h
  have hdx := h.2 x hx
  simp only [Bool.or_eq_true, decide_eq_true_eq] at hdx
  exact hbad (by tauto)

theorem dividerMatch_false_of_short {s : List Char} (h : s.length < 3) :
    dividerMatch s = false := by
  rw [Bool.eq_false_iff]
  intro hc
  rw [dividerMatch, Bool.and_eq_true] at hc
  have := hc.1
  simp only [decide_eq_true_eq] at this
  omega

theorem renderSegs_bolds_getLast :
    ∀ chs : List (List Char), chs ≠ [] →
      (renderSegs (chs.map Seg.bold)).getLast? = some '*' := by
  intro chs
  induction chs with
  | nil => intro h; exact absurd rfl h
  | cons ch t ih =>
      intro _
      rw [List.map_cons, renderSegs_cons]
      cases t with
      | nil =>
          rw [show renderSegs (List.map Seg.bold []) = [] from rfl, List.append_nil,
            renderSeg,
            show '*' :: '*' :: (ch ++ ['*', '*']) = ('*' :: '*' :: (ch ++ ['*'])) ++ ['*']
              from by simp]
          exact getLast?_append_singleton _ '*'
      | cons ch2 t2 =>
          have hne : renderSegs ((ch2 :: t2).map Seg.bold) ≠ [] := by
            rw [List.map_cons, renderSegs_cons, renderSeg]
            simp
          rw [getLast?_append_ne_nil _ hne]
          exact ih (List.cons_ne_nil _ _)

/-- The rendered expansion of a right-stripped inline run is still
right-stripped. -/
theorem lastNonWs_render_expand {L : List Seg} (hwf : wfSegs L = true)
    (h : lastNonWs (renderSegs L) = true) :
    lastNonWs (renderSegs (expandSegs L)) = true := by
  rcases List.eq_nil_or_concat L with rfl | ⟨M, s, hL⟩
  · exact h
  · rw [List.concat_eq_append] at hL
    subst hL
    have hs : wfSeg s = true :=
      wfSegs_all hwf s (List.mem_append.mpr (Or.inr (List.mem_cons_self s [])))
    rw [expandSegs_append, renderSegs_append]
    cases s with
    | plain p =>
        obtain ⟨hp, _, _⟩ := wfSeg_plain hs
        have hr : renderSegs [Seg.plain p] = p := by
          rw [renderSegs_cons, show renderSegs ([] : List Seg) = [] from rfl,
            List.append_nil]
          rfl
        rw [show expandSegs [Seg.plain p] = [Seg.plain p] from rfl, hr]
        rw [renderSegs_append, hr] at h
        obtain ⟨c, hl, hw⟩ := lastNonWs_elim h
        rw [getLast?_append_ne_nil _ hp] at hl
        exact lastNonWs_intro (by rw [getLast?_append_ne_nil _ hp]; exact hl) hw
    | bold c =>
        obtain ⟨hc, _, _⟩ := wfSeg_bold hs
        have he : expandSegs [Seg.bold c] = (chunkRun c).map Seg.bold := by
          rw [expandSegs_cons, show expandSegs ([] : List Seg) = [] from rfl,
            List.append_nil, expandSeg]
        rw [he]
        have hchne : chunkRun c ≠ [] := by
          rw [chunkRun_cons_of_ne hc]
          exact List.cons_ne_nil _ _
        have hlast := renderSegs_bolds_getLast (chunkRun c) hchne
        have hrene : renderSegs ((chunkRun c).map Seg.bold) ≠ [] := by
          intro h0
          rw [h0] at hlast
          exact absurd hlast (by simp)
        exact lastNonWs_intro (by rw [getLast?_append_ne_nil _ hrene]; exact hlast)
          (by decide)

theorem renderSeg_no_break {s : Seg} (h : wfSeg s = true) : ∀ x ∈ renderSeg s, isLineBreak x = false := by
  cases s with
  | plain p =>
      obtain ⟨_, _, hnl⟩ := wfSeg_plain h
      exact hnl
  | bold c =>
      obtain ⟨_, _, hnl⟩ := wfSeg_bold h
      intro x hx
      rcases mem_renderSeg_bold.mp hx with h1 | h1
      · subst h1; decide
      · exact hnl x h1

theorem renderSegs_no_break {L : List Seg} (hwf : wfSegs L = true) :
    ∀ x ∈ renderSegs L, isLineBreak x = false := by
  intro x hx
  obtain ⟨s, hsL, hxs⟩ := mem_renderSegs.mp hx
  exact renderSeg_no_break (wfSegs_all hwf s hsL) x hxs

theorem renderSeg_ne_nil {s : Seg} (h : wfSeg s = true) : renderSeg s ≠ [] := by
  cases s with
  | plain p =>
      obtain ⟨hp, _, _⟩ := wfSeg_plain h
      exact hp
  | bold c =>
      rw [renderSeg]
      exact List.cons_ne_nil _ _

theorem renderSegs_ne_nil {L : List Seg} (hwf : wfSegs L = true) (hL : L ≠ []) :
    renderSegs L ≠ [] := by
  cases L with
  | nil => exact absurd rfl hL
  | cons s t =>
      rw [renderSegs_cons]
      intro hc
      exact renderSeg_ne_nil (wfSegs_cons hwf).1 (List.append_eq_nil.mp hc).1

theorem nil_isPrefixOf {α : Type _} [BEq α] (l : List α) :
    ([] : List α).isPrefixOf l = true := by
  cases l <;> rfl

theorem head_mem_of_isPrefixOf {α : Type _} [BEq α] [LawfulBEq α] {a : α} {p l : List α}
    (h : (a :: p).isPrefixOf l = true) : a ∈ l := by
  obtain ⟨r, hr⟩ := List.isPrefixOf_iff_prefix.mp h
  rw [← hr]
  exact List.mem_cons_self a (p ++ r)

theorem bulletMatch_space_mem {s : List Char} (h : bulletMatch s = true) : ' ' ∈ s := by
  cases s with
  | nil => exact absurd h Bool.false_ne_true
  | cons c1 t =>
      cases t with
      | nil => exact absurd h Bool.false_ne_true
      | cons c2 t2 =>
          rw [bulletMatch, Bool.and_eq_true] at h
          have h2 := h.2
          simp only [decide_eq_true_eq] at h2
          subst h2
          exact List.mem_cons_of_mem _ (List.mem_cons_self _ _)

theorem blockOfLine_h1 (X : List Char) :
    blockOfLine ('#' :: ' ' :: X) = .heading1 (parseInline X) := by
  rw [blockOfLine,
    if_pos (show ['#', ' '].isPrefixOf ('#' :: ' ' :: X) = true from nil_isPrefixOf X)]
  rfl

theorem blockOfLine_h2 (X : List Char) :
    blockOfLine ('#' :: '#' :: ' ' :: X) = .heading2 (parseInline X) := by
  rw [blockOfLine,
    if_pos (show ['#', '#', ' '].isPrefixOf ('#' :: '#' :: ' ' :: X) = true from
      nil_isPrefixOf X)]
  rfl

theorem blockOfLine_h3 (X : List Char) :
    blockOfLine ('#' :: '#' :: '#' :: ' ' :: X) = .heading3 (parseInline X) := by
  rw [blockOfLine,
    if_pos (show ['#', '#', '#', ' '].isPrefixOf ('#' :: '#' :: '#' :: ' ' :: X) = true from
      nil_isPrefixOf X)]
  rfl

theorem blockOfLine_quote (X : List Char) :
    blockOfLine ('>' :: ' ' :: X) = .quote (parseInline X) := by
  rw [blockOfLine,
    if_pos (show ['>', ' '].isPrefixOf ('>' :: ' ' :: X) = true from nil_isPrefixOf X)]
  rfl

theorem blockOfLine_bullet (X : List Char) :
    blockOfLine ('-' :: ' ' :: X) = .bullet (parseInline X) := by
  rw [blockOfLine,
    if_pos (show bulletMatch ('-' :: ' ' :: X) = true from rfl)]
  rfl

theorem blockOfLine_bulletStar (X : List Char) :
    blockOfLine ('*' :: ' ' :: X) = .bullet (parseInline X) := by
  rw [blockOfLine,
    if_pos (show bulletMatch ('*' :: ' ' :: X) = true from rfl)]
  rfl

theorem dividerMatch_elim {cs : List Char} (h : dividerMatch cs = true) :
    3 ≤ cs.length ∧ ∀ x ∈ cs, x = '-' ∨ x = '*' ∨ x = '_' := by
  rw [dividerMatch, Bool.and_eq_true, List.all_eq_true] at h
  refine ⟨by simpa using h.1, fun x hx => ?_⟩
  have := h.2 x hx
  simp only [Bool.or_eq_true, decide_eq_true_eq] at this
  tauto

theorem blockOfLine_dividerLine {cs : List Char} (h : dividerMatch cs = true) :
    blockOfLine cs = .divider := by
  obtain ⟨hlen, hall⟩ := dividerMatch_elim h
  have hnodd : ∀ a : Char, (a = '#' ∨ a = '>') → a ∉ cs := by
    intro a ha hmem
    rcases hall a hmem with h1 | h1 | h1 <;> rcases ha with h2 | h2 <;>
      (subst h2; simp at h1)
  have hbm : ¬(bulletMatch cs = true) := by
    intro hc
    rcases hall ' ' (bulletMatch_space_mem hc) with h1 | h1 | h1 <;> simp at h1
  rw [blockOfLine,
    if_neg (show ¬(['#', '#', '#', ' '].isPrefixOf cs = true) from
      fun hc => hnodd '#' (Or.inl rfl) (head_mem_of_isPrefixOf hc)),
    if_neg (show ¬(['#', '#', ' '].isPrefixOf cs = true) from
      fun hc => hnodd '#' (Or.inl rfl) (head_mem_of_isPrefixOf hc)),
    if_neg (show ¬(['#', ' '].isPrefixOf cs = true) from
      fun hc => hnodd '#' (Or.inl rfl) (head_mem_of_isPrefixOf hc)),
    if_neg (show ¬(['>', ' '].isPrefixOf cs = true) from
      fun hc => hnodd '>' (Or.inr rfl) (head_mem_of_isPrefixOf hc)),
    if_neg (show ¬(cs = ['>']) from
      fun hc => hnodd '>' (Or.inr rfl) (hc ▸ List.mem_cons_self '>' [])),
    if_neg hbm, if_pos h]

/-- One line of the supported markup dialect generated by the claim's
subset: ATX headings 1–3, `> ` quotes, the bare `>` quote, `- ` and `* `
bullets, divider lines, bold/plain paragraphs and blank lines. -/
inductive MdLine where
  | blank
  | h1 (L : List Seg)
  | h2 (L : List Seg)
  | h3 (L : List Seg)
  | quoteL (L : List Seg)
  | bulletL (L : List Seg)
  | bulletStarL (L : List Seg)
  | dividerL (cs : List Char)
  | paraL (L : List Seg)
  | bareQuote
deriving DecidableEq, Repr

def lineOf : MdLine → List Char
  | .blank => []
  | .h1 L => '#' :: ' ' :: renderSegs L
  | .h2 L => '#' :: '#' :: ' ' :: renderSegs L
  | .h3 L => '#' :: '#' :: '#' :: ' ' :: renderSegs L
  | .quoteL L => '>' :: ' ' :: renderSegs L
  | .bulletL L => '-' :: ' ' :: renderSegs L
  | .bulletStarL L => '*' :: ' ' :: renderSegs L
  | .dividerL cs => cs
  | .paraL L => renderSegs L
  | .bareQuote => ['>']

/-- An inline run usable on a line: well-formed segments, non-empty, and the
rendered text carries no trailing whitespace (the line is right-stripped as
`markdown_to_notion_blocks` requires). -/
def wfInline (L : List Seg) : Bool :=
  wfSegs L && !L.isEmpty && lastNonWs (renderSegs L)

def wfLine : MdLine → Bool
  | .blank => true
  | .h1 L => wfInline L
  | .h2 L => wfInline L
  | .h3 L => wfInline L
  | .quoteL L => wfInline L
  | .bulletL L => wfInline L
  | .bulletStarL L => wfInline L
  | .dividerL cs => dividerMatch cs
  | .paraL L => wfInline L && decide (renderSegs L ≠ ['>'])
  | .bareQuote => true

theorem wfInline_elim {L : List Seg} (h : wfInline L = true) :
    wfSegs L = true ∧ L ≠ [] ∧ lastNonWs (renderSegs L) = true := by
  rw [wfInline, Bool.and_eq_true, Bool.and_eq_true, Bool.not_eq_true'] at h
  refine ⟨h.1.1, ?_, h.2⟩
  intro hc
  subst hc
  exact absurd h.1.2 (by decide)

theorem wfInline_intro {L : List Seg} (h1 : wfSegs L = true) (h2 : L ≠ [])
    (h3 : lastNonWs (renderSegs L) = true) : wfInline L = true := by
  rw [wfInline, Bool.and_eq_true, Bool.and_eq_true, Bool.not_eq_true']
  refine ⟨⟨h1, ?_⟩, h3⟩
  cases L with
  | nil => exact absurd rfl h2
  | cons s t => rfl

theorem wfInline_expand {L : List Seg} (h : wfInline L = true) :
    wfInline (expandSegs L) = true := by
  obtain ⟨hwf, hne, hlast⟩ := wfInline_elim h
  refine wfInline_intro (wfSegs_expand hwf) ?_ (lastNonWs_render_expand hwf hlast)
  cases L with
  | nil => exact absurd rfl hne
  | cons s t =>
      rw [expandSegs_cons]
      cases s with
      | plain p => exact List.cons_ne_nil _ _
      | bold c =>
          obtain ⟨hc, _, _⟩ := wfSeg_bold (wfSegs_cons hwf).1
          rw [expandSeg, chunkRun_cons_of_ne hc, List.map_cons]
          exact List.cons_ne_nil _ _

theorem noAdjPlain_plain_congr (p q : List Char) (t : List Seg) :
    noAdjPlain (Seg.plain p :: t) = noAdjPlain (Seg.plain q :: t) := by
  cases t with
  | nil => rfl
  | cons s' t' => cases s' <;> rfl

theorem lastNonWs_drop {s : List Char} {k : Nat} (h : lastNonWs s = true)
    (hne : s.drop k ≠ []) : lastNonWs (s.drop k) = true := by
  obtain ⟨c, hl, hw⟩ := lastNonWs_elim h
  refine lastNonWs_intro ?_ hw
  rw [← hl]
  conv_rhs => rw [← List.take_append_drop k s]
  rw [getLast?_append_ne_nil _ hne]

/-- Stripping a recognised `*`-free prefix (heading, quote or bullet marker)
from a rendered well-formed line leaves a rendered well-formed line. -/
theorem remainder_wf {L : List Seg} (h : wfInline L = true) (pre : List Char)
    (hpre : pre.isPrefixOf (renderSegs L) = true)
    (hstar : ∀ x ∈ pre, x ≠ '*')
    (hws : lastNonWs pre = false) (hpne : pre ≠ []) :
    ∃ L', wfInline L' = true ∧ renderSegs L' = (renderSegs L).drop pre.length := by
  obtain ⟨hwf, hLne, hlast⟩ := wfInline_elim h
  cases L with
  | nil => exact absurd rfl hLne
  | cons s t =>
      obtain ⟨hsw, htw⟩ := wfSegs_cons hwf
      cases s with
      | bold c =>
          exfalso
          cases pre with
          | nil => exact hpne rfl
          | cons a p2 =>
              rw [renderSegs_cons, renderSeg, List.cons_append, List.cons_append] at hpre
              have hpref := List.isPrefixOf_iff_prefix.mp hpre
              rw [List.cons_prefix_cons] at hpref
              exact hstar a (List.mem_cons_self _ _) hpref.1
      | plain p =>
          obtain ⟨hpne', hpstar, hpnl⟩ := wfSeg_plain hsw
          have hrend : renderSegs (Seg.plain p :: t) = p ++ renderSegs t := by
            rw [renderSegs_cons]
            rfl
          rw [hrend] at hpre hlast ⊢
          have hprefix : pre <+: p ++ renderSegs t := List.isPrefixOf_iff_prefix.mp hpre
          by_cases hk : pre.length ≤ p.length
          · have hdrop : (p ++ renderSegs t).drop pre.length =
                p.drop pre.length ++ renderSegs t := List.drop_append_of_le_length hk
            by_cases hpk : p.drop pre.length = []
            · have hkp : pre.length = p.length := by
                have := congrArg List.length hpk
                simp only [List.length_drop, List.length_nil] at this
                omega
              have hpp : pre = p := by
                have he := List.prefix_iff_eq_take.mp hprefix
                rw [he, List.take_append_of_le_length hk, hkp, List.take_length]
              have htne : t ≠ [] := by
                intro hc
                subst hc
                rw [show renderSegs ([] : List Seg) = [] from rfl, List.append_nil] at hlast
                rw [hpp] at hws
                rw [hws] at hlast
                exact Bool.false_ne_true hlast
              have hrtne : renderSegs t ≠ [] := renderSegs_ne_nil htw htne
              refine ⟨t, wfInline_intro htw htne ?_, ?_⟩
              · obtain ⟨c0, hl0, hw0⟩ := lastNonWs_elim hlast
                rw [getLast?_append_ne_nil _ hrtne] at hl0
                exact lastNonWs_intro hl0 hw0
              · rw [hdrop, hpk, List.nil_append]
            · have hrend' : renderSegs (Seg.plain (p.drop pre.length) :: t) =
                  p.drop pre.length ++ renderSegs t := by
                rw [renderSegs_cons]
                rfl
              refine ⟨Seg.plain (p.drop pre.length) :: t, ?_, by rw [hrend', hdrop]⟩
              refine wfInline_intro ?_ (List.cons_ne_nil _ _) ?_
              · rw [wfSegs, Bool.and_eq_true, List.all_cons, Bool.and_eq_true]
                rw [wfSegs, Bool.and_eq_true] at htw hwf
                refine ⟨⟨?_, htw.1⟩, ?_⟩
                · show (!(p.drop pre.length).isEmpty &&
                    (p.drop pre.length).all (fun c => c != '*' && !isLineBreak c)) = true
                  rw [Bool.and_eq_true, Bool.not_eq_true']
                  refine ⟨?_, ?_⟩
                  · cases hd : p.drop pre.length with
                    | nil => exact absurd hd hpk
                    | cons a r => rfl
                  · rw [List.all_eq_true]
                    intro x hx
                    have hxp : x ∈ p := List.drop_subset _ p hx
                    rw [Bool.and_eq_true, bne_iff_ne, Bool.not_eq_true']
                    exact ⟨hpstar x hxp, hpnl x hxp⟩
                · rw [noAdjPlain_plain_congr (p.drop pre.length) p]
                  exact hwf.2
              · rw [hrend', ← hdrop]
                refine lastNonWs_drop hlast ?_
                rw [hdrop]
                intro hc
                exact hpk (List.append_eq_nil.mp hc).1
          · exfalso
            have hppre : p <+: pre :=
              List.prefix_of_prefix_length_le (List.prefix_append p (renderSegs t)) hprefix
                (by omega)
            obtain ⟨pre', rfl⟩ := hppre
            have hpre'ne : pre' ≠ [] := by
              intro hc
              subst hc
              simp at hk
            have hpre'pref : pre' <+: renderSegs t := by
              rw [← List.prefix_append_right_inj p]
              exact hprefix
            cases t with
            | nil =>
                rw [show renderSegs ([] : List Seg) = [] from rfl] at hpre'pref
                exact hpre'ne (List.prefix_nil.mp hpre'pref)
            | cons s' t' =>
                cases s' with
                | plain q =>
                    rw [wfSegs] at hwf
                    simp [noAdjPlain] at hwf
                | bold c2 =>
                    cases pre' with
                    | nil => exact hpre'ne rfl
                    | cons a r =>
                        rw [renderSegs_cons, renderSeg, List.cons_append] at hpre'pref
                        rw [List.cons_prefix_cons] at hpre'pref
                        refine hstar a ?_ hpre'pref.1
                        exact List.mem_append.mpr (Or.inr (List.mem_cons_self _ _))

theorem lastNonWs_cons {a : Char} {s : List Char} (hne : s ≠ []) (h : lastNonWs s = true) :
    lastNonWs (a :: s) = true := by
  obtain ⟨c, hl, hw⟩ := lastNonWs_elim h
  exact lastNonWs_intro (by rw [getLast?_cons_ne_nil a hne]; exact hl) hw

theorem line_props_pre (pre : List Char) {t0 : List Char} (hprenl : ∀ x ∈ pre, isLineBreak x = false)
    (hne : t0 ≠ []) (hlast : lastNonWs t0 = true) (hnl : ∀ x ∈ t0, isLineBreak x = false) :
    (pre ++ t0 ≠ []) ∧ rstripC (pre ++ t0) = pre ++ t0 ∧ (∀ x ∈ pre ++ t0, isLineBreak x = false) := by
  refine ⟨?_, ?_, ?_⟩
  · intro hc
    exact hne (List.append_eq_nil.mp hc).2
  · obtain ⟨c, hl, hw⟩ := lastNonWs_elim hlast
    exact rstripC_eq_self_of_lastNonWs
      (lastNonWs_intro (by rw [getLast?_append_ne_nil _ hne]; exact hl) hw)
  · intro x hx
    rcases List.mem_append.mp hx with h1 | h1
    · exact hprenl x h1
    · exact hnl x h1

theorem inline_pack {L : List Seg} (h : wfInline L = true) :
    richTextToMd (runsOfSegs L) = renderSegs (expandSegs L) ∧
    lastNonWs (richTextToMd (runsOfSegs L)) = true ∧
    richTextToMd (runsOfSegs L) ≠ [] ∧
    pyStripC (richTextToMd (runsOfSegs L)) ≠ [] ∧
    (∀ x ∈ richTextToMd (runsOfSegs L), isLineBreak x = false) ∧
    parseInline (richTextToMd (runsOfSegs L)) = runsOfSegs L := by
  obtain ⟨hwf, hne, hlast⟩ := wfInline_elim h
  obtain ⟨hwf2, hne2, hlast2⟩ := wfInline_elim (wfInline_expand h)
  have heq : richTextToMd (runsOfSegs L) = renderSegs (expandSegs L) :=
    richTextToMd_runsOfSegs L hwf
  refine ⟨heq, ?_, ?_, ?_, ?_, ?_⟩
  · rw [heq]; exact hlast2
  · rw [heq]; exact renderSegs_ne_nil hwf2 hne2
  · rw [heq]; exact pyStripC_ne_nil_of_lastNonWs hlast2
  · rw [heq]; exact renderSegs_no_break hwf2
  · rw [heq, parseInline_render hwf2 hne2, runsOfSegs_expand L hwf]

theorem convertBlock_h1 {runs : List RichText} (h : pyStripC (richTextToMd runs) ≠ []) :
    convertBlock (.heading1 runs) = some ('#' :: ' ' :: richTextToMd runs) := by
  show (if pyStripC (richTextToMd runs) = [] then none
    else some ('#' :: ' ' :: richTextToMd runs)) = _
  rw [if_neg h]

theorem convertBlock_h2 {runs : List RichText} (h : pyStripC (richTextToMd runs) ≠ []) :
    convertBlock (.heading2 runs) = some ('#' :: '#' :: ' ' :: richTextToMd runs) := by
  show (if pyStripC (richTextToMd runs) = [] then none
    else some ('#' :: '#' :: ' ' :: richTextToMd runs)) = _
  rw [if_neg h]

theorem convertBlock_h3 {runs : List RichText} (h : pyStripC (richTextToMd runs) ≠ []) :
    convertBlock (.heading3 runs) = some ('#' :: '#' :: '#' :: ' ' :: richTextToMd runs) := by
  show (if pyStripC (richTextToMd runs) = [] then none
    else some ('#' :: '#' :: '#' :: ' ' :: richTextToMd runs)) = _
  rw [if_neg h]

theorem convertBlock_quoteB {runs : List RichText} (h : pyStripC (richTextToMd runs) ≠ []) :
    convertBlock (.quote runs) = some ('>' :: ' ' :: richTextToMd runs) := by
  show (if pyStripC (richTextToMd runs) = [] then none
    else some ('>' :: ' ' :: richTextToMd runs)) = _
  rw [if_neg h]

theorem convertBlock_bulletB {runs : List RichText} (h : pyStripC (richTextToMd runs) ≠ []) :
    convertBlock (.bullet runs) = some ('-' :: ' ' :: richTextToMd runs) := by
  show (if pyStripC (richTextToMd runs) = [] then none
    else some ('-' :: ' ' :: richTextToMd runs)) = _
  rw [if_neg h]

theorem blockOfLine_paragraph {s : List Char}
    (h1 : ¬(['#', '#', '#', ' '].isPrefixOf s = true))
    (h2 : ¬(['#', '#', ' '].isPrefixOf s = true))
    (h3 : ¬(['#', ' '].isPrefixOf s = true))
    (h4 : ¬(['>', ' '].isPrefixOf s = true))
    (h5 : ¬(s = ['>']))
    (h6 : ¬(bulletMatch s = true))
    (h7 : ¬(dividerMatch s = true)) :
    blockOfLine s = .paragraph (parseInline s) := by
  rw [blockOfLine, if_neg h1, if_neg h2, if_neg h3, if_neg h4, if_neg h5, if_neg h6,
    if_neg h7]

theorem convert_reparse_h1 {L : List Seg} (h : wfInline L = true) :
    ∃ t, convertBlock (.heading1 (runsOfSegs L)) = some t ∧ t ≠ [] ∧ rstripC t = t ∧
      (∀ x ∈ t, isLineBreak x = false) ∧ blockOfLine t = .heading1 (runsOfSegs L) := by
  obtain ⟨heq, hlast, hne, hstrip, hnl, hparse⟩ := inline_pack h
  obtain ⟨p1, p2, p3⟩ := line_props_pre ['#', ' '] (by decide) hne hlast hnl
  exact ⟨'#' :: ' ' :: richTextToMd (runsOfSegs L), convertBlock_h1 hstrip, p1, p2, p3,
    by rw [blockOfLine_h1, hparse]⟩

theorem convert_reparse_h2 {L : List Seg} (h : wfInline L = true) :
    ∃ t, convertBlock (.heading2 (runsOfSegs L)) = some t ∧ t ≠ [] ∧ rstripC t = t ∧
      (∀ x ∈ t, isLineBreak x = false) ∧ blockOfLine t = .heading2 (runsOfSegs L) := by
  obtain ⟨heq, hlast, hne, hstrip, hnl, hparse⟩ := inline_pack h
  obtain ⟨p1, p2, p3⟩ := line_props_pre ['#', '#', ' '] (by decide) hne hlast hnl
  exact ⟨'#' :: '#' :: ' ' :: richTextToMd (runsOfSegs L), convertBlock_h2 hstrip, p1, p2, p3,
    by rw [blockOfLine_h2, hparse]⟩

theorem convert_reparse_h3 {L : List Seg} (h : wfInline L = true) :
    ∃ t, convertBlock (.heading3 (runsOfSegs L)) = some t ∧ t ≠ [] ∧ rstripC t = t ∧
      (∀ x ∈ t, isLineBreak x = false) ∧ blockOfLine t = .heading3 (runsOfSegs L) := by
  obtain ⟨heq, hlast, hne, hstrip, hnl, hparse⟩ := inline_pack h
  obtain ⟨p1, p2, p3⟩ := line_props_pre ['#', '#', '#', ' '] (by decide) hne hlast hnl
  exact ⟨'#' :: '#' :: '#' :: ' ' :: richTextToMd (runsOfSegs L), convertBlock_h3 hstrip,
    p1, p2, p3, by rw [blockOfLine_h3, hparse]⟩

theorem convert_reparse_quote {L : List Seg} (h : wfInline L = true) :
    ∃ t, convertBlock (.quote (runsOfSegs L)) = some t ∧ t ≠ [] ∧ rstripC t = t ∧
      (∀ x ∈ t, isLineBreak x = false) ∧ blockOfLine t = .quote (runsOfSegs L) := by
  obtain ⟨heq, hlast, hne, hstrip, hnl, hparse⟩ := inline_pack h
  obtain ⟨p1, p2, p3⟩ := line_props_pre ['>', ' '] (by decide) hne hlast hnl
  exact ⟨'>' :: ' ' :: richTextToMd (runsOfSegs L), convertBlock_quoteB hstrip, p1, p2, p3,
    by rw [blockOfLine_quote, hparse]⟩

theorem convert_reparse_bullet {L : List Seg} (h : wfInline L = true) :
    ∃ t, convertBlock (.bullet (runsOfSegs L)) = some t ∧ t ≠ [] ∧ rstripC t = t ∧
      (∀ x ∈ t, isLineBreak x = false) ∧ blockOfLine t = .bullet (runsOfSegs L) := by
  obtain ⟨heq, hlast, hne, hstrip, hnl, hparse⟩ := inline_pack h
  obtain ⟨p1, p2, p3⟩ := line_props_pre ['-', ' '] (by decide) hne hlast hnl
  exact ⟨'-' :: ' ' :: richTextToMd (runsOfSegs L), convertBlock_bulletB hstrip, p1, p2, p3,
    by rw [blockOfLine_bullet, hparse]⟩

theorem convert_reparse_para {L : List Seg} (h : wfInline L = true)
    (h1 : ¬(['#', '#', '#', ' '].isPrefixOf (renderSegs L) = true))
    (h2 : ¬(['#', '#', ' '].isPrefixOf (renderSegs L) = true))
    (h3 : ¬(['#', ' '].isPrefixOf (renderSegs L) = true))
    (h4 : ¬(['>', ' '].isPrefixOf (renderSegs L) = true))
    (h5 : ¬(renderSegs L = ['>']))
    (h6 : ¬(bulletMatch (renderSegs L) = true))
    (h7 : ¬(dividerMatch (renderSegs L) = true)) :
    ∃ t, convertBlock (.paragraph (runsOfSegs L)) = some t ∧ t ≠ [] ∧ rstripC t = t ∧
      (∀ x ∈ t, isLineBreak x = false) ∧ blockOfLine t = .paragraph (runsOfSegs L) := by
  obtain ⟨hwf, hLne, hlastL⟩ := wfInline_elim h
  obtain ⟨heq, hlast, hne, hstrip, hnl, hparse⟩ := inline_pack h
  have take4 : (renderSegs (expandSegs L)).take 4 = (renderSegs L).take 4 :=
    take4_render_expand L hwf 4 (by omega)
  have take2 : (renderSegs (expandSegs L)).take 2 = (renderSegs L).take 2 :=
    take4_render_expand L hwf 2 (by omega)
  have h1' : ¬(['#', '#', '#', ' '].isPrefixOf (richTextToMd (runsOfSegs L)) = true) := by
    rw [heq, isPrefixOf_congr_take _ 4 _ _ (by decide) take4]
    exact h1
  have h2' : ¬(['#', '#', ' '].isPrefixOf (richTextToMd (runsOfSegs L)) = true) := by
    rw [heq, isPrefixOf_congr_take _ 4 _ _ (by decide) take4]
    exact h2
  have h3' : ¬(['#', ' '].isPrefixOf (richTextToMd (runsOfSegs L)) = true) := by
    rw [heq, isPrefixOf_congr_take _ 4 _ _ (by decide) take4]
    exact h3
  have h4' : ¬(['>', ' '].isPrefixOf (richTextToMd (runsOfSegs L)) = true) := by
    rw [heq, isPrefixOf_congr_take _ 4 _ _ (by decide) take4]
    exact h4
  have h5' : ¬(richTextToMd (runsOfSegs L) = ['>']) := by
    intro hc
    rw [heq] at hc
    exact h5 (eq_singleton_of_take take4 hc)
  have h6' : ¬(bulletMatch (richTextToMd (runsOfSegs L)) = true) := by
    rw [heq, bulletMatch_congr_take take2]
    exact h6
  have h7' : ¬(dividerMatch (richTextToMd (runsOfSegs L)) = true) := by
    by_cases hlen3 : 3 ≤ (renderSegs L).length
    · have hbad : ∃ x ∈ renderSegs L, ¬(x = '-' ∨ x = '*' ∨ x = '_') := by
        by_contra hall
        push_neg at hall
        apply h7
        rw [dividerMatch, Bool.and_eq_true]
        refine ⟨by simpa using hlen3, ?_⟩
        rw [List.all_eq_true]
        intro x hx
        have hx3 := hall x hx
        simp only [Bool.or_eq_true, decide_eq_true_eq]
        tauto
      obtain ⟨x, hx, hbadx⟩ := hbad
      have hmem : x ∈ renderSegs (expandSegs L) := mem_render_expand hwf hx
      have hf : dividerMatch (richTextToMd (runsOfSegs L)) = false := by
        rw [heq]
        exact dividerMatch_false_of_mem hmem hbadx
      rw [hf]
      exact Bool.false_ne_true
    · have hplain : ∀ s ∈ L, ∀ c, s ≠ Seg.bold c := by
        intro s hs c hc
        subst hc
        have hle := renderSeg_length_le_of_mem hs
        rw [renderSeg] at hle
        simp only [List.length_cons, List.length_append, List.length_nil] at hle
        omega
      have ht : richTextToMd (runsOfSegs L) = renderSegs L := by
        rw [heq, expandSegs_all_plain L hplain]
      rw [ht]
      exact h7
  refine ⟨richTextToMd (runsOfSegs L), rfl, hne, rstripC_eq_self_of_lastNonWs hlast, hnl, ?_⟩
  rw [blockOfLine_paragraph h1' h2' h3' h4' h5' h6' h7', hparse]

theorem bulletMatch_elim2 {s : List Char} (h : bulletMatch s = true) :
    ∃ a rest, s = a :: ' ' :: rest ∧ (a = '-' ∨ a = '*') := by
  cases s with
  | nil => exact absurd h Bool.false_ne_true
  | cons a t =>
      cases t with
      | nil => exact absurd h Bool.false_ne_true
      | cons b rest =>
          rw [bulletMatch, Bool.and_eq_true] at h
          obtain ⟨h1, h2⟩ := h
          simp only [decide_eq_true_eq] at h2
          subst h2
          simp only [Bool.or_eq_true, decide_eq_true_eq] at h1
          exact ⟨a, rest, rfl, h1⟩

theorem render_star_pair {L : List Seg} (hwf : wfSegs L = true) {r : List Char}
    (h : renderSegs L = '*' :: r) : ∃ r', r = '*' :: r' := by
  cases L with
  | nil => exact absurd h (by simp [renderSegs])
  | cons s t =>
      cases s with
      | plain p =>
          exfalso
          obtain ⟨hp, hpstar, _⟩ := wfSeg_plain (wfSegs_cons hwf).1
          rw [renderSegs_cons, show renderSeg (Seg.plain p) = p from rfl] at h
          cases p with
          | nil => exact hp rfl
          | cons c p' =>
              rw [List.cons_append] at h
              injection h with h1 _
              exact hpstar c (List.mem_cons_self _ _) h1
      | bold c =>
          rw [renderSegs_cons, renderSeg, List.cons_append, List.cons_append] at h
          injection h with _ h2
          exact ⟨_, h2.symm⟩

/-- **Block round trip.**  The block parsed from a non-blank well-formed
line of the dialect converts back (never suppressed) to a non-empty,
right-stripped, newline-free line that parses to the same block. -/
theorem block_roundtrip {i : MdLine} (hwf : wfLine i = true) (hnb : i ≠ MdLine.blank)
    (hnq : i ≠ MdLine.bareQuote) :
    ∃ t : List Char,
      convertBlock (blockOfLine (lineOf i)) = some t ∧ t ≠ [] ∧ rstripC t = t ∧
      (∀ x ∈ t, isLineBreak x = false) ∧ blockOfLine t = blockOfLine (lineOf i) := by
  cases i with
  | blank => exact absurd rfl hnb
  | bareQuote => exact absurd rfl hnq
  | h1 L =>
      obtain ⟨hS, hne, hlast⟩ := wfInline_elim hwf
      have hb : blockOfLine (lineOf (MdLine.h1 L)) = .heading1 (runsOfSegs L) := by
        show blockOfLine ('#' :: ' ' :: renderSegs L) = _
        rw [blockOfLine_h1, parseInline_render hS hne]
      rw [hb]
      exact convert_reparse_h1 hwf
  | h2 L =>
      obtain ⟨hS, hne, hlast⟩ := wfInline_elim hwf
      have hb : blockOfLine (lineOf (MdLine.h2 L)) = .heading2 (runsOfSegs L) := by
        show blockOfLine ('#' :: '#' :: ' ' :: renderSegs L) = _
        rw [blockOfLine_h2, parseInline_render hS hne]
      rw [hb]
      exact convert_reparse_h2 hwf
  | h3 L =>
      obtain ⟨hS, hne, hlast⟩ := wfInline_elim hwf
      have hb : blockOfLine (lineOf (MdLine.h3 L)) = .heading3 (runsOfSegs L) := by
        show blockOfLine ('#' :: '#' :: '#' :: ' ' :: renderSegs L) = _
        rw [blockOfLine_h3, parseInline_render hS hne]
      rw [hb]
      exact convert_reparse_h3 hwf
  | quoteL L =>
      obtain ⟨hS, hne, hlast⟩ := wfInline_elim hwf
      have hb : blockOfLine (lineOf (MdLine.quoteL L)) = .quote (runsOfSegs L) := by
        show blockOfLine ('>' :: ' ' :: renderSegs L) = _
        rw [blockOfLine_quote, parseInline_render hS hne]
      rw [hb]
      exact convert_reparse_quote hwf
  | bulletL L =>
      obtain ⟨hS, hne, hlast⟩ := wfInline_elim hwf
      have hb : blockOfLine (lineOf (MdLine.bulletL L)) = .bullet (runsOfSegs L) := by
        show blockOfLine ('-' :: ' ' :: renderSegs L) = _
        rw [blockOfLine_bullet, parseInline_render hS hne]
      rw [hb]
      exact convert_reparse_bullet hwf
  | bulletStarL L =>
      obtain ⟨hS, hne, hlast⟩ := wfInline_elim hwf
      have hb : blockOfLine (lineOf (MdLine.bulletStarL L)) = .bullet (runsOfSegs L) := by
        show blockOfLine ('*' :: ' ' :: renderSegs L) = _
        rw [blockOfLine_bulletStar, parseInline_render hS hne]
      rw [hb]
      exact convert_reparse_bullet hwf
  | dividerL cs =>
      have hb : blockOfLine (lineOf (MdLine.dividerL cs)) = .divider :=
        blockOfLine_dividerLine hwf
      rw [hb]
      exact ⟨['-', '-', '-'], rfl, by decide, by decide, by decide, by decide⟩
  | paraL L =>
      have hwfI : wfInline L = true := by
        rw [wfLine, Bool.and_eq_true] at hwf
        exact hwf.1
      have hq : ¬(renderSegs L = ['>']) := by
        rw [wfLine, Bool.and_eq_true] at hwf
        simpa using hwf.2
      obtain ⟨hS, hLne, hlast⟩ := wfInline_elim hwfI
      show ∃ t, convertBlock (blockOfLine (renderSegs L)) = some t ∧ t ≠ [] ∧
        rstripC t = t ∧ (∀ x ∈ t, isLineBreak x = false) ∧ blockOfLine t = blockOfLine (renderSegs L)
      by_cases cc1 : ['#', '#', '#', ' '].isPrefixOf (renderSegs L) = true
      · obtain ⟨L', hL', hrend⟩ := remainder_wf hwfI _ cc1 (by decide) (by decide) (by decide)
        obtain ⟨hS', hne', _⟩ := wfInline_elim hL'
        have hrend4 : renderSegs L' = (renderSegs L).drop 4 := hrend
        have hb : blockOfLine (renderSegs L) = .heading3 (runsOfSegs L') := by
          rw [blockOfLine, if_pos cc1, ← hrend4, parseInline_render hS' hne']
        rw [hb]
        exact convert_reparse_h3 hL'
      by_cases cc2 : ['#', '#', ' '].isPrefixOf (renderSegs L) = true
      · obtain ⟨L', hL', hrend⟩ := remainder_wf hwfI _ cc2 (by decide) (by decide) (by decide)
        obtain ⟨hS', hne', _⟩ := wfInline_elim hL'
        have hrend3 : renderSegs L' = (renderSegs L).drop 3 := hrend
        have hb : blockOfLine (renderSegs L) = .heading2 (runsOfSegs L') := by
          rw [blockOfLine, if_neg cc1, if_pos cc2, ← hrend3, parseInline_render hS' hne']
        rw [hb]
        exact convert_reparse_h2 hL'
      by_cases cc3 : ['#', ' '].isPrefixOf (renderSegs L) = true
      · obtain ⟨L', hL', hrend⟩ := remainder_wf hwfI _ cc3 (by decide) (by decide) (by decide)
        obtain ⟨hS', hne', _⟩ := wfInline_elim hL'
        have hrend2 : renderSegs L' = (renderSegs L).drop 2 := hrend
        have hb : blockOfLine (renderSegs L) = .heading1 (runsOfSegs L') := by
          rw [blockOfLine, if_neg cc1, if_neg cc2, if_pos cc3, ← hrend2,
            parseInline_render hS' hne']
        rw [hb]
        exact convert_reparse_h1 hL'
      by_cases cc4 : ['>', ' '].isPrefixOf (renderSegs L) = true
      · obtain ⟨L', hL', hrend⟩ := remainder_wf hwfI _ cc4 (by decide) (by decide) (by decide)
        obtain ⟨hS', hne', _⟩ := wfInline_elim hL'
        have hrend2 : renderSegs L' = (renderSegs L).drop 2 := hrend
        have hb : blockOfLine (renderSegs L) = .quote (runsOfSegs L') := by
          rw [blockOfLine, if_neg cc1, if_neg cc2, if_neg cc3, if_pos cc4, ← hrend2,
            parseInline_render hS' hne']
        rw [hb]
        exact convert_reparse_quote hL'
      by_cases cc6 : bulletMatch (renderSegs L) = true
      · obtain ⟨a, rest, hform, ha⟩ := bulletMatch_elim2 cc6
        have ha' : a = '-' := by
          rcases ha with h | h
          · exact h
          · exfalso
            subst h
            obtain ⟨r', hr'⟩ := render_star_pair hS hform
            injection hr' with hsp _
            exact absurd hsp (by decide)
        subst ha'
        have hpre : (['-', ' '] : List Char).isPrefixOf (renderSegs L) = true := by
          rw [hform]
          exact nil_isPrefixOf rest
        obtain ⟨L', hL', hrend⟩ := remainder_wf hwfI _ hpre (by decide) (by decide) (by decide)
        obtain ⟨hS', hne', _⟩ := wfInline_elim hL'
        have hrend2 : renderSegs L' = (renderSegs L).drop 2 := hrend
        have hrr : renderSegs L' = rest := by
          rw [hrend2, hform]
          rfl
        have hb : blockOfLine (renderSegs L) = .bullet (runsOfSegs L') := by
          rw [hform, blockOfLine_bullet, ← hrr, parseInline_render hS' hne']
        rw [hb]
        exact convert_reparse_bullet hL'
      by_cases cc7 : dividerMatch (renderSegs L) = true
      · have hb : blockOfLine (renderSegs L) = .divider := blockOfLine_dividerLine cc7
        rw [hb]
        exact ⟨['-', '-', '-'], rfl, by decide, by decide, by decide, by decide⟩
      · have hb : blockOfLine (renderSegs L) = .paragraph (runsOfSegs L) := by
          rw [blockOfLine_paragraph cc1 cc2 cc3 cc4 hq cc6 cc7,
            parseInline_render hS hLne]
        rw [hb]
        exact convert_reparse_para hwfI cc1 cc2 cc3 cc4 hq cc6 cc7

theorem intercalate_nl_cons₂ (a b : List Char) (t : List (List Char)) :
    List.intercalate ['\n'] (a :: b :: t) = a ++ '\n' :: List.intercalate ['\n'] (b :: t) := by
  rw [List.intercalate, List.intercalate, List.intersperse_cons_cons, List.flatten_cons,
    List.flatten_cons]
  rfl

theorem intercalate_nl_singleton (x : List Char) : List.intercalate ['\n'] [x] = x := by
  simp [List.intercalate]

theorem splitLinesC_ne_nil_eq {s : List Char} (h : s ≠ []) :
    splitLinesC s = (s.takeWhile (fun c => !isLineBreak c)) ::
      splitLinesC (eatBreak (s.dropWhile (fun c => !isLineBreak c))) := by
  cases s with
  | nil => exact absurd rfl h
  | cons a t => exact splitLinesC_eq (a :: t)

theorem eatBreak_nl (r : List Char) : eatBreak ('\n' :: r) = r := by
  cases r with
  | nil => rfl
  | cons d r2 =>
      show (if '\n' = '\r' ∧ d = '\n' then r2 else d :: r2) = d :: r2
      rw [if_neg (fun hcon => absurd hcon.1 (by decide))]

theorem splitLinesC_cons_line {l : List Char} (h : ∀ x ∈ l, isLineBreak x = false)
    (r : List Char) :
    splitLinesC (l ++ '\n' :: r) = l :: splitLinesC r := by
  have hall : ∀ x ∈ l, (fun c => !isLineBreak c) x = true := by
    intro x hx
    show (!isLineBreak x) = true
    rw [h x hx]
    rfl
  have hne : l ++ '\n' :: r ≠ [] := by simp
  rw [splitLinesC_ne_nil_eq hne, takeWhile_append_all hall, dropWhile_append_all hall,
    List.takeWhile_cons, List.dropWhile_cons,
    show (!isLineBreak '\n') = false from by decide,
    if_neg Bool.false_ne_true, if_neg Bool.false_ne_true, List.append_nil, eatBreak_nl]

theorem splitLinesC_single {l : List Char} (h : ∀ x ∈ l, isLineBreak x = false)
    (hne : l ≠ []) :
    splitLinesC l = [l] := by
  have hall : ∀ x ∈ l, (fun c => !isLineBreak c) x = true := by
    intro x hx
    show (!isLineBreak x) = true
    rw [h x hx]
    rfl
  have hdrop : l.dropWhile (fun c => !isLineBreak c) = [] :=
    List.dropWhile_eq_nil_iff.mpr hall
  have htake : l.takeWhile (fun c => !isLineBreak c) = l := by
    have hh : l.takeWhile (fun c => !isLineBreak c) ++
        l.dropWhile (fun c => !isLineBreak c) = l :=
      List.takeWhile_append_dropWhile _ _
    rw [hdrop, List.append_nil] at hh
    exact hh
  rw [splitLinesC_ne_nil_eq hne, htake, hdrop]
  rfl

theorem splitLinesC_intercalate :
    ∀ ls : List (List Char), (∀ l ∈ ls, ∀ x ∈ l, isLineBreak x = false) →
      splitLinesC (List.intercalate ['\n'] ls) =
        (if ls.getLast? = some [] then ls.dropLast else ls) := by
  intro ls
  induction ls with
  | nil => intro _; rfl
  | cons l t ih =>
      intro h
      cases t with
      | nil =>
          rw [intercalate_nl_singleton]
          by_cases hl : l = []
          · subst hl
            rfl
          · have hg : ([l] : List (List Char)).getLast? = some l := rfl
            rw [splitLinesC_single (h l (List.mem_cons_self _ _)) hl, hg,
              if_neg (fun hc => hl (Option.some.inj hc))]
      | cons l2 t2 =>
          rw [intercalate_nl_cons₂,
            splitLinesC_cons_line (h l (List.mem_cons_self _ _)),
            ih (fun x hx => h x (List.mem_cons_of_mem l hx)),
            getLast?_cons_ne_nil l (List.cons_ne_nil l2 t2),
            List.dropLast_cons₂]
          by_cases hc : (l2 :: t2).getLast? = some []
          · rw [if_pos hc, if_pos hc]
          · rw [if_neg hc, if_neg hc]

def glueL : Bool → List (List Char) → List NBlock
  | _, [] => []
  | canE, l :: t =>
      if rstripC l = [] then
        (if canE then emptyPara :: glueL false t else glueL false t)
      else blockOfLine (rstripC l) :: glueL true t

/-- Whether the block state allows a blank line to append an empty
paragraph: the list is non-empty and its last block is not an empty
paragraph. -/
def stateOf (blocks : List NBlock) : Bool :=
  match blocks.getLast? with
  | none => false
  | some b => !isTextEmptyPara b

theorem mdStep_blank_none {blocks : List NBlock} {line : List Char}
    (h : rstripC line = []) (hS : blocks.getLast? = none) :
    mdStep blocks line = blocks := by
  rw [mdStep, if_pos h, hS]

theorem mdStep_blank_empty {blocks : List NBlock} {line : List Char} {b : NBlock}
    (h : rstripC line = []) (hb : blocks.getLast? = some b)
    (he : isTextEmptyPara b = true) :
    mdStep blocks line = blocks := by
  rw [mdStep, if_pos h, hb]
  show (if isTextEmptyPara b = true then blocks else blocks ++ [emptyPara]) = blocks
  rw [if_pos he]

theorem mdStep_blank_solid {blocks : List NBlock} {line : List Char} {b : NBlock}
    (h : rstripC line = []) (hb : blocks.getLast? = some b)
    (he : isTextEmptyPara b = false) :
    mdStep blocks line = blocks ++ [emptyPara] := by
  rw [mdStep, if_pos h, hb]
  show (if isTextEmptyPara b = true then blocks else blocks ++ [emptyPara]) = _
  rw [if_neg (fun hc => Bool.false_ne_true (he ▸ hc))]

/-- The `for` loop of `markdown_to_notion_blocks` is the state machine
`glueL`: from any starting block list it appends exactly the glue of the
remaining lines. -/
theorem foldl_mdStep_glue :
    ∀ (ls : List (List Char)) (S : List NBlock),
      ls.foldl mdStep S = S ++ glueL (stateOf S) ls := by
  intro ls
  induction ls with
  | nil =>
      intro S
      rw [List.foldl_nil, show glueL (stateOf S) [] = [] from by cases stateOf S <;> rfl,
        List.append_nil]
  | cons l t ih =>
      intro S
      rw [List.foldl_cons]
      by_cases hb : rstripC l = []
      · cases hS : S.getLast? with
        | none =>
            have hSnil : S = [] := List.getLast?_eq_none_iff.mp hS
            subst hSnil
            rw [mdStep_blank_none hb (show ([] : List NBlock).getLast? = none from rfl),
              ih []]
            show glueL false t = glueL false (l :: t)
            rw [glueL, if_pos hb]
            rfl
        | some b =>
            by_cases he : isTextEmptyPara b = true
            · have hst : stateOf S = false := by
                rw [stateOf, hS]
                show (!isTextEmptyPara b) = false
                rw [he]
                rfl
              rw [mdStep_blank_empty hb hS he, ih S, hst]
              show S ++ glueL false t = S ++ glueL false (l :: t)
              rw [glueL, if_pos hb]
              rfl
            · have he' : isTextEmptyPara b = false := Bool.eq_false_iff.mpr he
              have hst1 : stateOf S = true := by
                rw [stateOf, hS]
                show (!isTextEmptyPara b) = true
                rw [he']
                rfl
              have hst2 : stateOf (S ++ [emptyPara]) = false := by
                rw [stateOf, getLast?_append_singleton]
                show (!isTextEmptyPara emptyPara) = false
                rw [isTextEmptyPara_emptyPara]
                rfl
              rw [mdStep_blank_solid hb hS he', ih (S ++ [emptyPara]), hst1, hst2,
                glueL, if_pos hb, if_pos rfl, List.append_assoc]
              rfl
      · have hsolid : isTextEmptyPara (blockOfLine (rstripC l)) = false :=
          isTextEmptyPara_blockOfLine hb
        have hst : stateOf (S ++ [blockOfLine (rstripC l)]) = true := by
          rw [stateOf, getLast?_append_singleton]
          show (!isTextEmptyPara (blockOfLine (rstripC l))) = true
          rw [hsolid]
          rfl
        rw [mdStep_nonblank hb, ih (S ++ [blockOfLine (rstripC l)]), hst, glueL,
          if_neg hb, List.append_assoc]
        rfl

theorem markdown_parse_glue (m : List Char) :
    markdown_to_notion_blocks m = stripTrailingEmpty (glueL false (splitLinesC m)) := by
  rw [markdown_to_notion_blocks, foldl_mdStep_glue (splitLinesC m) []]
  rfl

/-- Non-blank blocks separated by single empty paragraphs — the shape
`markdown_to_notion_blocks` produces for blank-line-separated input. -/
def alternate : List NBlock → List NBlock
  | [] => []
  | [b] => [b]
  | b :: t => b :: emptyPara :: alternate t

theorem alternate_cons_ne {b : NBlock} {Bs : List NBlock} (h : Bs ≠ []) :
    alternate (b :: Bs) = b :: emptyPara :: alternate Bs := by
  cases Bs with
  | nil => exact absurd rfl h
  | cons b2 r => rfl

def linesBlocks (ls : List (List Char)) : List NBlock :=
  ls.filterMap (fun l => if rstripC l = [] then none else some (blockOfLine (rstripC l)))

/-- No two adjacent lines are both non-blank. -/
def sepLines : List (List Char) → Bool
  | l1 :: l2 :: t => (decide (rstripC l1 = []) || decide (rstripC l2 = [])) && sepLines (l2 :: t)
  | _ => true

theorem sepLines_tail {l : List Char} {t : List (List Char)} (h : sepLines (l :: t) = true) :
    sepLines t = true := by
  cases t with
  | nil => rfl
  | cons l2 t2 =>
      have h' : ((decide (rstripC l = []) || decide (rstripC l2 = [])) &&
          sepLines (l2 :: t2)) = true := h
      rw [Bool.and_eq_true] at h'
      exact h'.2

theorem linesBlocks_cons_blank {l : List Char} {t : List (List Char)}
    (h : rstripC l = []) : linesBlocks (l :: t) = linesBlocks t := by
  rw [linesBlocks, List.filterMap_cons, if_pos h]
  rfl

theorem linesBlocks_cons_solid {l : List Char} {t : List (List Char)}
    (h : rstripC l ≠ []) :
    linesBlocks (l :: t) = blockOfLine (rstripC l) :: linesBlocks t := by
  rw [linesBlocks, List.filterMap_cons, if_neg h]
  rfl

theorem glueL_cons_blank_false {l : List Char} {t : List (List Char)}
    (h : rstripC l = []) : glueL false (l :: t) = glueL false t := by
  rw [glueL, if_pos h]
  rfl

theorem glueL_cons_blank_true {l : List Char} {t : List (List Char)}
    (h : rstripC l = []) : glueL true (l :: t) = emptyPara :: glueL false t := by
  rw [glueL, if_pos h]
  rfl

theorem glueL_cons_solid (canE : Bool) {l : List Char} {t : List (List Char)}
    (h : rstripC l ≠ []) :
    glueL canE (l :: t) = blockOfLine (rstripC l) :: glueL true t := by
  rw [glueL, if_neg h]

/-- On separated line lists the glue is the alternate form of the non-blank
blocks, possibly with one trailing empty paragraph. -/
theorem glue_alternate :
    ∀ ls : List (List Char), sepLines ls = true →
      glueL false ls = alternate (linesBlocks ls) ∨
      (linesBlocks ls ≠ [] ∧
        glueL false ls = alternate (linesBlocks ls) ++ [emptyPara]) := by
  refine list_length_induction _ ?_
  intro ls ih hsep
  cases ls with
  | nil => exact Or.inl rfl
  | cons l t =>
      by_cases hb : rstripC l = []
      · rw [glueL_cons_blank_false hb, linesBlocks_cons_blank hb]
        exact ih t (by simp only [List.length_cons]; omega) (sepLines_tail hsep)
      · rw [glueL_cons_solid false hb, linesBlocks_cons_solid hb]
        cases t with
        | nil => exact Or.inl rfl
        | cons l2 t2 =>
            have hb2 : rstripC l2 = [] := by
              have h' : ((decide (rstripC l = []) || decide (rstripC l2 = [])) &&
                  sepLines (l2 :: t2)) = true := hsep
              rw [Bool.and_eq_true] at h'
              have h'' := h'.1
              rw [Bool.or_eq_true] at h''
              rcases h'' with h2 | h2
              · exact absurd (of_decide_eq_true h2) hb
              · exact of_decide_eq_true h2
            rw [glueL_cons_blank_true hb2, linesBlocks_cons_blank hb2]
            have hsep2 : sepLines t2 = true := sepLines_tail (sepLines_tail hsep)
            rcases ih t2 (by simp only [List.length_cons]; omega) hsep2 with hG | ⟨hne, hG⟩
            · cases hBs : linesBlocks t2 with
              | nil =>
                  refine Or.inr ⟨List.cons_ne_nil _ _, ?_⟩
                  rw [hG, hBs]
                  rfl
              | cons b2 r =>
                  refine Or.inl ?_
                  rw [hG, hBs, alternate_cons_ne (List.cons_ne_nil b2 r)]
            · refine Or.inr ⟨List.cons_ne_nil _ _, ?_⟩
              rw [hG, alternate_cons_ne hne]
              rfl

theorem stripTrailingEmpty_append_empty (S : List NBlock) :
    stripTrailingEmpty (S ++ [emptyPara]) = stripTrailingEmpty S := by
  rw [stripTrailingEmpty, stripTrailingEmpty, List.reverse_append]
  show ((emptyPara :: S.reverse).dropWhile isTextEmptyPara).reverse = _
  rw [List.dropWhile_cons, if_pos isTextEmptyPara_emptyPara]

theorem stripTrailingEmpty_eq_self {S : List NBlock} {b : NBlock}
    (h : S.getLast? = some b) (hb : isTextEmptyPara b = false) :
    stripTrailingEmpty S = S := by
  rw [stripTrailingEmpty]
  have hh : S.reverse.head? = some b := by rw [List.head?_reverse, h]
  cases hr : S.reverse with
  | nil => rw [hr] at hh; exact absurd hh (by simp)
  | cons x r =>
      rw [hr] at hh
      have hx : x = b := by simpa using hh
      subst hx
      rw [List.dropWhile_cons, if_neg (fun hc => Bool.false_ne_true (hb ▸ hc))]
      rw [← hr, List.reverse_reverse]

theorem linesBlocks_all_solid (ls : List (List Char)) :
    ∀ b ∈ linesBlocks ls, isTextEmptyPara b = false := by
  intro b hb
  rw [linesBlocks] at hb
  obtain ⟨l, hl, hfb⟩ := List.mem_filterMap.mp hb
  by_cases h : rstripC l = []
  · rw [if_pos h] at hfb
    exact absurd hfb (by simp)
  · rw [if_neg h] at hfb
    have hbe := Option.some.inj hfb
    rw [← hbe]
    exact isTextEmptyPara_blockOfLine h

theorem alternate_getLast_solid :
    ∀ Bs : List NBlock, (∀ b ∈ Bs, isTextEmptyPara b = false) → Bs ≠ [] →
      ∃ b, (alternate Bs).getLast? = some b ∧ isTextEmptyPara b = false := by
  refine list_length_induction _ ?_
  intro Bs ih hall hne
  cases Bs with
  | nil => exact absurd rfl hne
  | cons b t =>
      cases t with
      | nil => exact ⟨b, rfl, hall b (List.mem_cons_self _ _)⟩
      | cons b2 r =>
          obtain ⟨c, hc, hce⟩ := ih (b2 :: r) (by simp only [List.length_cons]; omega)
            (fun x hx => hall x (List.mem_cons_of_mem b hx)) (List.cons_ne_nil _ _)
          refine ⟨c, ?_, hce⟩
          rw [alternate_cons_ne (List.cons_ne_nil b2 r)]
          have hane : alternate (b2 :: r) ≠ [] := by
            intro h0
            rw [h0] at hc
            exact absurd hc (by simp)
          rw [getLast?_cons_ne_nil _ (List.cons_ne_nil _ _), getLast?_cons_ne_nil _ hane]
          exact hc

/-- Parsing a separated line list yields exactly the alternate form of its
non-blank blocks. -/
theorem strip_glue_alternate {ls : List (List Char)} (hsep : sepLines ls = true) :
    stripTrailingEmpty (glueL false ls) = alternate (linesBlocks ls) := by
  by_cases hBs : linesBlocks ls = []
  · rcases glue_alternate ls hsep with hG | ⟨hne, hG⟩
    · rw [hG, hBs]
      rfl
    · exact absurd hBs hne
  · obtain ⟨c, hc, hce⟩ :=
      alternate_getLast_solid (linesBlocks ls) (linesBlocks_all_solid ls) hBs
    rcases glue_alternate ls hsep with hG | ⟨hne, hG⟩
    · rw [hG]
      exact stripTrailingEmpty_eq_self hc hce
    · rw [hG, stripTrailingEmpty_append_empty]
      exact stripTrailingEmpty_eq_self hc hce

theorem convertBlock_emptyPara : convertBlock emptyPara = some [] := rfl

theorem filterMap_convert_alternate :
    ∀ {Bs : List NBlock} {ts : List (List Char)},
      List.Forall₂ (fun b t => convertBlock b = some t) Bs ts →
      (alternate Bs).filterMap convertBlock = List.intersperse [] ts := by
  intro Bs ts h
  induction h with
  | nil => rfl
  | @cons b t Bs' ts' hbt hrest ih =>
      cases hrest with
      | nil =>
          rw [show alternate [b] = [b] from rfl, List.filterMap_cons, hbt]
          rfl
      | @cons b2 t2 Bs'' ts'' hbt2 hrest2 =>
          rw [alternate_cons_ne (List.cons_ne_nil b2 Bs''), List.filterMap_cons, hbt,
            List.filterMap_cons, convertBlock_emptyPara, List.intersperse_cons_cons]
          show t :: [] :: (alternate (b2 :: Bs'')).filterMap convertBlock = _
          rw [ih]

theorem intercalate_nlnl_cons₂ (a b : List Char) (t : List (List Char)) :
    List.intercalate ['\n', '\n'] (a :: b :: t) =
      a ++ '\n' :: '\n' :: List.intercalate ['\n', '\n'] (b :: t) := by
  rw [List.intercalate, List.intercalate, List.intersperse_cons_cons, List.flatten_cons,
    List.flatten_cons]
  rfl

theorem intercalate_nlnl_singleton (x : List Char) :
    List.intercalate ['\n', '\n'] [x] = x := by
  simp [List.intercalate]

theorem intersperse_cons_ne_nil (sep : List Char) (x : List Char) (t : List (List Char)) :
    List.intersperse sep (x :: t) ≠ [] := by
  cases t with
  | nil => simp
  | cons y r =>
      rw [List.intersperse_cons_cons]
      exact List.cons_ne_nil _ _

theorem splitLinesC_nl_cons (X : List Char) :
    splitLinesC ('\n' :: X) = [] :: splitLinesC X := by
  have : splitLinesC (([] : List Char) ++ '\n' :: X) = [] :: splitLinesC X :=
    splitLinesC_cons_line (fun x hx => absurd hx (List.not_mem_nil x)) X
  rwa [List.nil_append] at this

/-- Re-parsing the joined rendered lines of an alternate block list gives
back its blocks. -/
theorem glue_convert_doc :
    ∀ ts : List (List Char),
      (∀ t ∈ ts, t ≠ [] ∧ rstripC t = t ∧ (∀ x ∈ t, isLineBreak x = false)) →
      glueL false (splitLinesC (List.intercalate ['\n', '\n'] (List.intersperse [] ts))) =
        alternate (ts.map (fun t => blockOfLine (rstripC t))) := by
  refine list_length_induction _ ?_
  intro ts ih hprops
  cases ts with
  | nil => rfl
  | cons t1 rest1 =>
      obtain ⟨h1ne, h1strip, h1nl⟩ := hprops t1 (List.mem_cons_self _ _)
      have h1nb : rstripC t1 ≠ [] := by rw [h1strip]; exact h1ne
      cases rest1 with
      | nil =>
          rw [show List.intersperse ([] : List Char) [t1] = [t1] from by simp,
            intercalate_nlnl_singleton, splitLinesC_single h1nl h1ne,
            glueL_cons_solid false h1nb]
          rfl
      | cons t2 rest =>
          rw [List.intersperse_cons_cons]
          rw [intercalate_nlnl_cons₂]
          cases hII : List.intersperse ([] : List Char) (t2 :: rest) with
          | nil => exact absurd hII (intersperse_cons_ne_nil _ _ _)
          | cons u us =>
              rw [intercalate_nlnl_cons₂, List.nil_append, ← hII]
              rw [splitLinesC_cons_line h1nl, splitLinesC_nl_cons, splitLinesC_nl_cons,
                splitLinesC_nl_cons]
              rw [glueL_cons_solid false h1nb,
                glueL_cons_blank_true (show rstripC [] = ([] : List Char) from rfl),
                glueL_cons_blank_false (show rstripC [] = ([] : List Char) from rfl),
                glueL_cons_blank_false (show rstripC [] = ([] : List Char) from rfl),
                ih (t2 :: rest) (by simp only [List.length_cons]; omega)
                  (fun t ht => hprops t (List.mem_cons_of_mem t1 ht))]
              rw [show List.map (fun t => blockOfLine (rstripC t)) (t1 :: t2 :: rest) =
                  blockOfLine (rstripC t1) ::
                    List.map (fun t => blockOfLine (rstripC t)) (t2 :: rest) from rfl,
                alternate_cons_ne (show List.map (fun t => blockOfLine (rstripC t))
                  (t2 :: rest) ≠ [] from by rw [List.map_cons]; exact List.cons_ne_nil _ _)]

def docOf (items : List MdLine) : List Char :=
  List.intercalate ['\n'] (items.map lineOf)

def wfItems (items : List MdLine) : Bool := items.all wfLine

def isBlankI : MdLine → Bool
  | .blank => true
  | _ => false

/-- No two adjacent non-blank items: every pair of adjacent logical lines
has a blank line member. -/
def sepItems : List MdLine → Bool
  | i :: j :: t => (isBlankI i || isBlankI j) && sepItems (j :: t)
  | _ => true

def noBareQuote (items : List MdLine) : Bool :=
  items.all (fun i => decide (i ≠ MdLine.bareQuote))

theorem wfItems_mem {items : List MdLine} (h : wfItems items = true) :
    ∀ i ∈ items, wfLine i = true := by
  rw [wfItems, List.all_eq_true] at h
  exact h

theorem noBareQuote_mem {items : List MdLine} (h : noBareQuote items = true) :
    ∀ i ∈ items, i ≠ MdLine.bareQuote := by
  rw [noBareQuote, List.all_eq_true] at h
  intro i hi
  simpa using h i hi

theorem sepItems_tail {i : MdLine} {t : List MdLine} (h : sepItems (i :: t) = true) :
    sepItems t = true := by
  cases t with
  | nil => rfl
  | cons j t2 =>
      have h' : ((isBlankI i || isBlankI j) && sepItems (j :: t2)) = true := h
      rw [Bool.and_eq_true] at h'
      exact h'.2

theorem isBlankI_eq_blank {i : MdLine} (h : isBlankI i = true) : i = MdLine.blank := by
  cases i <;> first | rfl | exact absurd h Bool.false_ne_true

theorem lineOf_nonblank {i : MdLine} (hwf : wfLine i = true) (hnb : i ≠ MdLine.blank) :
    rstripC (lineOf i) = lineOf i ∧ lineOf i ≠ [] := by
  cases i with
  | blank => exact absurd rfl hnb
  | bareQuote => exact ⟨by decide, by decide⟩
  | dividerL cs =>
      obtain ⟨hlen, hall⟩ := dividerMatch_elim hwf
      have hcne : cs ≠ [] := by
        intro h0
        rw [h0] at hlen
        simp at hlen
      have hlast : lastNonWs cs = true := by
        cases hg : cs.getLast? with
        | none => exact absurd (List.getLast?_eq_none_iff.mp hg) hcne
        | some c =>
            refine lastNonWs_intro hg ?_
            rcases hall c (List.mem_of_mem_getLast? hg) with h | h | h <;> (subst h; decide)
      exact ⟨rstripC_eq_self_of_lastNonWs hlast, hcne⟩
  | h1 L =>
      obtain ⟨hS, hne, hlast⟩ := wfInline_elim hwf
      have hrne : renderSegs L ≠ [] := renderSegs_ne_nil hS hne
      exact ⟨rstripC_eq_self_of_lastNonWs
        (lastNonWs_cons (List.cons_ne_nil _ _) (lastNonWs_cons hrne hlast)),
        List.cons_ne_nil _ _⟩
  | h2 L =>
      obtain ⟨hS, hne, hlast⟩ := wfInline_elim hwf
      have hrne : renderSegs L ≠ [] := renderSegs_ne_nil hS hne
      exact ⟨rstripC_eq_self_of_lastNonWs
        (lastNonWs_cons (List.cons_ne_nil _ _) (lastNonWs_cons (List.cons_ne_nil _ _)
          (lastNonWs_cons hrne hlast))),
        List.cons_ne_nil _ _⟩
  | h3 L =>
      obtain ⟨hS, hne, hlast⟩ := wfInline_elim hwf
      have hrne : renderSegs L ≠ [] := renderSegs_ne_nil hS hne
      exact ⟨rstripC_eq_self_of_lastNonWs
        (lastNonWs_cons (List.cons_ne_nil _ _) (lastNonWs_cons (List.cons_ne_nil _ _)
          (lastNonWs_cons (List.cons_ne_nil _ _) (lastNonWs_cons hrne hlast)))),
        List.cons_ne_nil _ _⟩
  | quoteL L =>
      obtain ⟨hS, hne, hlast⟩ := wfInline_elim hwf
      have hrne : renderSegs L ≠ [] := renderSegs_ne_nil hS hne
      exact ⟨rstripC_eq_self_of_lastNonWs
        (lastNonWs_cons (List.cons_ne_nil _ _) (lastNonWs_cons hrne hlast)),
        List.cons_ne_nil _ _⟩
  | bulletL L =>
      obtain ⟨hS, hne, hlast⟩ := wfInline_elim hwf
      have hrne : renderSegs L ≠ [] := renderSegs_ne_nil hS hne
      exact ⟨rstripC_eq_self_of_lastNonWs
        (lastNonWs_cons (List.cons_ne_nil _ _) (lastNonWs_cons hrne hlast)),
        List.cons_ne_nil _ _⟩
  | bulletStarL L =>
      obtain ⟨hS, hne, hlast⟩ := wfInline_elim hwf
      have hrne : renderSegs L ≠ [] := renderSegs_ne_nil hS hne
      exact ⟨rstripC_eq_self_of_lastNonWs
        (lastNonWs_cons (List.cons_ne_nil _ _) (lastNonWs_cons hrne hlast)),
        List.cons_ne_nil _ _⟩
  | paraL L =>
      have hwfI : wfInline L = true := by
        rw [wfLine, Bool.and_eq_true] at hwf
        exact hwf.1
      obtain ⟨hS, hne, hlast⟩ := wfInline_elim hwfI
      exact ⟨rstripC_eq_self_of_lastNonWs hlast, renderSegs_ne_nil hS hne⟩

theorem lineOf_no_break {i : MdLine} (hwf : wfLine i = true) : ∀ x ∈ lineOf i, isLineBreak x = false := by
  cases i with
  | blank => intro x hx; exact absurd hx (List.not_mem_nil x)
  | bareQuote => decide
  | dividerL cs =>
      obtain ⟨_, hall⟩ := dividerMatch_elim hwf
      intro x hx
      rcases hall x hx with h | h | h <;> (subst h; decide)
  | h1 L =>
      obtain ⟨hS, _, _⟩ := wfInline_elim hwf
      intro x hx
      rcases List.mem_cons.mp hx with h | hx2
      · subst h; decide
      rcases List.mem_cons.mp hx2 with h | hx3
      · subst h; decide
      · exact renderSegs_no_break hS x hx3
  | h2 L =>
      obtain ⟨hS, _, _⟩ := wfInline_elim hwf
      intro x hx
      rcases List.mem_cons.mp hx with h | hx2
      · subst h; decide
      rcases List.mem_cons.mp hx2 with h | hx3
      · subst h; decide
      rcases List.mem_cons.mp hx3 with h | hx4
      · subst h; decide
      · exact renderSegs_no_break hS x hx4
  | h3 L =>
      obtain ⟨hS, _, _⟩ := wfInline_elim hwf
      intro x hx
      rcases List.mem_cons.mp hx with h | hx2
      · subst h; decide
      rcases List.mem_cons.mp hx2 with h | hx3
      · subst h; decide
      rcases List.mem_cons.mp hx3 with h | hx4
      · subst h; decide
      rcases List.mem_cons.mp hx4 with h | hx5
      · subst h; decide
      · exact renderSegs_no_break hS x hx5
  | quoteL L =>
      obtain ⟨hS, _, _⟩ := wfInline_elim hwf
      intro x hx
      rcases List.mem_cons.mp hx with h | hx2
      · subst h; decide
      rcases List.mem_cons.mp hx2 with h | hx3
      · subst h; decide
      · exact renderSegs_no_break hS x hx3
  | bulletL L =>
      obtain ⟨hS, _, _⟩ := wfInline_elim hwf
      intro x hx
      rcases List.mem_cons.mp hx with h | hx2
      · subst h; decide
      rcases List.mem_cons.mp hx2 with h | hx3
      · subst h; decide
      · exact renderSegs_no_break hS x hx3
  | bulletStarL L =>
      obtain ⟨hS, _, _⟩ := wfInline_elim hwf
      intro x hx
      rcases List.mem_cons.mp hx with h | hx2
      · subst h; decide
      rcases List.mem_cons.mp hx2 with h | hx3
      · subst h; decide
      · exact renderSegs_no_break hS x hx3
  | paraL L =>
      have hwfI : wfInline L = true := by
        rw [wfLine, Bool.and_eq_true] at hwf
        exact hwf.1
      exact renderSegs_no_break (wfInline_elim hwfI).1

theorem sepLines_of_sepItems :
    ∀ items : List MdLine, wfItems items = true → sepItems items = true →
      sepLines (items.map lineOf) = true := by
  intro items
  induction items with
  | nil => intro _ _; rfl
  | cons i t ih =>
      intro hwf hsep
      have hwft : wfItems t = true := by
        rw [wfItems, List.all_cons, Bool.and_eq_true] at hwf
        exact hwf.2
      cases t with
      | nil => rfl
      | cons j t2 =>
          show ((decide (rstripC (lineOf i) = []) || decide (rstripC (lineOf j) = [])) &&
            sepLines (lineOf j :: t2.map lineOf)) = true
          rw [Bool.and_eq_true]
          constructor
          · have h' : ((isBlankI i || isBlankI j) && sepItems (j :: t2)) = true := hsep
            rw [Bool.and_eq_true] at h'
            have h'' := h'.1
            rw [Bool.or_eq_true] at h''
            rw [Bool.or_eq_true]
            rcases h'' with hbi | hbj
            · left
              rw [isBlankI_eq_blank hbi]
              decide
            · right
              rw [isBlankI_eq_blank hbj]
              decide
          · exact ih hwft (sepItems_tail hsep)

theorem strip_foldl_append_blank (ls : List (List Char)) {l : List Char}
    (hb : rstripC l = []) :
    stripTrailingEmpty ((ls ++ [l]).foldl mdStep []) =
      stripTrailingEmpty (ls.foldl mdStep []) := by
  rw [List.foldl_append]
  show stripTrailingEmpty (mdStep (ls.foldl mdStep []) l) = _
  cases hS : (ls.foldl mdStep []).getLast? with
  | none => rw [mdStep_blank_none hb hS]
  | some b =>
      by_cases he : isTextEmptyPara b = true
      · rw [mdStep_blank_empty hb hS he]
      · rw [mdStep_blank_solid hb hS (Bool.eq_false_iff.mpr he),
          stripTrailingEmpty_append_empty]

theorem dropLast_append_of_getLast? {α : Type _} {l : List α} {a : α}
    (h : l.getLast? = some a) : l = l.dropLast ++ [a] := by
  have hne : l ≠ [] := by
    intro h0
    rw [h0] at h
    exact absurd h (by simp)
  have hgl := List.getLast?_eq_getLast l hne
  rw [hgl] at h
  have ha := Option.some.inj h
  rw [← ha]
  exact (List.dropLast_append_getLast hne).symm

/-- The parse of a well-formed separated document is the alternate form of
its non-blank blocks. -/
theorem parse_docOf {items : List MdLine} (hwf : wfItems items = true)
    (hsep : sepItems items = true) :
    markdown_to_notion_blocks (docOf items) =
      alternate (linesBlocks (items.map lineOf)) := by
  have hnl : ∀ l ∈ items.map lineOf, ∀ x ∈ l, isLineBreak x = false := by
    intro l hl
    obtain ⟨i, hi, rfl⟩ := List.mem_map.mp hl
    exact lineOf_no_break (wfItems_mem hwf i hi)
  have hsepL : sepLines (items.map lineOf) = true := sepLines_of_sepItems items hwf hsep
  have hsplit := splitLinesC_intercalate (items.map lineOf) hnl
  rw [markdown_to_notion_blocks]
  show stripTrailingEmpty ((splitLinesC (docOf items)).foldl mdStep []) = _
  rw [show splitLinesC (docOf items) =
    (if (items.map lineOf).getLast? = some [] then (items.map lineOf).dropLast
     else items.map lineOf) from hsplit]
  by_cases hlast : (items.map lineOf).getLast? = some []
  · rw [if_pos hlast]
    have hdecomp : items.map lineOf = (items.map lineOf).dropLast ++ [[]] :=
      dropLast_append_of_getLast? hlast
    have hblank : rstripC ([] : List Char) = [] := rfl
    have := strip_foldl_append_blank ((items.map lineOf).dropLast) hblank
    rw [← hdecomp] at this
    rw [← this, foldl_mdStep_glue _ []]
    show stripTrailingEmpty (glueL false (items.map lineOf)) = _
    exact strip_glue_alternate hsepL
  · rw [if_neg hlast, foldl_mdStep_glue _ []]
    show stripTrailingEmpty (glueL false (items.map lineOf)) = _
    exact strip_glue_alternate hsepL

theorem exists_rendered_lines :
    ∀ items : List MdLine, wfItems items = true → noBareQuote items = true →
      ∃ ts : List (List Char),
        List.Forall₂ (fun b t => convertBlock b = some t)
          (linesBlocks (items.map lineOf)) ts ∧
        (∀ t ∈ ts, t ≠ [] ∧ rstripC t = t ∧ (∀ x ∈ t, isLineBreak x = false)) ∧
        ts.map (fun t => blockOfLine (rstripC t)) = linesBlocks (items.map lineOf) := by
  intro items
  induction items with
  | nil =>
      exact fun _ _ => ⟨[], List.Forall₂.nil, fun t ht => absurd ht (List.not_mem_nil t), rfl⟩
  | cons i rest ih =>
      intro hwf hnq
      have hwfi : wfLine i = true := wfItems_mem hwf i (List.mem_cons_self _ _)
      have hwfr : wfItems rest = true := by
        rw [wfItems, List.all_cons, Bool.and_eq_true] at hwf
        exact hwf.2
      have hnqr : noBareQuote rest = true := by
        rw [noBareQuote, List.all_cons, Bool.and_eq_true] at hnq
        exact hnq.2
      obtain ⟨ts', hF, hprops, hmap⟩ := ih hwfr hnqr
      rw [List.map_cons]
      by_cases hb : rstripC (lineOf i) = []
      · rw [linesBlocks_cons_blank hb]
        exact ⟨ts', hF, hprops, hmap⟩
      · have hnb : i ≠ MdLine.blank := by
          intro h0
          subst h0
          exact hb rfl
        have hnqi : i ≠ MdLine.bareQuote := noBareQuote_mem hnq i (List.mem_cons_self _ _)
        obtain ⟨t, hconv, htne, htstrip, htnl, htparse⟩ := block_roundtrip hwfi hnb hnqi
        obtain ⟨hstripSelf, _⟩ := lineOf_nonblank hwfi hnb
        refine ⟨t :: ts', ?_, ?_, ?_⟩
        · rw [linesBlocks_cons_solid hb, hstripSelf]
          exact List.Forall₂.cons hconv hF
        · intro x hx
          rcases List.mem_cons.mp hx with h0 | h0
          · subst h0
            exact ⟨htne, htstrip, htnl⟩
          · exact hprops x h0
        · rw [List.map_cons, linesBlocks_cons_solid hb, hstripSelf, htstrip, htparse, hmap]

/-- **C1** — Round trip of the supported dialect, amended.  For a document
of the supported subset whose non-blank lines are pairwise separated by
blank lines and which contains no bare `'>'` quote line, parsing with
`markdown_to_notion_blocks`, rendering with `NotionBlockConverter.convert`
and re-parsing yields the same block list.  (The unamended claim is refuted
by `C1_counterexample`: adjacent non-blank lines lose their distinctness
paragraph break, and the bare `'>'` quote is suppressed on render.) -/
theorem C1_roundtrip_amended (items : List MdLine)
    (hwf : wfItems items = true) (hsep : sepItems items = true)
    (hnq : noBareQuote items = true) :
    markdown_to_notion_blocks (NotionBlockConverter_convert
      (markdown_to_notion_blocks (docOf items))) =
    markdown_to_notion_blocks (docOf items) := by
  obtain ⟨ts, hF, hprops, hmap⟩ := exists_rendered_lines items hwf hnq
  have hP1 := parse_docOf hwf hsep
  rw [hP1, NotionBlockConverter_convert, filterMap_convert_alternate hF,
    markdown_parse_glue, glue_convert_doc ts hprops, hmap]
  by_cases hBs : linesBlocks (items.map lineOf) = []
  · rw [hBs]
    rfl
  · obtain ⟨c, hc, hce⟩ := alternate_getLast_solid _ (linesBlocks_all_solid _) hBs
    exact stripTrailingEmpty_eq_self hc hce

/-- **C1 counterexample** — The unamended round trip fails on documents of
the claimed subset.  `"a\nb"` (two adjacent plain paragraph lines, no blank
separator) re-parses with an extra empty paragraph between the two
paragraphs, and the bare `'>'` quote line (an explicitly claimed dialect
member, here even trivially separated) is suppressed by the converter, so
its re-parse is empty. -/
theorem C1_counterexample :
    (∃ items : List MdLine, wfItems items = true ∧
        docOf items = "a\nb".toList ∧
        markdown_to_notion_blocks (NotionBlockConverter_convert
          (markdown_to_notion_blocks (docOf items))) ≠
          markdown_to_notion_blocks (docOf items)) ∧
    (∃ items : List MdLine, wfItems items = true ∧ sepItems items = true ∧
        docOf items = ['>'] ∧
        markdown_to_notion_blocks (NotionBlockConverter_convert
          (markdown_to_notion_blocks (docOf items))) ≠
          markdown_to_notion_blocks (docOf items)) := by
  constructor
  · refine ⟨[MdLine.paraL [Seg.plain ['a']], MdLine.paraL [Seg.plain ['b']]], ?_, ?_, ?_⟩
    · decide
    · decide
    · decide
  · refine ⟨[MdLine.bareQuote], ?_, ?_, ?_, ?_⟩
    · decide
    · decide
    · decide
    · decide

/-- Witness for `C1_roundtrip_amended` at a concrete document exercising a
heading, a bold-span paragraph, a divider, a quote and a bullet. -/
theorem C1_roundtrip_amended_witness :
    wfItems [MdLine.h1 [Seg.plain "Title".toList], MdLine.blank,
      MdLine.paraL [Seg.plain "Hello ".toList, Seg.bold "world".toList], MdLine.blank,
      MdLine.dividerL "---".toList, MdLine.blank,
      MdLine.quoteL [Seg.plain "q".toList], MdLine.blank,
      MdLine.bulletL [Seg.plain "item".toList], MdLine.blank,
      MdLine.bulletStarL [Seg.plain "star".toList]] = true ∧
    sepItems [MdLine.h1 [Seg.plain "Title".toList], MdLine.blank,
      MdLine.paraL [Seg.plain "Hello ".toList, Seg.bold "world".toList], MdLine.blank,
      MdLine.dividerL "---".toList, MdLine.blank,
      MdLine.quoteL [Seg.plain "q".toList], MdLine.blank,
      MdLine.bulletL [Seg.plain "item".toList], MdLine.blank,
      MdLine.bulletStarL [Seg.plain "star".toList]] = true ∧
    noBareQuote [MdLine.h1 [Seg.plain "Title".toList], MdLine.blank,
      MdLine.paraL [Seg.plain "Hello ".toList, Seg.bold "world".toList], MdLine.blank,
      MdLine.dividerL "---".toList, MdLine.blank,
      MdLine.quoteL [Seg.plain "q".toList], MdLine.blank,
      MdLine.bulletL [Seg.plain "item".toList], MdLine.blank,
      MdLine.bulletStarL [Seg.plain "star".toList]] = true ∧
    markdown_to_notion_blocks (NotionBlockConverter_convert
      (markdown_to_notion_blocks (docOf [MdLine.h1 [Seg.plain "Title".toList], MdLine.blank,
        MdLine.paraL [Seg.plain "Hello ".toList, Seg.bold "world".toList], MdLine.blank,
        MdLine.dividerL "---".toList, MdLine.blank,
        MdLine.quoteL [Seg.plain "q".toList], MdLine.blank,
        MdLine.bulletL [Seg.plain "item".toList], MdLine.blank,
      MdLine.bulletStarL [Seg.plain "star".toList]]))) =
    markdown_to_notion_blocks (docOf [MdLine.h1 [Seg.plain "Title".toList], MdLine.blank,
      MdLine.paraL [Seg.plain "Hello ".toList, Seg.bold "world".toList], MdLine.blank,
      MdLine.dividerL "---".toList, MdLine.blank,
      MdLine.quoteL [Seg.plain "q".toList], MdLine.blank,
      MdLine.bulletL [Seg.plain "item".toList], MdLine.blank,
      MdLine.bulletStarL [Seg.plain "star".toList]]) :=
  ⟨by decide, by decide, by decide,
   C1_roundtrip_amended _ (by decide) (by decide) (by decide)⟩
